import Mathlib

/-!
# musikbox `SimpleScrollAdapter`: word wrap, bounded entry store, line index, page renderer

A shallow embedding of `src/musikbox/SimpleScrollAdapter.cpp`.

Conventions of the embedding.

* A `std::string` is the list of its bytes (`Str`), each byte a natural number below 256.
* `size_t` is taken to be 64 bits wide, and `size_t` values are natural numbers.
  Subtractions and decrements, which the source can drive below zero, wrap modulo `2 ^ 64`
  (`wsub`), and so does the midpoint sum of the binary search.  The line counters are only ever incremented by the number of lines physically held
  in memory, so their additions are not reduced (a counter needs `2 ^ 64` lines to wrap; the
  `int` running sum of `Reindex` is treated the same way).
* Code that can fail returns `Option`: `none` stands for an exception leaving the function
  (`std::out_of_range` from `at`) or for undefined behaviour (an iterator moved past the end of
  its string, a float-to-int conversion of an infinite value).
* `float` is IEEE 754 single precision, rounding to nearest with ties to even.  The values
  that occur are converted whole numbers (`toFloat`) and the rounded-up quotient of two of
  them (`ceilFloatDiv`), and both are computed exactly, as natural numbers.
-/

namespace Musikbox

/-! ## Machine words and strings -/

/-- A `std::string`, as its sequence of bytes. -/
abbrev Str := List Nat

/-- Number of values of a `size_t`. -/
def SIZE_MOD : Nat := 2 ^ 64

/-- The value of `(size_t) -1`. -/
def SIZE_MAX : Nat := 2 ^ 64 - 1

/-- Subtraction `a - b` of two `size_t` values (naturals below `2 ^ 64`), wrapping below
zero. -/
def wsub (a b : Nat) : Nat := if b ≤ a then a - b else a + SIZE_MOD - b

/-- The bytes of a string literal made of ASCII characters. -/
def ascii (s : String) : Str := s.data.map Char.toNat

/-! ## The utf8 helper library

`utf8/unchecked.h` is included by the source but is not part of it.  The three functions the
wrapper calls are modelled here after the library: `utf8::distance` (checked), and
`utf8::unchecked::next`. -/

/-- Modelled from the spec: `utf8::internal::mask8` of the missing header `utf8/unchecked.h`;
the low eight bits of an octet. -/
def mask8 (b : Nat) : Nat := b % 256

/-- Modelled from the spec: `utf8::internal::sequence_length` of the missing header
`utf8/unchecked.h`; the byte length of the encoded code point announced by a lead byte, `0`
for a byte that cannot start a sequence.  The spec measures text "in Unicode code points, not
storage units". -/
def sequence_length (lead : Nat) : Nat :=
  if mask8 lead < 0x80 then 1
  else if mask8 lead / 32 = 0x6 then 2
  else if mask8 lead / 16 = 0xe then 3
  else if mask8 lead / 8 = 0x1e then 4
  else 0

/-- Modelled from the spec: `utf8::internal::is_trail` of the missing header; a continuation
byte `10xxxxxx`. -/
def is_trail (b : Nat) : Bool := decide (mask8 b / 64 = 2)

/-- Modelled from the spec: `utf8::internal::is_code_point_valid` of the missing header; at
most U+10FFFF and not a surrogate. -/
def is_code_point_valid (cp : Nat) : Bool :=
  decide (cp ≤ 0x10ffff) && !(decide (0xd800 ≤ cp) && decide (cp ≤ 0xdfff))

/-- Modelled from the spec: `utf8::internal::is_overlong_sequence` of the missing header. -/
def is_overlong_sequence (cp length : Nat) : Bool :=
  if cp < 0x80 then decide (length ≠ 1)
  else if cp < 0x800 then decide (length ≠ 2)
  else if cp < 0x10000 then decide (length ≠ 3)
  else false

/-- Modelled from the spec: the security checks at the end of `utf8::internal::validate_next`
of the missing header; `some rest` when the decoded code point is accepted. -/
def check_code_point (cp length : Nat) (rest : Str) : Option Str :=
  if is_code_point_valid cp && !is_overlong_sequence cp length then some rest else none

/-- Modelled from the spec: the checked `utf8::next` of the missing header `utf8/unchecked.h`:
decodes one code point from the front of the string and returns what follows it; `none` where
the library throws (empty range, invalid lead byte, missing or invalid continuation byte,
overlong sequence, invalid code point). -/
def validate_next : Str → Option Str
  | [] => none
  | b0 :: rest =>
    match sequence_length b0, rest with
    | 1, r => check_code_point (mask8 b0) 1 r
    | 2, b1 :: r =>
      if is_trail b1 then
        check_code_point (mask8 b0 % 32 * 64 + mask8 b1 % 64) 2 r
      else none
    | 3, b1 :: b2 :: r =>
      if is_trail b1 && is_trail b2 then
        check_code_point (mask8 b0 % 16 * 4096 + mask8 b1 % 64 * 64 + mask8 b2 % 64) 3 r
      else none
    | 4, b1 :: b2 :: b3 :: r =>
      if is_trail b1 && is_trail b2 && is_trail b3 then
        check_code_point
          (mask8 b0 % 8 * 262144 + mask8 b1 % 64 * 4096 + mask8 b2 % 64 * 64 + mask8 b3 % 64) 4 r
      else none
    | _, _ => none

/-- Modelled from the spec: the loop of `utf8::distance` of the missing header, which calls the
checked `next` until the range is used up and counts the calls.  The first argument bounds the
number of calls; the length of the string is always enough. -/
def distanceLoop : Nat → Str → Option Nat
  | _, [] => some 0
  | 0, _ :: _ => none
  | fuel + 1, b :: rest =>
    match validate_next (b :: rest) with
    | none => none
    | some r =>
      match distanceLoop fuel r with
      | none => none
      | some n => some (n + 1)

/-- Modelled from the spec: `utf8::distance(str.begin(), str.end())` of the missing header: the
number of code points of a well-formed UTF-8 string, `none` where the library throws. -/
def distance (s : Str) : Option Nat := distanceLoop s.length s

/-- Modelled from the spec: `utf8::unchecked::next` of the missing header: moves the iterator
over one encoded code point, trusting the lead byte (one byte for a byte that is no lead
byte).  Returns the bytes passed over and the rest; `none` when the iterator would leave the
string. -/
def unchecked_next (s : Str) : Option (Str × Str) :=
  match s with
  | [] => none
  | b :: _ =>
    let n := if sequence_length b = 0 then 1 else sequence_length b
    if n ≤ s.length then some (s.take n, s.drop n) else none

/-! ## The wrapper -/

/-- The function `utf8Length` of the source: the code point count, and the byte count when the
library throws. -/
def utf8Length (str : Str) : Nat :=
  match distance str with
  | some n => n
  | none => str.length

/-- The predicate `boost::is_any_of(set)`. -/
def is_any_of (set : Str) (b : Nat) : Bool := set.contains b

/-- The call `boost::algorithm::split(result, input, pred)` with its default
`token_compress_off`: cuts at every delimiter byte, keeping empty tokens. -/
def split (pred : Nat → Bool) : Str → List Str
  | [] => [[]]
  | b :: rest =>
    if pred b then [] :: split pred rest
    else
      match split pred rest with
      | [] => [[b]]
      | w :: ws => (b :: w) :: ws

/-- The whitespace set `" \t\v\f\r"` of the wrapper. -/
def whitespace : Str := [32, 9, 11, 12, 13]

/-- The `while (end != word.end())` loop of `breakIntoSubLines` that cuts a long word.
`chunk` is the range `[begin, end)`, `rest` the range `[end, word.end())`, and the result is
the list of strings pushed onto `sanitizedWords`.  The first argument bounds the number of
iterations; the byte length of the word is always enough. -/
def splitWordLoop (width : Nat) : Nat → Str → Str → Nat → Option (List Str)
  | _, _, [], _ => some []
  | 0, _, _ :: _, _ => none
  | fuel + 1, chunk, b :: rest, count =>
    match unchecked_next (b :: rest) with
    | none => none
    | some (ch, rest1) =>
      if count + 1 = wsub width 1 ∨ rest1 = [] then
        match splitWordLoop width fuel [] rest1 0 with
        | none => none
        | some chunks => some ((chunk ++ ch) :: chunks)
      else splitWordLoop width fuel (chunk ++ ch) rest1 (count + 1)

/-- The loop of `breakIntoSubLines` that fills `sanitizedWords`: a word of at most `width`
bytes is kept, a longer one is cut by `splitWordLoop`. -/
def sanitizeWords (width : Nat) : List Str → Option (List Str)
  | [] => some []
  | word :: words =>
    if width ≥ word.length then
      match sanitizeWords width words with
      | none => none
      | some rest => some (word :: rest)
    else
      match splitWordLoop width word.length [] word 0 with
      | none => none
      | some chunks =>
        match sanitizeWords width words with
        | none => none
        | some rest => some (chunks ++ rest)

/-- The packing loop of `breakIntoSubLines` over `sanitizedWords`, followed by the final flush.
`size` is `sanitizedWords.size()`, `i` the loop index; the result is the list of strings pushed
onto `output`.  Inside the loop `size` is at least one, so `size - 1` does not wrap. -/
def packLoop (width size : Nat) : Nat → List Str → Str → Nat → List Str
  | _, [], accum, _ => if accum.length ≠ 0 then [accum] else []
  | i, word :: rest, accum, accumLength =>
    let wordLength := utf8Length word
    let extra := if i ≠ 0 ∧ size - 1 ≠ 0 then 1 else 0
    if accumLength + extra + wordLength < width then
      packLoop width size (i + 1) rest
        (accum ++ (if extra ≠ 0 then [32] else []) ++ word) (accumLength + wordLength + extra)
    else if wordLength = width then
      accum :: word :: packLoop width size (i + 1) rest [] 0
    else
      accum :: packLoop width size (i + 1) rest word wordLength

/-- Rounding of the quotient `num / den` of two naturals to a whole number: to the nearest,
and to the even one of the two when it lies halfway; the rounding of single-precision
arithmetic in its default mode. -/
def roundHalfEven (num den : Nat) : Nat :=
  if den < 2 * (num % den) ∨ (2 * (num % den) = den ∧ num / den % 2 = 1) then num / den + 1
  else num / den

/-- The number of low bits of a natural that do not fit the 24-bit significand of a `float`:
zero below `2 ^ 24`, one below `2 ^ 25`, and so on.  The first argument bounds the recursion;
the number itself is always enough. -/
def droppedBits : Nat → Nat → Nat
  | 0, _ => 0
  | fuel + 1, n => if n < 2 ^ 24 then 0 else droppedBits fuel (n / 2) + 1

/-- The conversion `(float) n` of a `size_t`: the value of the nearest single-precision number,
which is a whole number.  Below `2 ^ 24` it is `n`; from there on the low bits are rounded
away, so that `(float) 16777217` is `16777216`. -/
def toFloat (n : Nat) : Nat :=
  roundHalfEven n (2 ^ droppedBits n n) * 2 ^ droppedBits n n

/-- The number of binary places after the point in the 24-bit significand of a `float` whose
whole part is `n`, for `n` at least 1: 23 for `n = 1`, 22 for `n` of 2 or 3, down to zero from
`2 ^ 23` on.  The first argument bounds the recursion; 23 is always enough. -/
def fractionBits : Nat → Nat → Nat
  | 0, _ => 0
  | fuel + 1, n => if 2 ^ 23 ≤ n then 0 else fractionBits fuel (2 * n) + 1

/-- The value of `ceil(a / b)` for two `float` values that are whole numbers, `b` not zero: the
single-precision quotient, which is `a / b` rounded to 24 significant bits, rounded up to a
whole number.  The rounded quotient is `m * 2 ^ e / 2 ^ s`, where `e` is the number of low bits
of the whole part that do not fit the significand, `s` the number of binary places the
significand has left after the point (one of the two is zero), and `m` the significand, the
quotient of `a * 2 ^ s` by `b * 2 ^ e` rounded to a whole number.  A quotient below 1 that is
not zero rounds to a number in `(0, 1]`. -/
def ceilFloatDiv (a b : Nat) : Nat :=
  if a < b then (if a = 0 then 0 else 1)
  else
    let e := droppedBits (a / b) (a / b)
    let s := fractionBits 23 (a / b)
    let m := roundHalfEven (a * 2 ^ s) (b * 2 ^ e)
    (m * 2 ^ e + 2 ^ s - 1) / 2 ^ s

/-- The function `breakIntoSubLines` of the source; the result is the list of strings it pushes
onto `output`.

The source computes `count` as `(int) ceil((float) len / (float) width)`, in single
precision.  For `width = 0` the quotient is infinite or not a number and its conversion to
`int` is undefined: `none`.  Otherwise `count` is `ceilFloatDiv` of the two converted numbers.
As long as `width` is below `2 ^ 24` the test `count <= 1` holds exactly when `len` is at most
`width` (`count_le_one_iff`); from there on a `len` above `width` can convert to the same
`float` as `width`.  The conversion to `int` is taken not to overflow (it takes a line of
`2 ^ 31` code points). -/
def breakIntoSubLines (line : Str) (width : Nat) : Option (List Str) :=
  if width = 0 then none
  else
    let len := utf8Length line
    let count := ceilFloatDiv (toFloat len) (toFloat width)
    if count ≤ 1 then some [line]
    else
      match sanitizeWords width (split (is_any_of whitespace) line) with
      | none => none
      | some sanitizedWords =>
        some (packLoop width sanitizedWords.length 0 sanitizedWords [] 0)

/-! ## Entries -/

/-- Modelled from the spec: the class `SimpleScrollAdapter::Entry`, whose declaration is in the
missing header `SimpleScrollAdapter.h`.  The fields are the members the source file reads and
writes; the spec calls them text (`value`), wrapWidth (`width`, the width of the last wrap),
physicalLines (`lines`), startLine (`index`, the first line number given by the last indexing)
and attribute (`attrs`).  `width` and `index` are `size_t`, `attrs` is `int64`. -/
structure Entry where
  value : Str
  charCount : Nat
  width : Nat
  lines : List Str
  index : Nat
  attrs : Int
deriving DecidableEq, Repr

/-- The constructor `Entry::Entry(value)`.  It leaves `index` and `attrs` unset; both are
assigned by `AddLine` before anything reads them, and stand as zero here. -/
def Entry.create (value : Str) : Entry :=
  { value := value, charCount := value.length, width := SIZE_MAX, lines := [],
    index := 0, attrs := 0 }

/-- The method `Entry::GetLineCount`: `max(1, lines.size())`. -/
def Entry.GetLineCount (e : Entry) : Nat := max 1 e.lines.length

/-- The method `Entry::GetLine`: `lines.at(n)`, which throws when `n` is out of range. -/
def Entry.GetLine (e : Entry) (n : Nat) : Option Str := e.lines[n]?

/-- The method `Entry::GetIndex`. -/
def Entry.GetIndex (e : Entry) : Nat := e.index

/-- The method `Entry::SetIndex`. -/
def Entry.SetIndex (e : Entry) (index : Nat) : Entry := { e with index := index }

/-- The method `Entry::GetAttrs`. -/
def Entry.GetAttrs (e : Entry) : Int := e.attrs

/-- The method `Entry::SetAttrs`. -/
def Entry.SetAttrs (e : Entry) (attrs : Int) : Entry := { e with attrs := attrs }

/-- The loop of `Entry::SetWidth` over the newline-separated segments: every segment is
wrapped onto the same list of lines. -/
def wrapSegments (width : Nat) : List Str → Option (List Str)
  | [] => some []
  | seg :: segs =>
    match breakIntoSubLines seg width with
    | none => none
    | some ls =>
      match wrapSegments width segs with
      | none => none
      | some rest => some (ls ++ rest)

/-- The wrap of a text at a column width: the lines `Entry::SetWidth` computes when it does
wrap, from the text cut at its newlines. -/
def wrapText (value : Str) (width : Nat) : Option (List Str) :=
  wrapSegments width (split (is_any_of [10]) value)

/-- The method `Entry::SetWidth`: decrements the width (wrapping at zero) and wraps the text
again unless that is the cached width. -/
def Entry.SetWidth (e : Entry) (width : Nat) : Option Entry :=
  if e.width ≠ wsub width 1 then
    match wrapText e.value (wsub width 1) with
    | none => none
    | some lines => some { e with width := wsub width 1, lines := lines }
  else some e

/-! ## The store -/

/-- Modelled from the spec: the class `SimpleScrollAdapter`, whose declaration is in the missing
header `SimpleScrollAdapter.h`.  The fields are the members the source file reads and writes:
`entries` (a deque, oldest entry first), `lineCount` (the totalLines of the spec),
`removedOffset` (its evictedLines), `maxEntries`, `width` and `height` (its viewportWidth and
viewportHeight), all `size_t`. -/
structure SimpleScrollAdapter where
  entries : List Entry
  lineCount : Nat
  removedOffset : Nat
  maxEntries : Nat
  width : Nat
  height : Nat
deriving DecidableEq, Repr

/-- The macro `MAX_ENTRY_COUNT`. -/
def MAX_ENTRY_COUNT : Nat := 0xffffffff

/-- The constructor.  It does not assign `width` and `height`; the values they happen to hold
are the two arguments. -/
def SimpleScrollAdapter.create (width height : Nat) : SimpleScrollAdapter :=
  { entries := [], lineCount := 0, removedOffset := 0, maxEntries := MAX_ENTRY_COUNT,
    width := width, height := height }

namespace SimpleScrollAdapter

/-- The method `GetLineCount`. -/
def GetLineCount (s : SimpleScrollAdapter) : Nat := s.lineCount

/-- The method `GetEntryCount`. -/
def GetEntryCount (s : SimpleScrollAdapter) : Nat := s.entries.length

/-- The method `SetMaxEntries`. -/
def SetMaxEntries (s : SimpleScrollAdapter) (maxEntries : Nat) : SimpleScrollAdapter :=
  { s with maxEntries := maxEntries }

/-- The loop of `Reindex` over the entries: returns the entries as indexed and wrapped, and
the final value of the running sum `index`. -/
def reindexLoop (width : Nat) : List Entry → Nat → Option (List Entry × Nat)
  | [], index => some ([], index)
  | e :: es, index =>
    match (e.SetIndex index).SetWidth width with
    | none => none
    | some e1 =>
      match reindexLoop width es (index + e1.GetLineCount) with
      | none => none
      | some (es1, total) => some (e1 :: es1, total)

/-- The method `Reindex`. -/
def Reindex (s : SimpleScrollAdapter) : Option SimpleScrollAdapter :=
  match reindexLoop s.width s.entries 0 with
  | none => none
  | some (es, index) => some { s with entries := es, removedOffset := 0, lineCount := index }

/-- The method `SetDisplaySize`. -/
def SetDisplaySize (s : SimpleScrollAdapter) (width height : Nat) :
    Option SimpleScrollAdapter :=
  if height ≠ s.height ∨ width ≠ s.width then
    Reindex { s with height := height, width := width }
  else some s

/-- The eviction loop of `AddLine`, `while (entries.size() > maxEntries)`: returns the entries
left, `removedOffset` and `lineCount`. -/
def evictLoop (maxEntries : Nat) : List Entry → Nat → Nat → List Entry × Nat × Nat
  | [], removedOffset, lineCount => ([], removedOffset, lineCount)
  | e :: es, removedOffset, lineCount =>
    if (e :: es).length > maxEntries then
      evictLoop maxEntries es (removedOffset + e.GetLineCount) (wsub lineCount e.GetLineCount)
    else (e :: es, removedOffset, lineCount)

/-- The entry `AddLine` builds for a text before it appends it. -/
def newEntry (s : SimpleScrollAdapter) (str : Str) (attrs : Int) : Option Entry :=
  match (Entry.create str).SetWidth s.width with
  | none => none
  | some e => some ((e.SetIndex (s.lineCount + s.removedOffset)).SetAttrs attrs)

/-- The method `AddLine`. -/
def AddLine (s : SimpleScrollAdapter) (str : Str) (attrs : Int) :
    Option SimpleScrollAdapter :=
  match newEntry s str attrs with
  | none => none
  | some entry =>
    match evictLoop s.maxEntries (s.entries ++ [entry]) s.removedOffset
        (s.lineCount + entry.GetLineCount) with
    | (entries, removedOffset, lineCount) =>
      some { s with entries := entries, removedOffset := removedOffset, lineCount := lineCount }

/-- The `while (true)` loop of `FindEntryIndex`.  The first argument bounds the number of
probes; `none` stands for `std::out_of_range` thrown by `entries.at(guess)` and for a search
that has not returned within the bound.  The probed index `guess` is
`(min + max) % SIZE_MOD / 2`, `first` is `wsub entry.GetIndex removedOffset` and `last` is
`first + entry.GetLineCount`. -/
def findLoop (entries : List Entry) (removedOffset lineNumber : Nat) :
    Nat → Nat → Nat → Option Nat
  | 0, _, _ => none
  | fuel + 1, min, max =>
    match entries[(min + max) % SIZE_MOD / 2]? with
    | none => none
    | some entry =>
      if lineNumber ≥ wsub entry.GetIndex removedOffset ∧
          lineNumber ≤ wsub entry.GetIndex removedOffset + entry.GetLineCount then
        some ((min + max) % SIZE_MOD / 2)
      else if lineNumber > wsub entry.GetIndex removedOffset then
        findLoop entries removedOffset lineNumber fuel ((min + max) % SIZE_MOD / 2 + 1) max
      else if lineNumber < wsub entry.GetIndex removedOffset + entry.GetLineCount then
        findLoop entries removedOffset lineNumber fuel min (wsub ((min + max) % SIZE_MOD / 2) 1)
      else findLoop entries removedOffset lineNumber fuel min max

/-- The method `FindEntryIndex`, with the bound on the number of probes of its loop as first
argument.  Returns the store, which the call reindexes when `lineCount` is `(size_t) -1`, and
the index found. -/
def FindEntryIndexWithin (fuel : Nat) (s : SimpleScrollAdapter) (lineNumber : Nat) :
    Option (SimpleScrollAdapter × Nat) :=
  match (if s.lineCount = SIZE_MAX then Reindex s else some s) with
  | none => none
  | some s1 =>
    match findLoop s1.entries s1.removedOffset lineNumber fuel 0 (wsub s1.entries.length 1) with
    | none => none
    | some guess => some (s1, guess)

/-- The method `FindEntryIndex`, searching with one probe more than there are entries, which
is enough whenever the store invariants hold (`FindEntryIndex_returns`). -/
def FindEntryIndex (s : SimpleScrollAdapter) (lineNumber : Nat) :
    Option (SimpleScrollAdapter × Nat) :=
  FindEntryIndexWithin (s.entries.length + 1) s lineNumber

/-- A call on the curses window that `DrawPage` draws on: `wclear`, `wattron`, `wattroff`,
and `wprintw(window, "%s\n", line)`. -/
inductive SurfaceOp where
  | clear
  | attrOn (attrs : Int)
  | attrOff (attrs : Int)
  | write (line : Str)
deriving DecidableEq, Repr

/-- The conversion `std::string(str.c_str())`: the bytes before the first zero byte. -/
def c_str (str : Str) : Str := str.takeWhile (fun b => b ≠ 0)

/-- The loop `for (i = c; i < count && remaining != 0; i++)` of `DrawPage` on one entry.  The
second argument is `count - i`, the number of indexes left below `count`.  Returns the calls
made and the value of `remaining`; `none` when `GetLine` throws. -/
def drawLines (e : Entry) : Nat → Nat → Nat → Option (List SurfaceOp × Nat)
  | _, 0, remaining => some ([], remaining)
  | i, left + 1, remaining =>
    if remaining = 0 then some ([], remaining)
    else
      match e.GetLine i with
      | none => none
      | some line =>
        match drawLines e (i + 1) left (remaining - 1) with
        | none => none
        | some (ops, r) => some (SurfaceOp.write (c_str line) :: ops, r)

/-- The `do ... while (it != end && remaining != 0)` loop of `DrawPage`, on the entries from
the iterator `it` on.  Dereferencing the end iterator is undefined. -/
def drawEntries : List Entry → Nat → Nat → Option (List SurfaceOp)
  | [], _, _ => none
  | e :: rest, c, remaining =>
    match drawLines e c (e.GetLineCount - c) remaining with
    | none => none
    | some (ops, remaining1) =>
      let body :=
        (if e.GetAttrs ≠ -1 then [SurfaceOp.attrOn e.GetAttrs] else []) ++ ops ++
        (if e.GetAttrs ≠ -1 then [SurfaceOp.attrOff e.GetAttrs] else [])
      if rest ≠ [] ∧ remaining1 ≠ 0 then
        match drawEntries rest 0 remaining1 with
        | none => none
        | some more => some (body ++ more)
      else some body

/-- The method `DrawPage`: returns the store (which `FindEntryIndex` may have reindexed) and
the calls made on the window, in order. -/
def DrawPage (s : SimpleScrollAdapter) (lineNumber : Nat) :
    Option (SimpleScrollAdapter × List SurfaceOp) :=
  if s.lineCount ≤ 0 then some (s, [SurfaceOp.clear])
  else
    match FindEntryIndex s (if lineNumber ≥ s.lineCount then s.lineCount - 1 else lineNumber) with
    | none => none
    | some (s1, offset) =>
      match s1.entries.drop offset with
      | [] => none
      | e :: rest =>
        match drawEntries (e :: rest)
            (wsub (if lineNumber ≥ s.lineCount then s.lineCount - 1 else lineNumber) e.GetIndex)
            s1.height with
        | none => none
        | some ops => some (s1, SurfaceOp.clear :: ops)

end SimpleScrollAdapter

/-! ## Well-formed UTF-8, store invariants and reachable states -/

/-- One encoded code point: a non-empty byte string that the checked and the unchecked decoder
both pass over in one step, whatever follows it. -/
structure IsChar (c : Str) : Prop where
  ne : c ≠ []
  valid : ∀ r, validate_next (c ++ r) = some r
  unchecked : ∀ r, unchecked_next (c ++ r) = some (c, r)
  bytes : (∃ b, c = [b]) ∨ (∀ b ∈ c, 128 ≤ b)


/-- A string made of `n` encoded code points in a row. -/
inductive Chars : Str → Nat → Prop
  | nil : Chars [] 0
  | cons {c r : Str} {n : Nat} : IsChar c → Chars r n → Chars (c ++ r) (n + 1)

/-- Well-formed UTF-8: the checked `utf8::distance` does not throw on the string. -/
def WellFormed (s : Str) : Prop := distance s ≠ none

instance (s : Str) : Decidable (WellFormed s) :=
  inferInstanceAs (Decidable (distance s ≠ none))

namespace SimpleScrollAdapter

/-- A sequence of `AddLine` calls, one per text and attribute, in order. -/
def AddLines (s : SimpleScrollAdapter) : List (Str × Int) → Option SimpleScrollAdapter
  | [] => some s
  | (str, attrs) :: rest =>
    match s.AddLine str attrs with
    | none => none
    | some s1 => AddLines s1 rest

/-- The sum of `Entry::GetLineCount()`, which is `max(1, lines.size())`, over a run of
entries: what `AddLine`, the eviction loop and `Reindex` add to and take from `lineCount` and
`removedOffset`.  An entry that holds no line counts as one. -/
def totalCount (entries : List Entry) : Nat := (entries.map Entry.GetLineCount).sum

/-- Following the spec's words, "the sum of current `physicalLines` lengths": the number of
lines that a run of entries holds.  It is `totalCount` when every entry holds at least one
line, and less than `totalCount` when an entry holds none. -/
def specTotalLines (entries : List Entry) : Nat := (entries.map (fun e => e.lines.length)).sum

/-- The entries of a run are indexed consecutively: the first has
`index = removedOffset + start` and each next one starts where the one before it ends. -/
def IndexedFrom (removedOffset : Nat) : Nat → List Entry → Prop
  | _, [] => True
  | start, e :: es =>
    e.index = removedOffset + start ∧ IndexedFrom removedOffset (start + e.GetLineCount) es

/-- The store invariants, with the line count of an entry read as the code reads it, as
`Entry::GetLineCount()`: every entry starts, after translation by `removedOffset`, at the sum
of the line counts of the entries before it, and `lineCount` is the sum of the line counts of
all entries.  These are the invariants of the spec when every entry holds at least one
line. -/
def Invariant (s : SimpleScrollAdapter) : Prop :=
  IndexedFrom s.removedOffset 0 s.entries ∧ s.lineCount = totalCount s.entries

/-- The cached wrap of every entry is current: the entry was wrapped at the width of the store, and
its lines are the wrap of its text at the cached width unless that width is still the
`(size_t) -1` of the constructor. -/
def CacheCurrent (s : SimpleScrollAdapter) : Prop :=
  ∀ e ∈ s.entries, e.width = wsub s.width 1 ∧
    (e.width ≠ SIZE_MAX → wrapText e.value e.width = some e.lines)

/-- The states a store can be in: those that a sequence of returning `AddLine`,
`SetMaxEntries` and `SetDisplaySize` calls reaches from a newly constructed store. -/
inductive Reachable : SimpleScrollAdapter → Prop
  | create (width height : Nat) : Reachable (SimpleScrollAdapter.create width height)
  | addLine {s s1 : SimpleScrollAdapter} (str : Str) (attrs : Int) :
      Reachable s → s.AddLine str attrs = some s1 → Reachable s1
  | setMaxEntries {s : SimpleScrollAdapter} (maxEntries : Nat) :
      Reachable s → Reachable (s.SetMaxEntries maxEntries)
  | setDisplaySize {s s1 : SimpleScrollAdapter} (width height : Nat) :
      Reachable s → s.SetDisplaySize width height = some s1 → Reachable s1

end SimpleScrollAdapter

namespace SimpleScrollAdapter

/-! ## Example stores -/

/-- The store after `SetDisplaySize(10, 3)`, `SetMaxEntries(1)`, `AddLine("a", -1)` and
`AddLine("b", -1)`: the entry `"a"` has been evicted. -/
def evictedStore : SimpleScrollAdapter :=
  { entries := [{ value := ascii "b", charCount := 1, width := 9, lines := [ascii "b"],
                  index := 1, attrs := -1 }],
    lineCount := 1, removedOffset := 1, maxEntries := 1, width := 10, height := 3 }

/-- The store after `SetDisplaySize(10, 3)`, `SetMaxEntries(2)` and three `AddLine` calls with
`"a"`, `"bb cc dd ee ff"` and `"gg hh ii jj kk"`: the entry `"a"` has been evicted and two
entries of two lines each are left. -/
def evictedStore2 : SimpleScrollAdapter :=
  { entries := [{ value := ascii "bb cc dd ee ff", charCount := 14, width := 9,
                  lines := [ascii "bb cc dd", ascii "ee ff"], index := 1, attrs := 4 },
                { value := ascii "gg hh ii jj kk", charCount := 14, width := 9,
                  lines := [ascii "gg hh ii", ascii "jj kk"], index := 3, attrs := 5 }],
    lineCount := 4, removedOffset := 1, maxEntries := 2, width := 10, height := 3 }

/-- The store after `SetDisplaySize(10, 3)` and `AddLine` of `"a"`, `"b"` and `"c"`: three
entries of one line each. -/
def threeLineStore : SimpleScrollAdapter :=
  { entries := [{ value := ascii "a", charCount := 1, width := 9, lines := [ascii "a"],
                  index := 0, attrs := -1 },
                { value := ascii "b", charCount := 1, width := 9, lines := [ascii "b"],
                  index := 1, attrs := 4 },
                { value := ascii "c", charCount := 1, width := 9, lines := [ascii "c"],
                  index := 2, attrs := 5 }],
    lineCount := 3, removedOffset := 0, maxEntries := MAX_ENTRY_COUNT, width := 10,
    height := 3 }

/-- The store after `SetDisplaySize(0, 24)` and `AddLine("a", -1)`: at width 0 the decremented
width is the `(size_t) -1` the entry was constructed with, so the entry has not been wrapped
and holds no line. -/
def zeroWidthStore : SimpleScrollAdapter :=
  { entries := [{ value := ascii "a", charCount := 1, width := SIZE_MAX, lines := [],
                  index := 0, attrs := -1 }],
    lineCount := 1, removedOffset := 0, maxEntries := MAX_ENTRY_COUNT, width := 0,
    height := 24 }

/-- The store after `SetDisplaySize(0, 24)`, `AddLine("a", -1)` and `AddLine("b", -1)`: neither
entry has been wrapped, and each counts as one line. -/
def zeroWidthStore2 : SimpleScrollAdapter :=
  { entries := [{ value := ascii "a", charCount := 1, width := SIZE_MAX, lines := [],
                  index := 0, attrs := -1 },
                { value := ascii "b", charCount := 1, width := SIZE_MAX, lines := [],
                  index := 1, attrs := -1 }],
    lineCount := 2, removedOffset := 0, maxEntries := MAX_ENTRY_COUNT, width := 0,
    height := 24 }

/-- The store after `SetDisplaySize(0, 24)`, `AddLine("a", -1)`, `SetMaxEntries(1)` and
`AddLine("b", -1)`: the entry `"a"`, which held no line, has been evicted. -/
def zeroWidthEvictedStore : SimpleScrollAdapter :=
  { entries := [{ value := ascii "b", charCount := 1, width := SIZE_MAX, lines := [],
                  index := 1, attrs := -1 }],
    lineCount := 1, removedOffset := 1, maxEntries := 1, width := 0, height := 24 }

end SimpleScrollAdapter

namespace SimpleScrollAdapter

/-- The store after `SetDisplaySize(10, 3)`, `SetMaxEntries(1)` and `AddLine("a", -1)`. -/
def oneLineStore : SimpleScrollAdapter :=
  { entries := [{ value := ascii "a", charCount := 1, width := 9, lines := [ascii "a"],
                  index := 0, attrs := -1 }],
    lineCount := 1, removedOffset := 0, maxEntries := 1, width := 10, height := 3 }

/-- The store `evictedStore2` after `SetDisplaySize(6, 3)`: both entries are wrapped again at
five columns and indexed from zero. -/
def resizedStore : SimpleScrollAdapter :=
  { entries := [{ value := ascii "bb cc dd ee ff", charCount := 14, width := 5,
                  lines := [ascii "bb", ascii "cc", ascii "dd", ascii "ee", ascii "ff"],
                  index := 0, attrs := 4 },
                { value := ascii "gg hh ii jj kk", charCount := 14, width := 5,
                  lines := [ascii "gg", ascii "hh", ascii "ii", ascii "jj", ascii "kk"],
                  index := 5, attrs := 5 }],
    lineCount := 10, removedOffset := 0, maxEntries := 2, width := 6, height := 3 }

end SimpleScrollAdapter

/-! ## Chunks, search iterations, tidy lines and written lines -/

/-- The shape of the chunks a long word is cut into: every chunk but the last has exactly `k`
code points, and the last has between 1 and `k`. -/
def FullChunks (k : Nat) : List Str → Prop
  | [] => False
  | [c] => ∃ m, Chars c m ∧ 1 ≤ m ∧ m ≤ k
  | c :: d :: rest => Chars c k ∧ FullChunks k (d :: rest)

namespace SimpleScrollAdapter

/-- What one iteration of the search loop of `FindEntryIndex` does with its probe `guess`:
it returns it, moves `min` to `guess + 1`, moves `max` to `guess - 1`, takes none of the three
branches, or fails in `entries.at(guess)`. -/
inductive Probe where
  | found
  | right
  | left
  | stay
  | outOfRange
deriving DecidableEq, Repr

/-- The iterations of the search loop of `FindEntryIndex` within a bound on their number: the
probed index `guess` of every iteration and what the iteration does, in order.  The function
follows `findLoop` branch by branch. -/
def findProbes (entries : List Entry) (removedOffset lineNumber : Nat) :
    Nat → Nat → Nat → List (Nat × Probe)
  | 0, _, _ => []
  | fuel + 1, min, max =>
    match entries[(min + max) % SIZE_MOD / 2]? with
    | none => [((min + max) % SIZE_MOD / 2, Probe.outOfRange)]
    | some entry =>
      if lineNumber ≥ wsub entry.GetIndex removedOffset ∧
          lineNumber ≤ wsub entry.GetIndex removedOffset + entry.GetLineCount then
        [((min + max) % SIZE_MOD / 2, Probe.found)]
      else if lineNumber > wsub entry.GetIndex removedOffset then
        ((min + max) % SIZE_MOD / 2, Probe.right) ::
          findProbes entries removedOffset lineNumber fuel ((min + max) % SIZE_MOD / 2 + 1) max
      else if lineNumber < wsub entry.GetIndex removedOffset + entry.GetLineCount then
        ((min + max) % SIZE_MOD / 2, Probe.left) ::
          findProbes entries removedOffset lineNumber fuel min
            (wsub ((min + max) % SIZE_MOD / 2) 1)
      else
        ((min + max) % SIZE_MOD / 2, Probe.stay) ::
          findProbes entries removedOffset lineNumber fuel min max

/-- The result of the search read off its iterations: the probe of the last iteration when
that iteration returns. -/
def probesResult (probes : List (Nat × Probe)) : Option Nat :=
  match probes.getLast? with
  | some (guess, Probe.found) => some guess
  | _ => none

end SimpleScrollAdapter

/-- No two spaces in a row. -/
def noDoubleSpace : Str → Bool
  | a :: b :: rest => !(a == 32 && b == 32) && noDoubleSpace (b :: rest)
  | _ => true

/-- A line that does not start with a space, does not end with a space and holds no two
spaces in a row. -/
def Tidy (l : Str) : Prop :=
  l.head? ≠ some 32 ∧ l.getLast? ≠ some 32 ∧ noDoubleSpace l = true

instance (l : Str) : Decidable (Tidy l) :=
  inferInstanceAs (Decidable (_ ∧ _ ∧ _))

/-- A string with every whitespace byte of the wrapper (space, `\t`, `\v`, `\f`, `\r`)
deleted. -/
def stripWhitespace (s : Str) : Str := s.filter (fun b => !is_any_of whitespace b)

namespace SimpleScrollAdapter

/-- The line of a `wprintw` call, none for the other calls on the window. -/
def SurfaceOp.line? : SurfaceOp → Option Str
  | SurfaceOp.write line => some line
  | _ => none

/-- The lines written by a sequence of calls on the window, in order. -/
def writtenLines (ops : List SurfaceOp) : List Str := ops.filterMap SurfaceOp.line?

/-- The flattened sequence of the physical lines of a run of entries. -/
def allLines (entries : List Entry) : List Str := entries.flatMap Entry.lines

/-- The store after `SetDisplaySize(10, 3)` and `AddLine` of the three bytes `a`, zero, `b`:
one entry whose one line holds a zero byte. -/
def zeroByteStore : SimpleScrollAdapter :=
  { entries := [{ value := [97, 0, 98], charCount := 3, width := 9, lines := [[97, 0, 98]],
                  index := 0, attrs := -1 }],
    lineCount := 1, removedOffset := 0, maxEntries := MAX_ENTRY_COUNT, width := 10,
    height := 3 }

end SimpleScrollAdapter

/-! # Theorems -/

/-! ### One encoded code point -/

theorem check_code_point_some {cp len : Nat} {r x : Str}
    (h : check_code_point cp len r = some x) :
    x = r ∧ ∀ r1, check_code_point cp len r1 = some r1 := by
  unfold check_code_point at h ⊢
  split at h
  · rename_i hc
    simp only [Option.some.injEq] at h
    exact ⟨h.symm, fun r1 => by simp [hc]⟩
  · simp at h

theorem sequence_length_cases (b : Nat) :
    sequence_length b = 0 ∨ sequence_length b = 1 ∨ sequence_length b = 2 ∨
      sequence_length b = 3 ∨ sequence_length b = 4 := by
  unfold sequence_length
  split_ifs <;> simp

theorem lead_ge_of_sequence_length {b : Nat} (h : sequence_length b ≠ 1) : 128 ≤ b := by
  unfold sequence_length mask8 at h
  split_ifs at h <;> omega

theorem trail_ge {b : Nat} (h : is_trail b = true) : 128 ≤ b := by
  unfold is_trail mask8 at h
  simp only [decide_eq_true_eq] at h
  omega

theorem validate_next_char {s r : Str} (h : validate_next s = some r) :
    ∃ c, s = c ++ r ∧ IsChar c := by
  cases s with
  | nil => simp [validate_next] at h
  | cons b0 rest =>
    rcases sequence_length_cases b0 with h0 | h1 | h2 | h3 | h4
    · simp [validate_next, h0] at h
    · simp only [validate_next, h1] at h
      obtain ⟨hx, hall⟩ := check_code_point_some h
      subst hx
      refine ⟨[b0], rfl, ⟨by simp, ?_, ?_, Or.inl ⟨b0, rfl⟩⟩⟩
      · intro r1
        simp only [List.singleton_append, validate_next, h1]
        exact hall r1
      · intro r1
        simp [unchecked_next, h1]
    · cases rest with
      | nil => simp [validate_next, h2] at h
      | cons b1 r1 =>
        simp only [validate_next, h2] at h
        split at h
        · rename_i ht
          obtain ⟨hx, hall⟩ := check_code_point_some h
          subst hx
          refine ⟨[b0, b1], rfl, ⟨by simp, ?_, ?_, Or.inr ?_⟩⟩
          · intro r2
            simp only [List.cons_append, List.nil_append, validate_next, h2, ht, if_true]
            exact hall r2
          · intro r2
            simp [unchecked_next, h2]
          · intro b hb
            simp only [List.mem_cons, List.mem_singleton, List.not_mem_nil, or_false] at hb
            rcases hb with rfl | rfl
            · exact lead_ge_of_sequence_length (by omega)
            · exact trail_ge ht
        · simp at h
    · match rest, h with
      | [], h => simp [validate_next, h3] at h
      | [_], h => simp [validate_next, h3] at h
      | b1 :: b2 :: r1, h =>
        simp only [validate_next, h3] at h
        split at h
        · rename_i ht
          obtain ⟨hx, hall⟩ := check_code_point_some h
          subst hx
          refine ⟨[b0, b1, b2], rfl, ⟨by simp, ?_, ?_, Or.inr ?_⟩⟩
          · intro r2
            simp only [List.cons_append, List.nil_append, validate_next, h3, ht, if_true]
            exact hall r2
          · intro r2
            simp [unchecked_next, h3]
          · simp only [Bool.and_eq_true] at ht
            intro b hb
            simp only [List.mem_cons, List.mem_singleton, List.not_mem_nil, or_false] at hb
            rcases hb with rfl | rfl | rfl
            · exact lead_ge_of_sequence_length (by omega)
            · exact trail_ge ht.1
            · exact trail_ge ht.2
        · simp at h
    · match rest, h with
      | [], h => simp [validate_next, h4] at h
      | [_], h => simp [validate_next, h4] at h
      | [_, _], h => simp [validate_next, h4] at h
      | b1 :: b2 :: b3 :: r1, h =>
        simp only [validate_next, h4] at h
        split at h
        · rename_i ht
          obtain ⟨hx, hall⟩ := check_code_point_some h
          subst hx
          refine ⟨[b0, b1, b2, b3], rfl, ⟨by simp, ?_, ?_, Or.inr ?_⟩⟩
          · intro r2
            simp only [List.cons_append, List.nil_append, validate_next, h4, ht, if_true]
            exact hall r2
          · intro r2
            simp [unchecked_next, h4]
          · simp only [Bool.and_eq_true] at ht
            intro b hb
            simp only [List.mem_cons, List.mem_singleton, List.not_mem_nil, or_false] at hb
            rcases hb with rfl | rfl | rfl | rfl
            · exact lead_ge_of_sequence_length (by omega)
            · exact trail_ge ht.1.1
            · exact trail_ge ht.1.2
            · exact trail_ge ht.2
        · simp at h

theorem IsChar.length_pos {c : Str} (h : IsChar c) : 0 < c.length :=
  List.length_pos.mpr h.ne

theorem distanceLoop_chars : ∀ (fuel : Nat) (s : Str) (n : Nat),
    distanceLoop fuel s = some n → Chars s n := by
  intro fuel
  induction fuel with
  | zero =>
    intro s n h
    cases s with
    | nil => simp only [distanceLoop, Option.some.injEq] at h; subst h; exact Chars.nil
    | cons b rest => simp [distanceLoop] at h
  | succ fuel ih =>
    intro s n h
    cases s with
    | nil => simp only [distanceLoop, Option.some.injEq] at h; subst h; exact Chars.nil
    | cons b rest =>
      simp only [distanceLoop] at h
      split at h
      · simp at h
      · rename_i r hv
        split at h
        · simp at h
        · rename_i m hm
          simp only [Option.some.injEq] at h
          subst h
          obtain ⟨c, hc, hchar⟩ := validate_next_char hv
          rw [hc]
          exact Chars.cons hchar (ih r m hm)

theorem chars_distanceLoop {s : Str} {n : Nat} (h : Chars s n) :
    ∀ fuel, s.length ≤ fuel → distanceLoop fuel s = some n := by
  induction h with
  | nil => intro fuel _; cases fuel <;> simp [distanceLoop]
  | @cons c r n hc _ ih =>
    intro fuel hf
    have hpos := hc.length_pos
    simp only [List.length_append] at hf
    cases fuel with
    | zero => omega
    | succ fuel =>
      obtain ⟨b, t, hbt⟩ := List.exists_cons_of_ne_nil hc.ne
      have hv := hc.valid r
      have ih1 := ih fuel (by omega)
      rw [hbt] at hv ⊢
      simp only [List.cons_append] at hv ⊢
      simp only [distanceLoop, hv, ih1]

theorem distance_eq_some_iff {s : Str} {n : Nat} : distance s = some n ↔ Chars s n :=
  ⟨distanceLoop_chars _ _ _, fun h => chars_distanceLoop h _ le_rfl⟩

theorem wellFormed_iff {s : Str} : WellFormed s ↔ ∃ n, Chars s n := by
  unfold WellFormed
  constructor
  · intro h
    cases hd : distance s with
    | none => exact absurd hd h
    | some n => exact ⟨n, distance_eq_some_iff.mp hd⟩
  · rintro ⟨n, hn⟩
    rw [distance_eq_some_iff.mpr hn]
    simp

theorem Chars.wellFormed {s : Str} {n : Nat} (h : Chars s n) : WellFormed s :=
  wellFormed_iff.mpr ⟨n, h⟩

theorem Chars.utf8Length {s : Str} {n : Nat} (h : Chars s n) : utf8Length s = n := by
  unfold Musikbox.utf8Length
  rw [distance_eq_some_iff.mpr h]

theorem WellFormed.chars {s : Str} (h : WellFormed s) : Chars s (utf8Length s) := by
  obtain ⟨n, hn⟩ := wellFormed_iff.mp h
  rw [hn.utf8Length]
  exact hn

theorem Chars.cat {a b : Str} {n m : Nat} (ha : Chars a n) (hb : Chars b m) :
    Chars (a ++ b) (n + m) := by
  induction ha with
  | nil => simpa using hb
  | @cons c r k hc _ ih =>
    rw [List.append_assoc, show k + 1 + m = (k + m) + 1 by omega]
    exact Chars.cons hc ih

theorem Chars.le_length {s : Str} {n : Nat} (h : Chars s n) : n ≤ s.length := by
  induction h with
  | nil => simp
  | @cons c r k hc _ ih =>
    have := hc.length_pos
    simp only [List.length_append]
    omega

theorem Chars.single {c : Str} (h : IsChar c) : Chars c 1 := by
  have := Chars.cons h Chars.nil
  simpa using this

theorem isChar_ascii {b : Nat} (hb : b < 128) : IsChar [b] := by
  have h1 : sequence_length b = 1 := by
    unfold sequence_length mask8
    have : b % 256 < 128 := by omega
    simp [this]
  have hm : mask8 b = b := by unfold mask8; omega
  refine ⟨by simp, ?_, ?_, Or.inl ⟨b, rfl⟩⟩
  · intro r
    simp only [List.singleton_append, validate_next, h1, hm]
    unfold check_code_point is_code_point_valid is_overlong_sequence
    have h2 : b ≤ 0x10ffff := by omega
    have h3 : ¬ (0xd800 ≤ b) := by omega
    have h4 : b < 0x80 := hb
    simp [h2, h3, h4]
  · intro r
    simp [unchecked_next, h1]

theorem Chars.eq_nil_of_zero {s : Str} (h : Chars s 0) : s = [] := by
  cases h
  rfl

theorem wellFormed_nil : WellFormed [] := Chars.nil.wellFormed

theorem utf8Length_nil : utf8Length [] = 0 := Chars.nil.utf8Length

theorem WellFormed.append {a b : Str} (ha : WellFormed a) (hb : WellFormed b) :
    WellFormed (a ++ b) :=
  (ha.chars.cat hb.chars).wellFormed

theorem utf8Length_append {a b : Str} (ha : WellFormed a) (hb : WellFormed b) :
    utf8Length (a ++ b) = utf8Length a + utf8Length b :=
  (ha.chars.cat hb.chars).utf8Length

theorem utf8Length_le_length (s : Str) : utf8Length s ≤ s.length := by
  by_cases h : WellFormed s
  · exact h.chars.le_length
  · unfold WellFormed at h
    simp only [ne_eq, not_not] at h
    unfold utf8Length
    rw [h]

/-! ### Splitting at delimiter bytes -/

theorem split_ne_nil (p : Nat → Bool) (s : Str) : split p s ≠ [] := by
  cases s with
  | nil => simp [split]
  | cons b rest =>
    simp only [split]
    split_ifs
    · simp
    · split <;> simp

theorem split_cons_neg {p : Nat → Bool} {b : Nat} {r w : Str} {ws : List Str}
    (h : p b = false) (hr : split p r = w :: ws) : split p (b :: r) = (b :: w) :: ws := by
  simp [split, h, hr]

theorem split_append_left {p : Nat → Bool} {c r w : Str} {ws : List Str}
    (hc : ∀ b ∈ c, p b = false) (hr : split p r = w :: ws) :
    split p (c ++ r) = (c ++ w) :: ws := by
  induction c with
  | nil => simpa using hr
  | cons b t ih =>
    have hb : p b = false := hc b (List.mem_cons_self _ _)
    have ht := ih (fun x hx => hc x (List.mem_cons_of_mem _ hx))
    rw [List.cons_append, split_cons_neg hb ht, List.cons_append]

theorem split_cons_pos {p : Nat → Bool} {b : Nat} (r : Str) (h : p b = true) :
    split p (b :: r) = [] :: split p r := by
  simp [split, h]

theorem split_wellFormed {p : Nat → Bool} (hp : ∀ b, p b = true → b < 128) {s : Str} {n : Nat}
    (h : Chars s n) : ∀ w ∈ split p s, WellFormed w := by
  induction h with
  | nil =>
    intro w hw
    simp only [split, List.mem_singleton] at hw
    subst hw
    exact wellFormed_nil
  | @cons c r k hc _ ih =>
    obtain ⟨w0, ws, hws⟩ := List.exists_cons_of_ne_nil (split_ne_nil p r)
    rw [hws] at ih
    by_cases hdel : ∃ b, c = [b] ∧ p b = true
    · obtain ⟨b, rfl, hb⟩ := hdel
      intro w hw
      rw [List.singleton_append, split_cons_pos r hb, hws] at hw
      rcases List.mem_cons.mp hw with rfl | hw
      · exact wellFormed_nil
      · exact ih w hw
    · have hnot : ∀ b ∈ c, p b = false := by
        rcases hc.bytes with ⟨b, rfl⟩ | hall
        · intro x hx
          simp only [List.mem_singleton] at hx
          subst hx
          by_contra hx
          exact hdel ⟨x, rfl, by simpa using hx⟩
        · intro x hx
          by_contra hpx
          have := hp x (by simpa using hpx)
          have := hall x hx
          omega
      rw [split_append_left hnot hws]
      intro w hw
      rcases List.mem_cons.mp hw with rfl | hw
      · have h0 : WellFormed w0 := ih w0 (List.mem_cons_self _ _)
        exact (Chars.cons hc h0.chars).wellFormed
      · exact ih w (List.mem_cons_of_mem _ hw)

theorem is_any_of_whitespace_lt {b : Nat} (h : is_any_of whitespace b = true) : b < 128 := by
  unfold is_any_of whitespace at h
  simp only [List.contains_eq_any_beq, List.any_cons, List.any_nil, Bool.or_false,
    Bool.or_eq_true, beq_iff_eq] at h
  omega

/-! ### Cutting a long word -/

theorem wsub_one {w : Nat} (h : 1 ≤ w) : wsub w 1 = w - 1 := by
  unfold wsub
  simp [h]

theorem splitWordLoop_chars (width : Nat) {rest : Str} {n : Nat} (h : Chars rest n) :
    ∀ (fuel : Nat), rest.length ≤ fuel → ∀ (chunk : Str) (count : Nat), Chars chunk count →
      (wsub width 1 ≠ 0 → count < wsub width 1) →
      ∃ chunks, splitWordLoop width fuel chunk rest count = some chunks ∧
        ∀ ch ∈ chunks, WellFormed ch ∧ (wsub width 1 ≠ 0 → utf8Length ch ≤ wsub width 1) := by
  induction h with
  | nil =>
    intro fuel _ chunk count _ _
    refine ⟨[], ?_, by simp⟩
    cases fuel <;> simp [splitWordLoop]
  | @cons c r k hc _ ih =>
    intro fuel hf chunk count hchunk hcount
    have hpos := hc.length_pos
    simp only [List.length_append] at hf
    cases fuel with
    | zero => omega
    | succ fuel =>
      obtain ⟨b, t, hbt⟩ := List.exists_cons_of_ne_nil hc.ne
      have hu := hc.unchecked r
      have hnew : Chars (chunk ++ c) (count + 1) := by
        have := hchunk.cat (Chars.single hc)
        simpa using this
      rw [hbt] at hu ⊢
      simp only [List.cons_append] at hu ⊢
      simp only [splitWordLoop, hu]
      rw [← hbt]
      split_ifs with hcut
      · obtain ⟨chunks, hch, hall⟩ := ih fuel (by omega) [] 0 Chars.nil (fun h0 => by omega)
        refine ⟨(chunk ++ c) :: chunks, by simp [hch], ?_⟩
        intro ch hmem
        rcases List.mem_cons.mp hmem with rfl | hmem
        · refine ⟨hnew.wellFormed, fun h0 => ?_⟩
          rw [hnew.utf8Length]
          have := hcount h0
          omega
        · exact hall ch hmem
      · have hne : ¬ (count + 1 = wsub width 1) := fun h => hcut (Or.inl h)
        exact ih fuel (by omega) (chunk ++ c) (count + 1) hnew (fun h0 => by
          have := hcount h0
          omega)

theorem sanitizeWords_wellFormed {width : Nat} (hw : 1 ≤ width) :
    ∀ (words : List Str), (∀ w ∈ words, WellFormed w) →
      ∃ sw, sanitizeWords width words = some sw ∧
        ∀ w ∈ sw, WellFormed w ∧ (2 ≤ width → utf8Length w ≤ width) := by
  intro words
  induction words with
  | nil => intro _; exact ⟨[], rfl, by simp⟩
  | cons word words ih =>
    intro hall
    obtain ⟨rest, hrest, hrall⟩ := ih (fun w hw => hall w (List.mem_cons_of_mem _ hw))
    have hword : WellFormed word := hall word (List.mem_cons_self _ _)
    by_cases hfit : width ≥ word.length
    · refine ⟨word :: rest, by simp [sanitizeWords, hfit, hrest], ?_⟩
      intro w hmem
      rcases List.mem_cons.mp hmem with rfl | hmem
      · exact ⟨hword, fun _ => le_trans (utf8Length_le_length _) hfit⟩
      · exact hrall w hmem
    · obtain ⟨chunks, hch, hcall⟩ := splitWordLoop_chars width hword.chars word.length le_rfl
        [] 0 Chars.nil (fun h0 => by omega)
      refine ⟨chunks ++ rest, by simp [sanitizeWords, hfit, hch, hrest], ?_⟩
      intro w hmem
      rcases List.mem_append.mp hmem with hmem | hmem
      · refine ⟨(hcall w hmem).1, fun h2 => ?_⟩
        have h1 := wsub_one hw
        have := (hcall w hmem).2 (by omega)
        omega
      · exact hrall w hmem

/-! ### Packing words onto lines -/

theorem wellFormed_space : WellFormed [32] := (Chars.single (isChar_ascii (by omega))).wellFormed

theorem utf8Length_space : utf8Length [32] = 1 :=
  (Chars.single (isChar_ascii (by omega))).utf8Length

theorem packLoop_wellFormed (width size : Nat) :
    ∀ (words : List Str) (i : Nat) (accum : Str) (accumLength : Nat),
      (∀ w ∈ words, WellFormed w) → WellFormed accum →
      ∀ l ∈ packLoop width size i words accum accumLength, WellFormed l := by
  intro words
  induction words with
  | nil =>
    intro i accum accumLength _ hacc l hl
    simp only [packLoop] at hl
    split_ifs at hl
    · simp only [List.mem_singleton] at hl
      subst hl
      exact hacc
    · simp at hl
  | cons word rest ih =>
    intro i accum accumLength hall hacc l hl
    have hword : WellFormed word := hall word (List.mem_cons_self _ _)
    have hrest : ∀ w ∈ rest, WellFormed w := fun w hw => hall w (List.mem_cons_of_mem _ hw)
    simp only [packLoop] at hl
    generalize (if i ≠ 0 ∧ size - 1 ≠ 0 then 1 else 0) = extra at hl
    have hsep : WellFormed (if extra ≠ 0 then [32] else []) := by
      split_ifs
      · exact wellFormed_space
      · exact wellFormed_nil
    by_cases hlt : accumLength + extra + utf8Length word < width
    · rw [if_pos hlt] at hl
      exact ih _ _ _ hrest ((hacc.append hsep).append hword) l hl
    · rw [if_neg hlt] at hl
      by_cases heq : utf8Length word = width
      · rw [if_pos heq] at hl
        rcases List.mem_cons.mp hl with rfl | hl
        · exact hacc
        · rcases List.mem_cons.mp hl with rfl | hl
          · exact hword
          · exact ih _ _ _ hrest wellFormed_nil l hl
      · rw [if_neg heq] at hl
        rcases List.mem_cons.mp hl with rfl | hl
        · exact hacc
        · exact ih _ _ _ hrest hword l hl

theorem packLoop_fits (width size : Nat) :
    ∀ (words : List Str) (i : Nat) (accum : Str) (accumLength : Nat),
      (∀ w ∈ words, WellFormed w ∧ utf8Length w ≤ width) → WellFormed accum →
      utf8Length accum = accumLength → accumLength ≤ width →
      ∀ l ∈ packLoop width size i words accum accumLength, utf8Length l ≤ width := by
  intro words
  induction words with
  | nil =>
    intro i accum accumLength _ _ hlen hle l hl
    simp only [packLoop] at hl
    split_ifs at hl
    · simp only [List.mem_singleton] at hl
      subst hl
      omega
    · simp at hl
  | cons word rest ih =>
    intro i accum accumLength hall hacc hlen hle l hl
    obtain ⟨hword, hwle⟩ := hall word (List.mem_cons_self _ _)
    have hrest : ∀ w ∈ rest, WellFormed w ∧ utf8Length w ≤ width :=
      fun w hw => hall w (List.mem_cons_of_mem _ hw)
    simp only [packLoop] at hl
    have hex : (if i ≠ 0 ∧ size - 1 ≠ 0 then 1 else 0) = 0 ∨
        (if i ≠ 0 ∧ size - 1 ≠ 0 then 1 else 0) = 1 := by
      split_ifs <;> simp
    generalize (if i ≠ 0 ∧ size - 1 ≠ 0 then 1 else 0) = extra at hl hex
    have hsep : WellFormed (if extra ≠ 0 then [32] else []) ∧
        utf8Length (if extra ≠ 0 then [32] else []) = extra := by
      rcases hex with rfl | rfl
      · exact ⟨by simpa using wellFormed_nil, by simpa using utf8Length_nil⟩
      · exact ⟨by simpa using wellFormed_space, by simpa using utf8Length_space⟩
    by_cases hlt : accumLength + extra + utf8Length word < width
    · rw [if_pos hlt] at hl
      refine ih _ _ _ hrest ((hacc.append hsep.1).append hword) ?_ (by omega) l hl
      rw [utf8Length_append (hacc.append hsep.1) hword, utf8Length_append hacc hsep.1,
        hsep.2, hlen]
      omega
    · rw [if_neg hlt] at hl
      by_cases heq : utf8Length word = width
      · rw [if_pos heq] at hl
        rcases List.mem_cons.mp hl with rfl | hl
        · omega
        · rcases List.mem_cons.mp hl with rfl | hl
          · omega
          · exact ih _ _ _ hrest wellFormed_nil utf8Length_nil (by omega) l hl
      · rw [if_neg heq] at hl
        rcases List.mem_cons.mp hl with rfl | hl
        · omega
        · exact ih _ _ _ hrest hword rfl hwle l hl

theorem roundHalfEven_ge (num den : Nat) : num / den ≤ roundHalfEven num den := by
  unfold roundHalfEven
  split <;> omega

theorem roundHalfEven_le (num den : Nat) : roundHalfEven num den ≤ num / den + 1 := by
  unfold roundHalfEven
  split <;> omega

theorem droppedBits_spec :
    ∀ (fuel n : Nat), n ≤ fuel →
      n < 2 ^ (24 + droppedBits fuel n) ∧
        (droppedBits fuel n ≠ 0 → 2 ^ (23 + droppedBits fuel n) ≤ n) := by
  intro fuel
  induction fuel with
  | zero =>
    intro n hn
    have : n = 0 := by omega
    subst this
    simp [droppedBits]
  | succ fuel ih =>
    intro n hn
    by_cases hlt : n < 2 ^ 24
    · have he : droppedBits (fuel + 1) n = 0 := by simp only [droppedBits, hlt, if_true]
      rw [he]
      exact ⟨hlt, fun h => absurd rfl h⟩
    · simp only [droppedBits, hlt, if_false]
      have h24 : (2 : Nat) ^ 24 ≤ n := by omega
      have hhalf : n / 2 ≤ fuel := by
        have : (2:Nat) ^ 24 = 16777216 := by norm_num
        omega
      obtain ⟨h1, h2⟩ := ih (n / 2) hhalf
      refine ⟨?_, fun _ => ?_⟩
      · have : (2 : Nat) ^ (24 + (droppedBits fuel (n / 2) + 1)) =
            2 * 2 ^ (24 + droppedBits fuel (n / 2)) := by
          rw [← Nat.add_assoc, Nat.pow_succ, Nat.mul_comm]
        rw [this]
        omega
      · have hp : (2 : Nat) ^ (23 + (droppedBits fuel (n / 2) + 1)) =
            2 * 2 ^ (23 + droppedBits fuel (n / 2)) := by
          rw [← Nat.add_assoc, Nat.pow_succ, Nat.mul_comm]
        rw [hp]
        by_cases h0 : droppedBits fuel (n / 2) = 0
        · rw [h0]
          have : (2 : Nat) * 2 ^ (23 + 0) = 2 ^ 24 := by norm_num
          omega
        · have := h2 h0
          omega

theorem toFloat_le_pow (n : Nat) : toFloat n ≤ 2 ^ (24 + droppedBits n n) := by
  obtain ⟨h1, _⟩ := droppedBits_spec n n (Nat.le_refl n)
  unfold toFloat
  have hq : n / 2 ^ droppedBits n n < 2 ^ 24 := by
    rw [Nat.div_lt_iff_lt_mul (by positivity), ← Nat.pow_add]
    exact h1
  have := roundHalfEven_le n (2 ^ droppedBits n n)
  calc roundHalfEven n (2 ^ droppedBits n n) * 2 ^ droppedBits n n
      ≤ 2 ^ 24 * 2 ^ droppedBits n n := Nat.mul_le_mul_right _ (by omega)
    _ = 2 ^ (24 + droppedBits n n) := by rw [Nat.pow_add]

theorem pow_le_toFloat (n : Nat) (h : droppedBits n n ≠ 0) :
    2 ^ (23 + droppedBits n n) ≤ toFloat n := by
  obtain ⟨_, h2⟩ := droppedBits_spec n n (Nat.le_refl n)
  have h2 := h2 h
  unfold toFloat
  have hq : 2 ^ 23 ≤ n / 2 ^ droppedBits n n := by
    rw [Nat.le_div_iff_mul_le (by positivity), ← Nat.pow_add]
    exact h2
  have := roundHalfEven_ge n (2 ^ droppedBits n n)
  calc 2 ^ (23 + droppedBits n n) = 2 ^ 23 * 2 ^ droppedBits n n := by rw [Nat.pow_add]
    _ ≤ roundHalfEven n (2 ^ droppedBits n n) * 2 ^ droppedBits n n :=
        Nat.mul_le_mul_right _ (by omega)

theorem roundHalfEven_mono {a b D : Nat} (h : a ≤ b) :
    roundHalfEven a D ≤ roundHalfEven b D := by
  have hq : a / D ≤ b / D := Nat.div_le_div_right h
  rcases Nat.lt_or_ge (a / D) (b / D) with hlt | hge
  · have := roundHalfEven_le a D
    have := roundHalfEven_ge b D
    omega
  · have heq : a / D = b / D := by omega
    have ha := Nat.div_add_mod a D
    have hb := Nat.div_add_mod b D
    have hr : a % D ≤ b % D := by
      rw [heq] at ha
      omega
    unfold roundHalfEven
    rw [heq]
    by_cases hca : D < 2 * (a % D) ∨ (2 * (a % D) = D ∧ b / D % 2 = 1)
    · have hcb : D < 2 * (b % D) ∨ (2 * (b % D) = D ∧ b / D % 2 = 1) := by
        rcases hca with h1 | ⟨h1, h2⟩
        · left; omega
        · by_cases h3 : 2 * (b % D) = D
          · right; exact ⟨h3, h2⟩
          · left; omega
      rw [if_pos hca, if_pos hcb]
    · rw [if_neg hca]
      split <;> omega

theorem toFloat_mono {a b : Nat} (h : a ≤ b) : toFloat a ≤ toFloat b := by
  obtain ⟨ha1, ha2⟩ := droppedBits_spec a a (Nat.le_refl a)
  obtain ⟨hb1, hb2⟩ := droppedBits_spec b b (Nat.le_refl b)
  rcases Nat.lt_trichotomy (droppedBits a a) (droppedBits b b) with hlt | heq | hgt
  · calc toFloat a ≤ 2 ^ (24 + droppedBits a a) := toFloat_le_pow a
      _ ≤ 2 ^ (23 + droppedBits b b) := Nat.pow_le_pow_right (by norm_num) (by omega)
      _ ≤ toFloat b := pow_le_toFloat b (by omega)
  · unfold toFloat
    rw [heq]
    exact Nat.mul_le_mul_right _ (roundHalfEven_mono h)
  · exfalso
    have h1 := ha2 (by omega)
    have h2 : (2 : Nat) ^ (24 + droppedBits b b) ≤ 2 ^ (23 + droppedBits a a) :=
      Nat.pow_le_pow_right (by norm_num) (by omega)
    omega

theorem roundHalfEven_one (n : Nat) : roundHalfEven n 1 = n := by
  unfold roundHalfEven
  simp [Nat.mod_one]

theorem droppedBits_of_lt {n : Nat} (h : n < 2 ^ 24) (fuel : Nat) : droppedBits fuel n = 0 := by
  cases fuel with
  | zero => rfl
  | succ fuel => simp only [droppedBits, h, if_true]

theorem toFloat_of_le {n : Nat} (h : n ≤ 2 ^ 24) : toFloat n = n := by
  rcases Nat.lt_or_ge n (2 ^ 24) with hlt | hge
  · unfold toFloat
    rw [droppedBits_of_lt hlt, Nat.pow_zero, roundHalfEven_one, Nat.mul_one]
  · have : n = 2 ^ 24 := by omega
    subst this
    decide

theorem fractionBits_of_le {n : Nat} (h : 2 ^ 23 ≤ n) : fractionBits 23 n = 0 := by
  simp only [fractionBits, h, if_true]

theorem ceilFloatDiv_le_one {a b : Nat} (hb : 1 ≤ b) (h : a ≤ b) : ceilFloatDiv a b ≤ 1 := by
  rcases Nat.lt_or_ge a b with hlt | hge
  · unfold ceilFloatDiv
    rw [if_pos hlt]
    split <;> omega
  · have heq : a = b := by omega
    subst heq
    have h1 : a / a = 1 := Nat.div_self (by omega)
    have hd : droppedBits 1 1 = 0 := by decide
    have hf : fractionBits 23 1 = 23 := by decide
    have hr : roundHalfEven (a * 2 ^ 23) (a * 2 ^ 0) = 2 ^ 23 := by
      unfold roundHalfEven
      rw [Nat.pow_zero, Nat.mul_one, Nat.mul_mod_right, Nat.mul_div_cancel_left _ (by omega)]
      have hne : ¬ (a < 2 * 0 ∨ (2 * 0 = a ∧ 2 ^ 23 % 2 = 1)) := by omega
      rw [if_neg hne]
    unfold ceilFloatDiv
    rw [if_neg (by omega)]
    simp only [h1, hd, hf, hr]
    decide

theorem two_le_ceilFloatDiv {a b : Nat} (hb : 1 ≤ b) (h24 : b < 2 ^ 24) (h : b < a) :
    2 ≤ ceilFloatDiv a b := by
  unfold ceilFloatDiv
  rw [if_neg (by omega)]
  simp only []
  have hip : 1 ≤ a / b := by
    rw [Nat.le_div_iff_mul_le (by omega)]
    omega
  have hs : 0 < 2 ^ fractionBits 23 (a / b) := by positivity
  rw [Nat.le_div_iff_mul_le hs]
  suffices hm : 2 ^ fractionBits 23 (a / b) + 1 ≤
      roundHalfEven (a * 2 ^ fractionBits 23 (a / b)) (b * 2 ^ droppedBits (a / b) (a / b)) *
        2 ^ droppedBits (a / b) (a / b) by omega
  obtain ⟨_, hspec⟩ := droppedBits_spec (a / b) (a / b) (Nat.le_refl _)
  by_cases he : droppedBits (a / b) (a / b) = 0
  · rw [he, Nat.pow_zero, Nat.mul_one, Nat.mul_one]
    have hge := roundHalfEven_ge (a * 2 ^ fractionBits 23 (a / b)) b
    by_cases hip2 : 2 ≤ a / b
    · have h2b : 2 * b ≤ a := by
        have := (Nat.le_div_iff_mul_le (by omega : 0 < b)).mp hip2
        omega
      have hq : 2 * 2 ^ fractionBits 23 (a / b) ≤ a * 2 ^ fractionBits 23 (a / b) / b := by
        rw [Nat.le_div_iff_mul_le (by omega)]
        calc 2 * 2 ^ fractionBits 23 (a / b) * b = 2 * b * 2 ^ fractionBits 23 (a / b) := by ring
          _ ≤ a * 2 ^ fractionBits 23 (a / b) := Nat.mul_le_mul_right _ h2b
      omega
    · have hip1 : a / b = 1 := by omega
      have hf : fractionBits 23 1 = 23 := by decide
      rw [hip1, hf] at hge ⊢
      have hq : 2 ^ 23 ≤ a * 2 ^ 23 / b := by
        rw [Nat.le_div_iff_mul_le (by omega)]
        calc 2 ^ 23 * b = b * 2 ^ 23 := by ring
          _ ≤ a * 2 ^ 23 := Nat.mul_le_mul_right _ (by omega)
      by_cases hq1 : 2 ^ 23 + 1 ≤ a * 2 ^ 23 / b
      · omega
      · have hqe : a * 2 ^ 23 / b = 2 ^ 23 := by omega
        have hdm := Nat.div_add_mod (a * 2 ^ 23) b
        rw [hqe] at hdm
        have hr : 2 ^ 23 ≤ a * 2 ^ 23 % b := by
          have : (b + 1) * 2 ^ 23 ≤ a * 2 ^ 23 := Nat.mul_le_mul_right _ (by omega)
          have h3 : (b + 1) * 2 ^ 23 = b * 2 ^ 23 + 2 ^ 23 := by ring
          omega
        unfold roundHalfEven
        rw [if_pos (Or.inl (by omega)), hqe]
  · have h23 := hspec he
    have hf : fractionBits 23 (a / b) = 0 := by
      apply fractionBits_of_le
      calc 2 ^ 23 ≤ 2 ^ (23 + droppedBits (a / b) (a / b)) :=
            Nat.pow_le_pow_right (by norm_num) (by omega)
        _ ≤ a / b := h23
    rw [hf, Nat.pow_zero, Nat.mul_one]
    have hge := roundHalfEven_ge a (b * 2 ^ droppedBits (a / b) (a / b))
    have hq : 2 ^ 23 ≤ a / (b * 2 ^ droppedBits (a / b) (a / b)) := by
      rw [← Nat.div_div_eq_div_mul, Nat.le_div_iff_mul_le (by positivity), ← Nat.pow_add]
      exact h23
    have hp : 1 ≤ 2 ^ droppedBits (a / b) (a / b) := Nat.one_le_two_pow
    calc 1 + 1 ≤ 2 ^ 23 * 1 := by norm_num
      _ ≤ roundHalfEven a (b * 2 ^ droppedBits (a / b) (a / b)) *
          2 ^ droppedBits (a / b) (a / b) := Nat.mul_le_mul (by omega) hp

theorem count_le_one_of_le {len width : Nat} (hw : 1 ≤ width) (h : len ≤ width) :
    ceilFloatDiv (toFloat len) (toFloat width) ≤ 1 := by
  apply ceilFloatDiv_le_one _ (toFloat_mono h)
  have := toFloat_mono hw
  rw [toFloat_of_le (by norm_num : 1 ≤ 2 ^ 24)] at this
  exact this

theorem count_le_one_iff {len width : Nat} (hw : 1 ≤ width) (h24 : width < 2 ^ 24) :
    ceilFloatDiv (toFloat len) (toFloat width) ≤ 1 ↔ len ≤ width := by
  constructor
  · intro h
    by_contra hlt
    have h1 : toFloat (width + 1) ≤ toFloat len := toFloat_mono (by omega)
    rw [toFloat_of_le (by omega)] at h1
    have h2 := two_le_ceilFloatDiv (a := toFloat len) (b := toFloat width)
      (by rw [toFloat_of_le (by omega)]; exact hw) (by rw [toFloat_of_le (by omega)]; exact h24)
      (by rw [toFloat_of_le (by omega)]; omega)
    omega
  · exact count_le_one_of_le hw

/-- What the slow path of `breakIntoSubLines` returns on a well-formed line. -/
theorem breakIntoSubLines_slow {line : Str} {width : Nat} (hl : WellFormed line)
    (hw : 1 ≤ width) (hlong : ¬ ceilFloatDiv (toFloat (utf8Length line)) (toFloat width) ≤ 1) :
    ∃ sw, sanitizeWords width (split (is_any_of whitespace) line) = some sw ∧
      breakIntoSubLines line width = some (packLoop width sw.length 0 sw [] 0) ∧
      ∀ w ∈ sw, WellFormed w ∧ (2 ≤ width → utf8Length w ≤ width) := by
  obtain ⟨sw, hsw, hall⟩ := sanitizeWords_wellFormed hw _
    (split_wellFormed (fun b hb => is_any_of_whitespace_lt hb) hl.chars)
  refine ⟨sw, hsw, ?_, hall⟩
  unfold breakIntoSubLines
  have h0 : width ≠ 0 := by omega
  simp only [h0, if_false, hlong, hsw]

theorem breakIntoSubLines_fast {line : Str} {width : Nat}
    (hw : 1 ≤ width) (hshort : ceilFloatDiv (toFloat (utf8Length line)) (toFloat width) ≤ 1) :
    breakIntoSubLines line width = some [line] := by
  unfold breakIntoSubLines
  have h0 : width ≠ 0 := by omega
  simp only [h0, if_false, hshort, if_true]

theorem one_le_toFloat {n : Nat} (h : 1 ≤ n) : 1 ≤ toFloat n := by
  have := toFloat_mono h
  rw [toFloat_of_le (by norm_num : 1 ≤ 2 ^ 24)] at this
  exact this

/-- A line whose length converts to the same `float` as the width is returned whole. -/
theorem breakIntoSubLines_same_float {line : Str} {width : Nat} (hw : 1 ≤ width)
    (h : toFloat (utf8Length line) = toFloat width) :
    breakIntoSubLines line width = some [line] :=
  breakIntoSubLines_fast hw (by rw [h]; exact ceilFloatDiv_le_one (one_le_toFloat hw) le_rfl)

/-- At width `2 ^ 24` a line of `2 ^ 24 + 1` code points is returned whole: as a `float` its
length is `2 ^ 24`. -/
theorem breakIntoSubLines_rounded_whole {line : Str} (h : utf8Length line = 2 ^ 24 + 1) :
    breakIntoSubLines line (2 ^ 24) = some [line] :=
  breakIntoSubLines_same_float (by norm_num) (by rw [h]; decide)

theorem chars_replicate {b : Nat} (hb : b < 128) (n : Nat) : Chars (List.replicate n b) n := by
  induction n with
  | zero => exact Chars.nil
  | succ n ih => exact Chars.cons (isChar_ascii hb) ih

namespace SimpleScrollAdapter

/-! ### Index bookkeeping -/

theorem Entry_GetLineCount_pos (e : Entry) : 1 ≤ e.GetLineCount := by
  unfold Entry.GetLineCount
  omega

theorem totalCount_nil : totalCount [] = 0 := rfl

theorem totalCount_cons (e : Entry) (es : List Entry) :
    totalCount (e :: es) = e.GetLineCount + totalCount es := by
  simp [totalCount]

theorem totalCount_append (es fs : List Entry) :
    totalCount (es ++ fs) = totalCount es + totalCount fs := by
  simp [totalCount]

theorem indexedFrom_cons (ro start : Nat) (e : Entry) (es : List Entry) :
    IndexedFrom ro start (e :: es) ↔
      e.index = ro + start ∧ IndexedFrom ro (start + e.GetLineCount) es :=
  Iff.rfl

theorem indexedFrom_append (ro : Nat) (es : List Entry) (e : Entry) :
    ∀ start, IndexedFrom ro start (es ++ [e]) ↔
      IndexedFrom ro start es ∧ e.index = ro + (start + totalCount es) := by
  induction es with
  | nil => intro start; simp [IndexedFrom, totalCount_nil]
  | cons f fs ih =>
    intro start
    rw [List.cons_append, indexedFrom_cons, ih, indexedFrom_cons, totalCount_cons]
    constructor
    · rintro ⟨h1, h2, h3⟩
      exact ⟨⟨h1, h2⟩, by omega⟩
    · rintro ⟨⟨h1, h2⟩, h3⟩
      exact ⟨h1, h2, by omega⟩

theorem indexedFrom_shift (ro c : Nat) (es : List Entry) :
    ∀ start, IndexedFrom ro (start + c) es ↔ IndexedFrom (ro + c) start es := by
  induction es with
  | nil => intro start; simp [IndexedFrom]
  | cons f fs ih =>
    intro start
    simp only [IndexedFrom]
    rw [show start + c + f.GetLineCount = start + f.GetLineCount + c by omega, ih]
    constructor
    · rintro ⟨h1, h2⟩; exact ⟨by omega, h2⟩
    · rintro ⟨h1, h2⟩; exact ⟨by omega, h2⟩

/-- The indexed form of `IndexedFrom`: entry `i` starts at the line count of the entries before
it. -/
theorem indexedFrom_get {ro : Nat} {es : List Entry} :
    ∀ {start : Nat}, IndexedFrom ro start es → ∀ (i : Nat) (h : i < es.length),
      (es.get ⟨i, h⟩).index = ro + (start + totalCount (es.take i)) := by
  induction es with
  | nil => intro start _ i h; simp at h
  | cons f fs ih =>
    intro start hidx i h
    obtain ⟨h1, h2⟩ := hidx
    cases i with
    | zero => simp [totalCount_nil, h1]
    | succ i =>
      have := ih h2 i (by simpa using h)
      simp only [List.get_eq_getElem, List.getElem_cons_succ, List.take_succ_cons,
        totalCount_cons] at this ⊢
      omega

theorem indexedFrom_pairwise {ro : Nat} {es : List Entry} :
    ∀ {start : Nat}, IndexedFrom ro start es →
      List.Pairwise (fun a b : Entry => a.index < b.index) es ∧
      ∀ e ∈ es, ro + start ≤ e.index := by
  induction es with
  | nil => intro start _; simp
  | cons f fs ih =>
    intro start hidx
    obtain ⟨h1, h2⟩ := hidx
    obtain ⟨hp, hge⟩ := ih h2
    have hf := Entry_GetLineCount_pos f
    refine ⟨List.pairwise_cons.mpr ⟨fun e he => ?_, hp⟩, fun e he => ?_⟩
    · have := hge e he
      omega
    · rcases List.mem_cons.mp he with rfl | he
      · omega
      · have := hge e he
        omega

/-! ### The eviction loop -/

theorem evictLoop_spec (m : Nat) : ∀ (es : List Entry) (ro lc : Nat),
    (evictLoop m es ro lc).1 = es.drop (es.length - m) ∧
    (evictLoop m es ro lc).2.1 = ro + totalCount (es.take (es.length - m)) := by
  intro es
  induction es with
  | nil => intro ro lc; simp [evictLoop, totalCount_nil]
  | cons e es ih =>
    intro ro lc
    simp only [evictLoop]
    split_ifs with h
    · simp only [List.length_cons] at h
      obtain ⟨h1, h2⟩ := ih (ro + e.GetLineCount) (wsub lc e.GetLineCount)
      have hk : (e :: es).length - m = (es.length - m) + 1 := by
        simp only [List.length_cons]; omega
      rw [h1, h2, hk]
      simp only [List.drop_succ_cons, List.take_succ_cons, totalCount_cons]
      exact ⟨trivial, by omega⟩
    · simp only [List.length_cons, not_lt] at h
      have hk : (e :: es).length - m = 0 := by
        simp only [List.length_cons]; omega
      rw [hk]
      simp [totalCount_nil]

theorem evictLoop_invariant (m : Nat) : ∀ (es : List Entry) (ro lc : Nat),
    IndexedFrom ro 0 es → lc = totalCount es →
    IndexedFrom (evictLoop m es ro lc).2.1 0 (evictLoop m es ro lc).1 ∧
    (evictLoop m es ro lc).2.2 = totalCount (evictLoop m es ro lc).1 := by
  intro es
  induction es with
  | nil => intro ro lc h1 h2; simp [evictLoop, IndexedFrom, h2]
  | cons e es ih =>
    intro ro lc h1 h2
    simp only [evictLoop]
    split_ifs with h
    · obtain ⟨_, h4⟩ := h1
      apply ih
      · have := (indexedFrom_shift ro e.GetLineCount es 0).mp (by simpa using h4)
        exact this
      · rw [totalCount_cons] at h2
        unfold wsub
        have : e.GetLineCount ≤ lc := by omega
        simp only [this, if_true]
        omega
    · exact ⟨h1, h2⟩

end SimpleScrollAdapter

/-! ### The wrapper returns at least one line -/

theorem packLoop_ne_nil_of_accum (width size : Nat) :
    ∀ (words : List Str) (i : Nat) (accum : Str) (accumLength : Nat), accum ≠ [] →
      packLoop width size i words accum accumLength ≠ [] := by
  intro words
  induction words with
  | nil =>
    intro i accum accumLength h
    have : accum.length ≠ 0 := fun h0 => h (List.length_eq_zero.mp h0)
    simp [packLoop, this]
  | cons word rest ih =>
    intro i accum accumLength h
    simp only [packLoop]
    split_ifs <;> first | exact ih _ _ _ (by simp [h]) | simp

theorem packLoop_cons (width size i : Nat) (word : Str) (rest : List Str) (accum : Str)
    (accumLength : Nat) :
    packLoop width size i (word :: rest) accum accumLength =
      if accumLength + (if i ≠ 0 ∧ size - 1 ≠ 0 then 1 else 0) + utf8Length word < width then
        packLoop width size (i + 1) rest
          (accum ++ (if (if i ≠ 0 ∧ size - 1 ≠ 0 then 1 else 0) ≠ 0 then [32] else []) ++ word)
          (accumLength + utf8Length word + (if i ≠ 0 ∧ size - 1 ≠ 0 then 1 else 0))
      else if utf8Length word = width then
        accum :: word :: packLoop width size (i + 1) rest [] 0
      else accum :: packLoop width size (i + 1) rest word (utf8Length word) :=
  rfl

theorem packLoop_ne_nil_of_index (width size i : Nat) (hsize : 2 ≤ size) (hi : i ≠ 0)
    (word : Str) (rest : List Str) (accum : Str) (accumLength : Nat) :
    packLoop width size i (word :: rest) accum accumLength ≠ [] := by
  have hex : (if i ≠ 0 ∧ size - 1 ≠ 0 then 1 else 0) = 1 := by
    have h1 : size - 1 ≠ 0 := by omega
    simp [hi, h1]
  rw [packLoop_cons, hex]
  by_cases hlt : accumLength + 1 + utf8Length word < width
  · rw [if_pos hlt]
    exact packLoop_ne_nil_of_accum _ _ _ _ _ _ (by simp)
  · rw [if_neg hlt]
    by_cases heq : utf8Length word = width
    · rw [if_pos heq]; exact List.cons_ne_nil _ _
    · rw [if_neg heq]; exact List.cons_ne_nil _ _

theorem packLoop_ne_nil_of_two (width size : Nat) (hsize : 2 ≤ size) (w0 w1 : Str)
    (rest : List Str) (accum : Str) (accumLength : Nat) :
    packLoop width size 0 (w0 :: w1 :: rest) accum accumLength ≠ [] := by
  rw [packLoop_cons]
  by_cases hlt : accumLength + (if 0 ≠ 0 ∧ size - 1 ≠ 0 then 1 else 0) + utf8Length w0 < width
  · rw [if_pos hlt]
    exact packLoop_ne_nil_of_index _ _ _ hsize (by omega) _ _ _ _
  · rw [if_neg hlt]
    by_cases heq : utf8Length w0 = width
    · rw [if_pos heq]; exact List.cons_ne_nil _ _
    · rw [if_neg heq]; exact List.cons_ne_nil _ _

theorem packLoop_ne_nil_of_head (width size : Nat) (w0 : Str) (h0 : w0 ≠ [])
    (rest : List Str) :
    packLoop width size 0 (w0 :: rest) [] 0 ≠ [] := by
  rw [packLoop_cons]
  by_cases hlt : 0 + (if 0 ≠ 0 ∧ size - 1 ≠ 0 then 1 else 0) + utf8Length w0 < width
  · rw [if_pos hlt]
    exact packLoop_ne_nil_of_accum _ _ _ _ _ _ (by simp [h0])
  · rw [if_neg hlt]
    by_cases heq : utf8Length w0 = width
    · rw [if_pos heq]; exact List.cons_ne_nil _ _
    · rw [if_neg heq]; exact List.cons_ne_nil _ _

theorem unchecked_next_ne_nil {s ch rest : Str} (h : unchecked_next s = some (ch, rest)) :
    ch ≠ [] := by
  cases s with
  | nil => simp [unchecked_next] at h
  | cons b t =>
    simp only [unchecked_next] at h
    split_ifs at h with h0 h1 h2
    · simp only [Option.some.injEq, Prod.mk.injEq] at h
      rw [← h.1]; simp
    · simp only [Option.some.injEq, Prod.mk.injEq] at h
      rw [← h.1]
      intro hnil
      have := congrArg List.length hnil
      simp only [List.length_take, List.length_cons, List.length_nil] at this
      omega

theorem splitWordLoop_ne_nil (width : Nat) :
    ∀ (fuel : Nat) (chunk rest : Str) (count : Nat) (chunks : List Str), rest ≠ [] →
      splitWordLoop width fuel chunk rest count = some chunks →
      ∃ c cs, chunks = c :: cs ∧ c ≠ [] := by
  intro fuel
  induction fuel with
  | zero =>
    intro chunk rest count chunks hne h
    cases rest with
    | nil => exact absurd rfl hne
    | cons b t => simp [splitWordLoop] at h
  | succ fuel ih =>
    intro chunk rest count chunks hne h
    cases rest with
    | nil => exact absurd rfl hne
    | cons b t =>
      simp only [splitWordLoop] at h
      split at h
      · simp at h
      · rename_i ch rest1 hu
        have hch := unchecked_next_ne_nil hu
        split_ifs at h with hcut
        · split at h
          · simp at h
          · simp only [Option.some.injEq] at h
            exact ⟨_, _, h.symm, by simp [hch]⟩
        · have hr1 : rest1 ≠ [] := fun h0 => hcut (Or.inr h0)
          exact ih _ _ _ _ hr1 h

theorem sanitizeWords_length (width : Nat) :
    ∀ (words sw : List Str), sanitizeWords width words = some sw → words.length ≤ sw.length := by
  intro words
  induction words with
  | nil => intro sw h; simp
  | cons word words ih =>
    intro sw h
    simp only [sanitizeWords] at h
    split_ifs at h with hfit
    · split at h
      · simp at h
      · rename_i rest hrest
        simp only [Option.some.injEq] at h
        subst h
        have := ih rest hrest
        simp only [List.length_cons]
        omega
    · split at h
      · simp at h
      · rename_i chunks hch
        split at h
        · simp at h
        · rename_i rest hrest
          simp only [Option.some.injEq] at h
          subst h
          have hne : word ≠ [] := by
            intro h0
            subst h0
            simp at hfit
          obtain ⟨c, cs, hc, _⟩ := splitWordLoop_ne_nil width _ _ _ _ _ hne hch
          have := ih rest hrest
          subst hc
          simp only [List.length_cons, List.length_append]
          omega

theorem split_singleton {p : Nat → Bool} : ∀ {s w : Str}, split p s = [w] → w = s := by
  intro s
  induction s with
  | nil => intro w h; simp only [split, List.cons.injEq, and_true] at h; exact h.symm
  | cons b r ih =>
    intro w h
    obtain ⟨w0, ws, hws⟩ := List.exists_cons_of_ne_nil (split_ne_nil p r)
    by_cases hb : p b = true
    · rw [split_cons_pos r hb, hws] at h
      simp at h
    · have hb1 : p b = false := by simpa using hb
      rw [split_cons_neg hb1 hws] at h
      simp only [List.cons.injEq] at h
      obtain ⟨h1, h2⟩ := h
      subst h2
      rw [← h1, ih hws]

theorem breakIntoSubLines_eq_slow {line : Str} {width : Nat} (hw : 1 ≤ width)
    (hlong : ¬ ceilFloatDiv (toFloat (utf8Length line)) (toFloat width) ≤ 1) :
    breakIntoSubLines line width =
      (sanitizeWords width (split (is_any_of whitespace) line)).map
        (fun sw => packLoop width sw.length 0 sw [] 0) := by
  unfold breakIntoSubLines
  have h0 : width ≠ 0 := by omega
  simp only [h0, if_false, hlong]
  cases sanitizeWords width (split (is_any_of whitespace) line) <;> rfl

theorem breakIntoSubLines_ne_nil {line : Str} {width : Nat} {out : List Str}
    (h : breakIntoSubLines line width = some out) : out ≠ [] := by
  by_cases h0 : width = 0
  · simp [breakIntoSubLines, h0] at h
  have hw : 1 ≤ width := by omega
  by_cases hshort : ceilFloatDiv (toFloat (utf8Length line)) (toFloat width) ≤ 1
  · rw [breakIntoSubLines_fast hw hshort] at h
    simp only [Option.some.injEq] at h
    subst h
    simp
  · rw [breakIntoSubLines_eq_slow hw hshort] at h
    cases hsw : sanitizeWords width (split (is_any_of whitespace) line) with
    | none => simp [hsw] at h
    | some sw =>
      simp only [hsw, Option.map, Option.some.injEq] at h
      subst h
      have hlong : width < line.length := by
        have h1 : ¬ utf8Length line ≤ width := fun hle => hshort (count_le_one_of_le hw hle)
        have := utf8Length_le_length line
        omega
      have hlen := sanitizeWords_length width _ _ hsw
      obtain ⟨w0, ws, hws⟩ := List.exists_cons_of_ne_nil
        (split_ne_nil (is_any_of whitespace) line)
      rw [hws] at hsw hlen
      cases ws with
      | nil =>
        have hw0 := split_singleton hws
        subst hw0
        simp only [sanitizeWords] at hsw
        have hfit : ¬ width ≥ w0.length := by omega
        simp only [hfit, if_false] at hsw
        split at hsw
        · simp at hsw
        · rename_i chunks hch
          simp only [Option.some.injEq, List.append_nil] at hsw
          subst hsw
          have hne : w0 ≠ [] := by
            intro hnil
            subst hnil
            simp at hlong
          obtain ⟨c, cs, hc, hcne⟩ := splitWordLoop_ne_nil width _ _ _ _ _ hne hch
          subst hc
          exact packLoop_ne_nil_of_head _ _ _ hcne _
      | cons w1 ws =>
        match sw, hlen with
        | [], hlen => simp at hlen
        | [_], hlen => simp at hlen
        | a :: b :: rest, _ =>
          exact packLoop_ne_nil_of_two _ _ (by simp) _ _ _ _ _

/-! ### Wrapping a text -/

theorem wrapSegments_ne_nil {width : Nat} {seg : Str} {segs : List Str} {ls : List Str}
    (h : wrapSegments width (seg :: segs) = some ls) : ls ≠ [] := by
  simp only [wrapSegments] at h
  split at h
  · simp at h
  · rename_i l1 hl1
    split at h
    · simp at h
    · simp only [Option.some.injEq] at h
      subst h
      simp [breakIntoSubLines_ne_nil hl1]

theorem wrapText_ne_nil {value : Str} {width : Nat} {ls : List Str}
    (h : wrapText value width = some ls) : ls ≠ [] := by
  unfold wrapText at h
  obtain ⟨w0, ws, hws⟩ := List.exists_cons_of_ne_nil (split_ne_nil (is_any_of [10]) value)
  rw [hws] at h
  exact wrapSegments_ne_nil h

theorem breakIntoSubLines_returns {line : Str} {width : Nat} (hl : WellFormed line)
    (hw : 1 ≤ width) :
    ∃ out, breakIntoSubLines line width = some out ∧ ∀ l ∈ out, WellFormed l := by
  by_cases hshort : ceilFloatDiv (toFloat (utf8Length line)) (toFloat width) ≤ 1
  · refine ⟨[line], breakIntoSubLines_fast hw hshort, ?_⟩
    intro l hmem
    simp only [List.mem_singleton] at hmem
    subst hmem
    exact hl
  · obtain ⟨sw, _, hout, hall⟩ := breakIntoSubLines_slow hl hw hshort
    exact ⟨_, hout, packLoop_wellFormed width sw.length sw 0 [] 0 (fun w hw => (hall w hw).1)
      wellFormed_nil⟩

theorem wrapSegments_returns {width : Nat} (hw : 1 ≤ width) :
    ∀ (segs : List Str), (∀ seg ∈ segs, WellFormed seg) →
      ∃ ls, wrapSegments width segs = some ls := by
  intro segs
  induction segs with
  | nil => intro _; exact ⟨[], rfl⟩
  | cons seg segs ih =>
    intro hall
    obtain ⟨l1, hl1, _⟩ := breakIntoSubLines_returns (hall seg (List.mem_cons_self _ _)) hw
    obtain ⟨l2, hl2⟩ := ih (fun s hs => hall s (List.mem_cons_of_mem _ hs))
    exact ⟨l1 ++ l2, by simp [wrapSegments, hl1, hl2]⟩

theorem is_any_of_newline_lt {b : Nat} (h : is_any_of [10] b = true) : b < 128 := by
  unfold is_any_of at h
  simp only [List.contains_eq_any_beq, List.any_cons, List.any_nil, Bool.or_false,
    beq_iff_eq] at h
  omega

theorem wrapText_returns {value : Str} {width : Nat} (hv : WellFormed value) (hw : 1 ≤ width) :
    ∃ ls, wrapText value width = some ls :=
  wrapSegments_returns hw _ (split_wellFormed (fun _ hb => is_any_of_newline_lt hb) hv.chars)

/-! ### `Entry::SetWidth` -/

theorem Entry.SetWidth_spec {e e1 : Entry} {w : Nat} (h : e.SetWidth w = some e1) :
    e1.value = e.value ∧ e1.attrs = e.attrs ∧ e1.index = e.index ∧ e1.width = wsub w 1 ∧
      (e.width = wsub w 1 → e1 = e) ∧
      (e.width ≠ wsub w 1 → wrapText e.value (wsub w 1) = some e1.lines) := by
  unfold Entry.SetWidth at h
  by_cases hc : e.width = wsub w 1
  · simp only [hc, ne_eq, not_true_eq_false, if_false, Option.some.injEq] at h
    subst h
    exact ⟨rfl, rfl, rfl, hc, fun _ => rfl, fun hne => absurd hc hne⟩
  · simp only [ne_eq, hc, not_false_eq_true, if_true] at h
    cases hwr : wrapText e.value (wsub w 1) with
    | none => simp [hwr] at h
    | some ls =>
      simp only [hwr, Option.some.injEq] at h
      subst h
      exact ⟨rfl, rfl, rfl, rfl, fun heq => absurd heq hc, fun _ => rfl⟩

theorem Entry.SetWidth_cache {e e1 : Entry} {w : Nat} (h : e.SetWidth w = some e1)
    (hc : e.width ≠ SIZE_MAX → wrapText e.value e.width = some e.lines) :
    e1.width ≠ SIZE_MAX → wrapText e1.value e1.width = some e1.lines := by
  obtain ⟨hv, _, _, hw, hsame, hnew⟩ := Entry.SetWidth_spec h
  by_cases hcw : e.width = wsub w 1
  · rw [hsame hcw]
    exact hc
  · intro _
    rw [hv, hw]
    exact hnew hcw

theorem Entry.SetWidth_returns (e : Entry) {w : Nat} (hv : WellFormed e.value) (hw : 2 ≤ w) :
    ∃ e1, e.SetWidth w = some e1 := by
  unfold Entry.SetWidth
  by_cases hc : e.width = wsub w 1
  · exact ⟨e, by simp [hc]⟩
  · obtain ⟨ls, hls⟩ := @wrapText_returns e.value (wsub w 1) hv (by rw [wsub_one (by omega)]; omega)
    simp only [ne_eq, hc, not_false_eq_true, if_true, hls]
    exact ⟨_, rfl⟩

theorem Entry.GetLineCount_eq_length {e : Entry} (h : e.lines ≠ []) :
    e.GetLineCount = e.lines.length := by
  unfold Entry.GetLineCount
  have := List.length_pos.mpr h
  omega

namespace SimpleScrollAdapter

/-! ### `Reindex` and `SetDisplaySize` -/

theorem reindexLoop_spec (w : Nat) : ∀ (es es1 : List Entry) (idx total : Nat),
    reindexLoop w es idx = some (es1, total) →
      es1.map Entry.value = es.map Entry.value ∧ es1.map Entry.attrs = es.map Entry.attrs ∧
      IndexedFrom 0 idx es1 ∧ total = idx + totalCount es1 ∧
      (∀ e1 ∈ es1, e1.width = wsub w 1) ∧
      ((∀ e ∈ es, e.width ≠ SIZE_MAX → wrapText e.value e.width = some e.lines) →
        ∀ e1 ∈ es1, e1.width ≠ SIZE_MAX → wrapText e1.value e1.width = some e1.lines) := by
  intro es
  induction es with
  | nil =>
    intro es1 idx total h
    simp only [reindexLoop, Option.some.injEq, Prod.mk.injEq] at h
    obtain ⟨h1, h2⟩ := h
    subst h1 h2
    simp [IndexedFrom, totalCount_nil]
  | cons e es ih =>
    intro es1 idx total h
    simp only [reindexLoop] at h
    cases hsw : (e.SetIndex idx).SetWidth w with
    | none => simp [hsw] at h
    | some e1 =>
      simp only [hsw] at h
      cases hrl : reindexLoop w es (idx + e1.GetLineCount) with
      | none => simp [hrl] at h
      | some r =>
        obtain ⟨es2, total2⟩ := r
        simp only [hrl, Option.some.injEq, Prod.mk.injEq] at h
        obtain ⟨h1, h2⟩ := h
        subst h1 h2
        obtain ⟨hv, ha, hi, ht, hwd, hcache⟩ := ih es2 _ _ hrl
        obtain ⟨sv, sa, si, sw, _, _⟩ := Entry.SetWidth_spec hsw
        refine ⟨?_, ?_, ?_, ?_, ?_, ?_⟩
        · simp only [List.map_cons, hv, sv]; rfl
        · simp only [List.map_cons, ha, sa]; rfl
        · exact ⟨by rw [si]; simp [Entry.SetIndex], hi⟩
        · rw [totalCount_cons]; omega
        · intro x hx
          rcases List.mem_cons.mp hx with rfl | hx
          · exact sw
          · exact hwd x hx
        · intro hall x hx
          rcases List.mem_cons.mp hx with rfl | hx
          · exact Entry.SetWidth_cache hsw (hall e (List.mem_cons_self _ _))
          · exact hcache (fun y hy => hall y (List.mem_cons_of_mem _ hy)) x hx

theorem reindexLoop_returns {w : Nat} (hw : 2 ≤ w) : ∀ (es : List Entry) (idx : Nat),
    (∀ e ∈ es, WellFormed e.value) → ∃ r, reindexLoop w es idx = some r := by
  intro es
  induction es with
  | nil => intro idx _; exact ⟨_, rfl⟩
  | cons e es ih =>
    intro idx hall
    obtain ⟨e1, he1⟩ := Entry.SetWidth_returns (e.SetIndex idx)
      (hall e (List.mem_cons_self _ _)) hw
    obtain ⟨r, hr⟩ := ih (idx + e1.GetLineCount) (fun x hx => hall x (List.mem_cons_of_mem _ hx))
    exact ⟨(e1 :: r.1, r.2), by simp [reindexLoop, he1, hr]⟩

theorem Reindex_spec {s s1 : SimpleScrollAdapter} (h : s.Reindex = some s1) :
    ∃ es total, reindexLoop s.width s.entries 0 = some (es, total) ∧
      s1 = { s with entries := es, removedOffset := 0, lineCount := total } := by
  unfold Reindex at h
  cases hrl : reindexLoop s.width s.entries 0 with
  | none => simp [hrl] at h
  | some r =>
    obtain ⟨es, total⟩ := r
    simp only [hrl, Option.some.injEq] at h
    exact ⟨es, total, rfl, h.symm⟩

theorem SetDisplaySize_spec {s s1 : SimpleScrollAdapter} {w h : Nat}
    (hs : s.SetDisplaySize w h = some s1) :
    (¬ (h ≠ s.height ∨ w ≠ s.width) ∧ s1 = s) ∨
    ((h ≠ s.height ∨ w ≠ s.width) ∧ ∃ es total, reindexLoop w s.entries 0 = some (es, total) ∧
      s1 = { s with entries := es, removedOffset := 0, lineCount := total, width := w,
                    height := h }) := by
  unfold SetDisplaySize at hs
  by_cases hc : h ≠ s.height ∨ w ≠ s.width
  · rw [if_pos hc] at hs
    obtain ⟨es, total, hrl, hs1⟩ := Reindex_spec hs
    exact Or.inr ⟨hc, es, total, hrl, hs1⟩
  · rw [if_neg hc] at hs
    simp only [Option.some.injEq] at hs
    exact Or.inl ⟨hc, hs.symm⟩

/-! ### `AddLine` -/

theorem newEntry_spec {s : SimpleScrollAdapter} {str : Str} {attrs : Int} {entry : Entry}
    (h : newEntry s str attrs = some entry) :
    entry.value = str ∧ entry.attrs = attrs ∧ entry.index = s.lineCount + s.removedOffset ∧
      entry.width = wsub s.width 1 ∧
      (entry.width ≠ SIZE_MAX → wrapText entry.value entry.width = some entry.lines) := by
  unfold newEntry at h
  cases hsw : (Entry.create str).SetWidth s.width with
  | none => simp [hsw] at h
  | some e =>
    simp only [hsw, Option.some.injEq] at h
    subst h
    obtain ⟨hv, _, _, hw, _, _⟩ := Entry.SetWidth_spec hsw
    have hc := Entry.SetWidth_cache hsw (fun hne => absurd rfl hne)
    exact ⟨hv, rfl, rfl, hw, hc⟩

theorem newEntry_returns (s : SimpleScrollAdapter) {str : Str} (attrs : Int)
    (hv : WellFormed str) (hw : 2 ≤ s.width) : ∃ entry, newEntry s str attrs = some entry := by
  obtain ⟨e, he⟩ := Entry.SetWidth_returns (Entry.create str) (w := s.width) hv hw
  unfold newEntry
  rw [he]
  exact ⟨_, rfl⟩

theorem AddLine_spec {s s1 : SimpleScrollAdapter} {str : Str} {attrs : Int}
    (h : s.AddLine str attrs = some s1) :
    ∃ entry, newEntry s str attrs = some entry ∧
      s1 = { s with
        entries := (evictLoop s.maxEntries (s.entries ++ [entry]) s.removedOffset
          (s.lineCount + entry.GetLineCount)).1
        removedOffset := (evictLoop s.maxEntries (s.entries ++ [entry]) s.removedOffset
          (s.lineCount + entry.GetLineCount)).2.1
        lineCount := (evictLoop s.maxEntries (s.entries ++ [entry]) s.removedOffset
          (s.lineCount + entry.GetLineCount)).2.2 } := by
  unfold AddLine at h
  cases hne : newEntry s str attrs with
  | none => simp [hne] at h
  | some entry =>
    simp only [hne, Option.some.injEq] at h
    exact ⟨entry, rfl, h.symm⟩

theorem AddLine_returns (s : SimpleScrollAdapter) {str : Str} (attrs : Int)
    (hv : WellFormed str) (hw : 2 ≤ s.width) : ∃ s1, s.AddLine str attrs = some s1 := by
  obtain ⟨entry, he⟩ := newEntry_returns s attrs hv hw
  unfold AddLine
  rw [he]
  exact ⟨_, rfl⟩

/-! ### Invariants of the reachable states -/

theorem Reachable.invariant {s : SimpleScrollAdapter} (h : Reachable s) : Invariant s := by
  induction h with
  | create width height => exact ⟨trivial, rfl⟩
  | @addLine s s1 str attrs _ hadd ih =>
    obtain ⟨entry, hne, hs1⟩ := AddLine_spec hadd
    obtain ⟨_, _, hidx, _, _⟩ := newEntry_spec hne
    subst hs1
    obtain ⟨hi, hl⟩ := ih
    exact evictLoop_invariant _ _ _ _
      ((indexedFrom_append _ _ _ 0).mpr ⟨hi, by rw [hidx, hl]; omega⟩)
      (by rw [totalCount_append, totalCount_cons, totalCount_nil, hl]; omega)
  | setMaxEntries maxEntries _ ih => exact ih
  | @setDisplaySize s s1 width height _ hsd ih =>
    rcases SetDisplaySize_spec hsd with ⟨_, rfl⟩ | ⟨_, es, total, hrl, rfl⟩
    · exact ih
    · obtain ⟨_, _, hi, ht, _, _⟩ := reindexLoop_spec _ _ _ _ _ hrl
      exact ⟨hi, by simpa using ht⟩

theorem evictLoop_mem (m : Nat) (es : List Entry) (ro lc : Nat) :
    ∀ e ∈ (evictLoop m es ro lc).1, e ∈ es := by
  rw [(evictLoop_spec m es ro lc).1]
  intro e he
  exact List.mem_of_mem_drop he

theorem Reachable.cacheCurrent {s : SimpleScrollAdapter} (h : Reachable s) :
    CacheCurrent s := by
  induction h with
  | create width height => intro e he; simp [SimpleScrollAdapter.create] at he
  | @addLine s s1 str attrs _ hadd ih =>
    obtain ⟨entry, hne, hs1⟩ := AddLine_spec hadd
    obtain ⟨_, _, _, hw, hc⟩ := newEntry_spec hne
    subst hs1
    intro e he
    have hmem := evictLoop_mem _ _ _ _ e he
    rcases List.mem_append.mp hmem with hmem | hmem
    · exact ih e hmem
    · simp only [List.mem_singleton] at hmem
      subst hmem
      exact ⟨hw, hc⟩
  | setMaxEntries maxEntries _ ih => exact ih
  | @setDisplaySize s s1 width height _ hsd ih =>
    rcases SetDisplaySize_spec hsd with ⟨_, rfl⟩ | ⟨_, es, total, hrl, rfl⟩
    · exact ih
    · obtain ⟨_, _, _, _, hw, hc⟩ := reindexLoop_spec _ _ _ _ _ hrl
      intro e he
      exact ⟨hw e he, hc (fun x hx => (ih x hx).2) e he⟩

end SimpleScrollAdapter

namespace SimpleScrollAdapter

/-! ### The binary search returns under the store invariants -/

theorem wsub_add_left (a b : Nat) : wsub (a + b) a = b := by
  unfold wsub
  simp

theorem totalCount_take_succ (es : List Entry) (i : Nat) (hi : i < es.length) :
    totalCount (es.take (i + 1)) = totalCount (es.take i) + (es.get ⟨i, hi⟩).GetLineCount := by
  induction es generalizing i with
  | nil => simp at hi
  | cons e es ih =>
    cases i with
    | zero => simp [totalCount]
    | succ i =>
      have := ih i (by simpa using hi)
      simp only [List.take_succ_cons, totalCount_cons, List.get_eq_getElem,
        List.getElem_cons_succ] at this ⊢
      omega

theorem totalCount_take_mono (es : List Entry) {i k : Nat} (h : i ≤ k) :
    totalCount (es.take i) ≤ totalCount (es.take k) := by
  induction es generalizing i k with
  | nil => simp
  | cons e es ih =>
    cases i with
    | zero => simp [totalCount_nil]
    | succ i =>
      cases k with
      | zero => omega
      | succ k =>
        have := ih (show i ≤ k by omega)
        simp only [List.take_succ_cons, totalCount_cons]
        omega

theorem totalCount_take_le (es : List Entry) (i : Nat) :
    totalCount (es.take i) ≤ totalCount es := by
  have := totalCount_take_mono es (show i ≤ max i es.length from le_max_left _ _)
  rwa [List.take_of_length_le (le_max_right _ _)] at this

/-- Under the store invariants the search loop, started on a window `[min, max]` of entries
whose lines include `lineNumber`, returns within `max - min + 1` probes an entry of the
window whose closed range `[first, last]` holds the line. -/
theorem findLoop_returns {es : List Entry} {ro L : Nat} (hidx : IndexedFrom ro 0 es)
    (hn : 2 * es.length ≤ SIZE_MOD) :
    ∀ (fuel min max : Nat), min ≤ max → max < es.length →
      totalCount (es.take min) ≤ L → L < totalCount (es.take (max + 1)) → max - min < fuel →
      ∃ g, findLoop es ro L fuel min max = some g ∧ min ≤ g ∧ g ≤ max ∧
        totalCount (es.take g) ≤ L ∧ L ≤ totalCount (es.take (g + 1)) := by
  intro fuel
  induction fuel with
  | zero => intro min max _ _ _ _ hf; omega
  | succ fuel ih =>
    intro min max hmm hmax hlo hhi hf
    have hmod : (min + max) % SIZE_MOD = min + max := by
      apply Nat.mod_eq_of_lt
      omega
    have hg1 : min ≤ (min + max) / 2 := by omega
    have hg2 : (min + max) / 2 ≤ max := by omega
    have hglt : (min + max) / 2 < es.length := by omega
    have hget : es[(min + max) / 2]? = some (es.get ⟨(min + max) / 2, hglt⟩) := by
      simp [List.getElem?_eq_getElem hglt]
    have hfirst : wsub (es.get ⟨(min + max) / 2, hglt⟩).GetIndex ro =
        totalCount (es.take ((min + max) / 2)) := by
      have := indexedFrom_get hidx _ hglt
      unfold Entry.GetIndex
      rw [this, Nat.zero_add, wsub_add_left]
    have hlast := totalCount_take_succ es _ hglt
    simp only [findLoop, hmod, hget, hfirst]
    rw [← hlast]
    by_cases hin : L ≥ totalCount (es.take ((min + max) / 2)) ∧
        L ≤ totalCount (es.take ((min + max) / 2 + 1))
    · rw [if_pos hin]
      exact ⟨_, rfl, hg1, hg2, hin.1, hin.2⟩
    · rw [if_neg hin]
      by_cases hgt : L > totalCount (es.take ((min + max) / 2))
      · rw [if_pos hgt]
        have hbig : totalCount (es.take ((min + max) / 2 + 1)) < L := by
          by_contra hcon
          exact hin ⟨by omega, by omega⟩
        have hlt : (min + max) / 2 < max := by
          by_contra hcon
          have : (min + max) / 2 = max := by omega
          rw [this] at hbig
          omega
        obtain ⟨g, hgr, h1, h2, h3, h4⟩ := ih ((min + max) / 2 + 1) max (by omega) hmax
          (by omega) hhi (by omega)
        exact ⟨g, hgr, by omega, h2, h3, h4⟩
      · rw [if_neg hgt]
        have hsmall : L < totalCount (es.take ((min + max) / 2)) := by
          by_contra hcon
          have hmono := totalCount_take_mono es
            (show (min + max) / 2 ≤ (min + max) / 2 + 1 by omega)
          exact hin ⟨by omega, by omega⟩
        have hmono := totalCount_take_mono es
          (show (min + max) / 2 ≤ (min + max) / 2 + 1 by omega)
        have hlt2 : L < totalCount (es.take ((min + max) / 2 + 1)) := by omega
        rw [if_pos hlt2]
        have hpos : min < (min + max) / 2 := by
          by_contra hcon
          have : (min + max) / 2 = min := by omega
          rw [this] at hsmall
          omega
        have hsub : wsub ((min + max) / 2) 1 = (min + max) / 2 - 1 := wsub_one (by omega)
        rw [hsub]
        obtain ⟨g, hgr, h1, h2, h3, h4⟩ := ih min ((min + max) / 2 - 1) (by omega) (by omega)
          hlo (by rw [show (min + max) / 2 - 1 + 1 = (min + max) / 2 by omega]; exact hsmall)
          (by omega)
        exact ⟨g, hgr, h1, by omega, h3, h4⟩

/-- Under the store invariants `FindEntryIndex` returns, for every line number below
`lineCount`, the index of an entry whose closed range `[first, last]` holds the line; it
leaves the store as it is. -/
theorem FindEntryIndex_returns {s : SimpleScrollAdapter} (hinv : Invariant s)
    (hn : 2 * s.entries.length ≤ SIZE_MOD) (hmax : s.lineCount ≠ SIZE_MAX) {L : Nat}
    (hL : L < s.lineCount) :
    ∃ g, s.FindEntryIndex L = some (s, g) ∧ g < s.entries.length ∧
      totalCount (s.entries.take g) ≤ L ∧ L ≤ totalCount (s.entries.take (g + 1)) := by
  obtain ⟨hidx, hlc⟩ := hinv
  have hpos : 0 < s.entries.length := by
    by_contra hcon
    have : s.entries = [] := List.length_eq_zero.mp (by omega)
    rw [this, totalCount_nil] at hlc
    omega
  have hsub : wsub s.entries.length 1 = s.entries.length - 1 := wsub_one (by omega)
  obtain ⟨g, hg, _, h2, h3, h4⟩ := findLoop_returns hidx hn (s.entries.length + 1) 0
    (s.entries.length - 1) (by omega) (by omega) (by simp [totalCount_nil])
    (by
      rw [show s.entries.length - 1 + 1 = s.entries.length by omega, List.take_length, ← hlc]
      exact hL)
    (by omega)
  refine ⟨g, ?_, by omega, h3, h4⟩
  unfold FindEntryIndex FindEntryIndexWithin
  simp only [hmax, if_false, hsub, hg]

end SimpleScrollAdapter

namespace SimpleScrollAdapter

/-! ### The example stores are reachable -/

theorem reachable_addLines : ∀ (texts : List (Str × Int)) {s s1 : SimpleScrollAdapter},
    Reachable s → s.AddLines texts = some s1 → Reachable s1 := by
  intro texts
  induction texts with
  | nil =>
    intro s s1 hs h
    simp only [AddLines, Option.some.injEq] at h
    subst h
    exact hs
  | cons t texts ih =>
    intro s s1 hs h
    obtain ⟨str, attrs⟩ := t
    simp only [AddLines] at h
    cases hadd : s.AddLine str attrs with
    | none => simp [hadd] at h
    | some s2 =>
      simp only [hadd] at h
      exact ih (Reachable.addLine str attrs hs hadd) h

theorem evictedStore_reachable : Reachable evictedStore :=
  reachable_addLines [(ascii "a", -1), (ascii "b", -1)]
    (Reachable.setMaxEntries 1
      (Reachable.setDisplaySize 10 3 (Reachable.create 80 24)
        (by decide : (SimpleScrollAdapter.create 80 24).SetDisplaySize 10 3 =
          some (SimpleScrollAdapter.create 10 3))))
    (by decide)

theorem evictedStore2_reachable : Reachable evictedStore2 :=
  reachable_addLines
    [(ascii "a", -1), (ascii "bb cc dd ee ff", 4), (ascii "gg hh ii jj kk", 5)]
    (Reachable.setMaxEntries 2
      (Reachable.setDisplaySize 10 3 (Reachable.create 80 24)
        (by decide : (SimpleScrollAdapter.create 80 24).SetDisplaySize 10 3 =
          some (SimpleScrollAdapter.create 10 3))))
    (by decide)

theorem threeLineStore_reachable : Reachable threeLineStore :=
  reachable_addLines [(ascii "a", -1), (ascii "b", 4), (ascii "c", 5)]
    (Reachable.setDisplaySize 10 3 (Reachable.create 80 24)
      (by decide : (SimpleScrollAdapter.create 80 24).SetDisplaySize 10 3 =
        some (SimpleScrollAdapter.create 10 3)))
    (by decide)

theorem zeroWidthStore_reachable : Reachable zeroWidthStore :=
  reachable_addLines [(ascii "a", -1)]
    (Reachable.setDisplaySize 0 24 (Reachable.create 80 24)
      (by decide : (SimpleScrollAdapter.create 80 24).SetDisplaySize 0 24 =
        some (SimpleScrollAdapter.create 0 24)))
    (by decide)

end SimpleScrollAdapter

namespace SimpleScrollAdapter

theorem zeroWidthStore2_reachable : Reachable zeroWidthStore2 :=
  reachable_addLines [(ascii "a", -1), (ascii "b", -1)]
    (Reachable.setDisplaySize 0 24 (Reachable.create 80 24)
      (by decide : (SimpleScrollAdapter.create 80 24).SetDisplaySize 0 24 =
        some (SimpleScrollAdapter.create 0 24)))
    (by decide)

theorem oneLineStore_reachable : Reachable oneLineStore :=
  reachable_addLines [(ascii "a", -1)]
    (Reachable.setMaxEntries 1
      (Reachable.setDisplaySize 10 3 (Reachable.create 80 24)
        (by decide : (SimpleScrollAdapter.create 80 24).SetDisplaySize 10 3 =
          some (SimpleScrollAdapter.create 10 3))))
    (by decide)

/-! ### Lines held and lines counted -/

theorem specTotalLines_eq_totalCount : ∀ (es : List Entry), (∀ e ∈ es, e.lines ≠ []) →
    specTotalLines es = totalCount es := by
  intro es
  induction es with
  | nil => intro _; rfl
  | cons e es ih =>
    intro hall
    have h1 := ih (fun x hx => hall x (List.mem_cons_of_mem _ hx))
    have h2 := Entry.GetLineCount_eq_length (hall e (List.mem_cons_self _ _))
    unfold specTotalLines totalCount at h1 ⊢
    simp only [List.map_cons, List.sum_cons]
    rw [h1, h2]

/-- In a reachable store of width at least 2 every entry holds at least one line. -/
theorem Reachable.lines_ne_nil {s : SimpleScrollAdapter} (h : Reachable s) (hw : 2 ≤ s.width)
    (hw2 : s.width < SIZE_MOD) : ∀ e ∈ s.entries, e.lines ≠ [] := by
  intro e he
  obtain ⟨hew, hc⟩ := h.cacheCurrent e he
  have hmax : e.width ≠ SIZE_MAX := by
    rw [hew, wsub_one (by omega)]
    unfold SIZE_MAX
    unfold SIZE_MOD at hw2
    omega
  exact wrapText_ne_nil (hc hmax)

/-- What `AddLine` stores for a text at a width of at least 2: an entry that has been wrapped,
so that its list of lines is not empty. -/
theorem newEntry_lines {s : SimpleScrollAdapter} {str : Str} {attrs : Int} {entry : Entry}
    (hw : 2 ≤ s.width) (hw2 : s.width < SIZE_MOD) (h : newEntry s str attrs = some entry) :
    wrapText str (s.width - 1) = some entry.lines ∧ entry.lines ≠ [] := by
  obtain ⟨hv, _, _, hwd, hc⟩ := newEntry_spec h
  have h1 : wsub s.width 1 = s.width - 1 := wsub_one (by omega)
  have hmax : entry.width ≠ SIZE_MAX := by
    rw [hwd, h1]
    unfold SIZE_MAX
    unfold SIZE_MOD at hw2
    omega
  have hwrap := hc hmax
  rw [hv, hwd, h1] at hwrap
  exact ⟨hwrap, wrapText_ne_nil hwrap⟩

/-! ### Helper lemmas for sequences of `AddLine` -/

theorem evictLoop_noop {m : Nat} {es : List Entry} (h : es.length ≤ m) (ro lc : Nat) :
    evictLoop m es ro lc = (es, ro, lc) := by
  cases es with
  | nil => rfl
  | cons e es =>
    have : ¬ (e :: es).length > m := by omega
    simp only [evictLoop, this, if_false]

theorem AddLine_no_eviction {s s1 : SimpleScrollAdapter} {str : Str} {attrs : Int}
    (hw : 2 ≤ s.width) (hw2 : s.width < SIZE_MOD) (hm : s.entries.length + 1 ≤ s.maxEntries)
    (h : s.AddLine str attrs = some s1) :
    ∃ ls, wrapText str (s.width - 1) = some ls ∧ 1 ≤ ls.length ∧
      s1.entries.length = s.entries.length + 1 ∧ s1.lineCount = s.lineCount + ls.length ∧
      s1.width = s.width ∧ s1.maxEntries = s.maxEntries := by
  obtain ⟨entry, hne, hs1⟩ := AddLine_spec h
  obtain ⟨hv, _, _, hwd, hc⟩ := newEntry_spec hne
  rw [evictLoop_noop (by simpa using hm)] at hs1
  subst hs1
  have h1 : wsub s.width 1 = s.width - 1 := wsub_one (by omega)
  have hmax : entry.width ≠ SIZE_MAX := by
    rw [hwd, h1]
    unfold SIZE_MAX
    unfold SIZE_MOD at hw2
    omega
  have hwrap := hc hmax
  rw [hv, hwd, h1] at hwrap
  have hne1 := wrapText_ne_nil hwrap
  refine ⟨entry.lines, hwrap, List.length_pos.mpr hne1, by simp, ?_, rfl, rfl⟩
  simp only [Entry.GetLineCount_eq_length hne1]

theorem AddLines_no_eviction {w m : Nat} (hw : 2 ≤ w) (hw2 : w < SIZE_MOD) :
    ∀ (texts : List (Str × Int)) (s s1 : SimpleScrollAdapter), s.width = w →
      s.maxEntries = m → s.entries.length + texts.length ≤ m → s.AddLines texts = some s1 →
      s1.entries.length = s.entries.length + texts.length ∧
      ∃ wraps : List (List Str),
        List.Forall₂ (fun t ls => wrapText t.1 (w - 1) = some ls ∧ 1 ≤ ls.length) texts wraps ∧
        s1.lineCount = s.lineCount + (wraps.map List.length).sum := by
  intro texts
  induction texts with
  | nil =>
    intro s s1 _ _ _ h
    simp only [AddLines, Option.some.injEq] at h
    subst h
    exact ⟨by simp, [], List.Forall₂.nil, by simp⟩
  | cons t texts ih =>
    intro s s1 hsw hsm hlen h
    obtain ⟨str, attrs⟩ := t
    simp only [AddLines] at h
    simp only [List.length_cons] at hlen
    cases hadd : s.AddLine str attrs with
    | none => simp [hadd] at h
    | some s2 =>
      simp only [hadd] at h
      obtain ⟨ls, hls, hpos, hl2, hc2, hw3, hm2⟩ :=
        AddLine_no_eviction (by omega) (by omega) (by omega) hadd
      obtain ⟨hl1, wraps, hf, hc1⟩ := ih s2 s1 (by omega) (by omega) (by omega) h
      refine ⟨by simp only [List.length_cons]; omega, ls :: wraps,
        List.Forall₂.cons ⟨by rw [← hsw]; exact hls, hpos⟩ hf, ?_⟩
      simp only [List.map_cons, List.sum_cons]
      omega

theorem AddLine_width {s s1 : SimpleScrollAdapter} {str : Str} {attrs : Int}
    (h : s.AddLine str attrs = some s1) : s1.width = s.width := by
  obtain ⟨entry, _, hs1⟩ := AddLine_spec h
  subst hs1
  rfl

theorem AddLines_returns : ∀ (texts : List (Str × Int)) (s : SimpleScrollAdapter),
    2 ≤ s.width → (∀ t ∈ texts, WellFormed t.1) → ∃ s1, s.AddLines texts = some s1 := by
  intro texts
  induction texts with
  | nil => intro s _ _; exact ⟨s, rfl⟩
  | cons t texts ih =>
    intro s hw hall
    obtain ⟨str, attrs⟩ := t
    obtain ⟨s2, hs2⟩ := AddLine_returns s attrs (hall (str, attrs) (List.mem_cons_self _ _)) hw
    obtain ⟨s1, hs1⟩ := ih s2 (by rw [AddLine_width hs2]; exact hw)
      (fun x hx => hall x (List.mem_cons_of_mem _ hx))
    exact ⟨s1, by simp only [AddLines, hs2, hs1]⟩

theorem SetDisplaySize_create (w0 h0 w h : Nat) :
    (SimpleScrollAdapter.create w0 h0).SetDisplaySize w h =
      some (SimpleScrollAdapter.create w h) := by
  unfold SetDisplaySize
  by_cases hc : h ≠ (SimpleScrollAdapter.create w0 h0).height ∨
      w ≠ (SimpleScrollAdapter.create w0 h0).width
  · rw [if_pos hc]
    rfl
  · rw [if_neg hc]
    simp only [SimpleScrollAdapter.create, ne_eq, not_or, not_not] at hc
    obtain ⟨h1, h2⟩ := hc
    subst h1 h2
    rfl

end SimpleScrollAdapter

/-- C3: on `"hello world"` at width 5 the wrapper returns four lines, an empty line before
each of the two words, and not the two lines `["hello", "world"]`: the flush of the packing
loop pushes the accumulator also when it is empty. -/
theorem breakIntoSubLines_hello_world :
    breakIntoSubLines (ascii "hello world") 5 =
      some [ascii "", ascii "hello", ascii "", ascii "world"] ∧
    breakIntoSubLines (ascii "hello world") 5 ≠ some [ascii "hello", ascii "world"] := by
  decide

/-- C5: for every well-formed UTF-8 line and every width of at least 1 the wrapper returns,
and every line it returns is well-formed UTF-8: no encoded character is cut between two
lines. -/
theorem breakIntoSubLines_wellFormed (line : Str) (width : Nat) (hl : WellFormed line)
    (hw : 1 ≤ width) :
    ∃ out, breakIntoSubLines line width = some out ∧ ∀ l ∈ out, WellFormed l :=
  breakIntoSubLines_returns hl hw

/-- Witness of `breakIntoSubLines_wellFormed`: a line of three two-byte characters, a space
and a letter, at width 3, where the first word is cut. -/
theorem breakIntoSubLines_wellFormed_witness :
    WellFormed [0xc3, 0xa9, 0xc3, 0xa9, 0xc3, 0xa9, 0x20, 0x61] ∧ 1 ≤ 3 ∧
      ∃ out, breakIntoSubLines [0xc3, 0xa9, 0xc3, 0xa9, 0xc3, 0xa9, 0x20, 0x61] 3 = some out ∧
        ∀ l ∈ out, WellFormed l :=
  ⟨by decide, by decide,
    breakIntoSubLines_wellFormed [0xc3, 0xa9, 0xc3, 0xa9, 0xc3, 0xa9, 0x20, 0x61] 3
      (by decide) (by decide)⟩

namespace SimpleScrollAdapter

/-! ## The claims about the store -/

/-- C1: after an eviction `DrawPage` does not write the lines the claim names.  On the store
left by `SetDisplaySize(10, 3)`, `SetMaxEntries(1)`, `AddLine("a")`, `AddLine("b")`, whose only
line is `"b"`, `DrawPage(0)` clears the window and writes nothing; on the store with two
entries of two lines, `DrawPage(3)` writes lines 2 and 3 where only line 3 is asked for.  The
offset inside the first entry is taken from `GetIndex()` without `removedOffset`. -/
theorem DrawPage_after_eviction :
    (Reachable evictedStore ∧ evictedStore.GetLineCount = 1 ∧
      evictedStore.DrawPage 0 = some (evictedStore, [SurfaceOp.clear])) ∧
    (Reachable evictedStore2 ∧ evictedStore2.GetLineCount = 4 ∧
      evictedStore2.DrawPage 3 = some (evictedStore2,
        [SurfaceOp.clear, SurfaceOp.attrOn 5, SurfaceOp.write (ascii "gg hh ii"),
          SurfaceOp.write (ascii "jj kk"), SurfaceOp.attrOff 5])) :=
  ⟨⟨evictedStore_reachable, by decide, by decide⟩,
    ⟨evictedStore2_reachable, by decide, by decide⟩⟩

/-- C2: `FindEntryIndex` does not return the entry whose half-open range holds the line.  In
the store of three one-line entries, line 2 is the line of entry 2 (whose range is `[2, 3)`),
and the search returns entry 1 (whose range is `[1, 2)`): its test `lineNumber <= last`
accepts the line one past the end of the probed entry. -/
theorem FindEntryIndex_boundary :
    Reachable threeLineStore ∧ Invariant threeLineStore ∧ 2 < threeLineStore.GetLineCount ∧
      threeLineStore.FindEntryIndex 2 = some (threeLineStore, 1) ∧
      (threeLineStore.entries.map
        (fun e => (e.GetIndex - threeLineStore.removedOffset, e.GetLineCount))) =
        [(0, 1), (1, 1), (2, 1)] :=
  ⟨threeLineStore_reachable, threeLineStore_reachable.invariant, by decide, by decide,
    by decide⟩

/-- C7, as stated, fails in its last clause.  On the reachable store left by
`SetDisplaySize(0, 24)`, `AddLine("a")` and `SetMaxEntries(1)`, `AddLine("b")` evicts the entry
`"a"`, which holds no line, and `removedOffset` grows by 1, where the lengths of the lists of
lines of the evicted entries sum to 0. -/
theorem AddLine_evicts_unwrapped_entry :
    Reachable (zeroWidthStore.SetMaxEntries 1) ∧
    (zeroWidthStore.SetMaxEntries 1).AddLine (ascii "b") (-1) = some zeroWidthEvictedStore ∧
    zeroWidthEvictedStore.entries.map Entry.value = [ascii "b"] ∧
    (zeroWidthStore.SetMaxEntries 1).entries.map Entry.lines = [[]] ∧
    zeroWidthEvictedStore.removedOffset = (zeroWidthStore.SetMaxEntries 1).removedOffset + 1 ∧
    specTotalLines (zeroWidthStore.SetMaxEntries 1).entries = 0 :=
  ⟨Reachable.setMaxEntries 1 zeroWidthStore_reachable, by decide, by decide, by decide,
    by decide, by decide⟩

/-- C7, amended: when `AddLine` returns on a store with entries `E` and bound `m`, the entries
left are the last `min(m, |E| + 1)` of `E` followed by the new entry, in the same order, so
there are at most `m` of them, and `removedOffset` has grown by the sum of `GetLineCount()`,
which is `max(1, lines.size())`, over the entries dropped from the front.  That is the sum of
the lengths of their lists of lines when each of them holds at least one line, as is the case
in every reachable store of width at least 2 (and a `size_t`).  `AddLine` does return when the
text is well-formed UTF-8 and the width at least 2. -/
theorem AddLine_evicts_oldest (s : SimpleScrollAdapter) (str : Str) (attrs : Int) :
    (WellFormed str → 2 ≤ s.width → ∃ s1, s.AddLine str attrs = some s1) ∧
    ∀ s1, s.AddLine str attrs = some s1 →
      ∃ entry, newEntry s str attrs = some entry ∧ entry.value = str ∧ entry.attrs = attrs ∧
        s1.entries = (s.entries ++ [entry]).drop
          ((s.entries.length + 1) - min s.maxEntries (s.entries.length + 1)) ∧
        s1.GetEntryCount = min s.maxEntries (s.entries.length + 1) ∧
        s1.GetEntryCount ≤ s.maxEntries ∧
        s1.removedOffset = s.removedOffset + totalCount ((s.entries ++ [entry]).take
          ((s.entries.length + 1) - min s.maxEntries (s.entries.length + 1))) ∧
        ((∀ e ∈ (s.entries ++ [entry]).take
            ((s.entries.length + 1) - min s.maxEntries (s.entries.length + 1)), e.lines ≠ []) →
          s1.removedOffset = s.removedOffset + specTotalLines ((s.entries ++ [entry]).take
            ((s.entries.length + 1) - min s.maxEntries (s.entries.length + 1)))) ∧
        (Reachable s → 2 ≤ s.width → s.width < SIZE_MOD →
          s1.removedOffset = s.removedOffset + specTotalLines ((s.entries ++ [entry]).take
            ((s.entries.length + 1) - min s.maxEntries (s.entries.length + 1)))) := by
  refine ⟨fun hv hw => AddLine_returns s attrs hv hw, fun s1 h => ?_⟩
  obtain ⟨entry, hne, hs1⟩ := AddLine_spec h
  obtain ⟨hv, ha, _, _, _⟩ := newEntry_spec hne
  obtain ⟨h1, h2⟩ := evictLoop_spec s.maxEntries (s.entries ++ [entry]) s.removedOffset
    (s.lineCount + entry.GetLineCount)
  have hk : (s.entries ++ [entry]).length - s.maxEntries =
      (s.entries.length + 1) - min s.maxEntries (s.entries.length + 1) := by
    simp only [List.length_append, List.length_singleton]
    omega
  rw [hk] at h1 h2
  subst hs1
  have hgen : (∀ e ∈ (s.entries ++ [entry]).take
        ((s.entries.length + 1) - min s.maxEntries (s.entries.length + 1)), e.lines ≠ []) →
      (evictLoop s.maxEntries (s.entries ++ [entry]) s.removedOffset
        (s.lineCount + entry.GetLineCount)).2.1 =
        s.removedOffset + specTotalLines ((s.entries ++ [entry]).take
          ((s.entries.length + 1) - min s.maxEntries (s.entries.length + 1))) := by
    intro hall
    rw [specTotalLines_eq_totalCount _ hall]
    exact h2
  refine ⟨entry, hne, hv, ha, h1, ?_, ?_, h2, hgen, fun hr hw hw2 => hgen ?_⟩
  · simp only [GetEntryCount, h1, List.length_drop, List.length_append, List.length_singleton]
    omega
  · simp only [GetEntryCount, h1, List.length_drop, List.length_append, List.length_singleton]
    omega
  · intro e he
    rcases List.mem_append.mp (List.mem_of_mem_take he) with hold | hnew
    · exact hr.lines_ne_nil hw hw2 e hold
    · rw [List.mem_singleton.mp hnew]
      exact (newEntry_lines hw hw2 hne).2

end SimpleScrollAdapter

namespace SimpleScrollAdapter

/-- Witness of `AddLine_evicts_oldest`: `AddLine("b", -1)` on a store of bound 1 that holds the
entry `"a"`. -/
theorem AddLine_evicts_oldest_witness :
    WellFormed (ascii "b") ∧ 2 ≤ oneLineStore.width ∧ oneLineStore.width < SIZE_MOD ∧
    Reachable oneLineStore ∧
    oneLineStore.AddLine (ascii "b") (-1) = some evictedStore ∧
    (∃ s1, oneLineStore.AddLine (ascii "b") (-1) = some s1) ∧
    ∃ entry, newEntry oneLineStore (ascii "b") (-1) = some entry ∧ entry.value = ascii "b" ∧
      entry.attrs = -1 ∧
      evictedStore.entries = (oneLineStore.entries ++ [entry]).drop
        ((oneLineStore.entries.length + 1) -
          min oneLineStore.maxEntries (oneLineStore.entries.length + 1)) ∧
      evictedStore.GetEntryCount =
        min oneLineStore.maxEntries (oneLineStore.entries.length + 1) ∧
      evictedStore.GetEntryCount ≤ oneLineStore.maxEntries ∧
      evictedStore.removedOffset = oneLineStore.removedOffset +
        totalCount ((oneLineStore.entries ++ [entry]).take
          ((oneLineStore.entries.length + 1) -
            min oneLineStore.maxEntries (oneLineStore.entries.length + 1))) ∧
      evictedStore.removedOffset = oneLineStore.removedOffset +
        specTotalLines ((oneLineStore.entries ++ [entry]).take
          ((oneLineStore.entries.length + 1) -
            min oneLineStore.maxEntries (oneLineStore.entries.length + 1))) := by
  obtain ⟨entry, h1, h2, h3, h4, h5, h6, h7, _, h9⟩ :=
    (AddLine_evicts_oldest oneLineStore (ascii "b") (-1)).2 evictedStore (by decide)
  exact ⟨by decide, by decide, by decide, oneLineStore_reachable, by decide,
    (AddLine_evicts_oldest oneLineStore (ascii "b") (-1)).1 (by decide) (by decide),
    entry, h1, h2, h3, h4, h5, h6, h7, h9 oneLineStore_reachable (by decide) (by decide)⟩

/-- C8: on a newly constructed store whose display size has been set to a width of at least 2
(and whose bound has been set to `m`; the bound set by the constructor is `MAX_ENTRY_COUNT`), a run of
`n <= m` calls of `AddLine` that returns leaves `n` entries, and `GetLineCount()` is the sum,
over the texts, of the number of lines of the wrap of the text at `width - 1` columns, each at
least 1.  The run does return when every text is well-formed UTF-8. -/
theorem AddLines_line_count (w0 h0 w h m : Nat) (texts : List (Str × Int))
    (hw : 2 ≤ w) (hw2 : w < SIZE_MOD) (hn : texts.length ≤ m) :
    ∃ s0, (SimpleScrollAdapter.create w0 h0).SetDisplaySize w h = some s0 ∧
      ((∀ t ∈ texts, WellFormed t.1) → ∃ s, (s0.SetMaxEntries m).AddLines texts = some s) ∧
      ∀ s, (s0.SetMaxEntries m).AddLines texts = some s →
        s.GetEntryCount = texts.length ∧
        ∃ wraps : List (List Str),
          List.Forall₂ (fun t ls => wrapText t.1 (w - 1) = some ls ∧ 1 ≤ ls.length)
            texts wraps ∧
          s.GetLineCount = (wraps.map List.length).sum := by
  refine ⟨SimpleScrollAdapter.create w h, SetDisplaySize_create w0 h0 w h, ?_, ?_⟩
  · intro hall
    exact AddLines_returns texts _ hw hall
  · intro s hs
    have hlen : ((SimpleScrollAdapter.create w h).SetMaxEntries m).entries.length +
        texts.length ≤ m := by
      simpa [SetMaxEntries, SimpleScrollAdapter.create] using hn
    obtain ⟨h1, wraps, hf, h2⟩ := AddLines_no_eviction (w := w) (m := m) hw hw2 texts
      ((SimpleScrollAdapter.create w h).SetMaxEntries m) s rfl rfl hlen hs
    refine ⟨by simpa [GetEntryCount, SetMaxEntries, SimpleScrollAdapter.create] using h1,
      wraps, hf, ?_⟩
    simpa [GetLineCount, SetMaxEntries, SimpleScrollAdapter.create] using h2

/-- Witness of `AddLines_line_count`: three texts at width 10, of one, two and two lines. -/
theorem AddLines_line_count_witness :
    2 ≤ 10 ∧ 10 < SIZE_MOD ∧
    [(ascii "a", (-1 : Int)), (ascii "bb cc dd ee ff", 4), (ascii "gg hh ii jj kk", 5)].length
      ≤ 3 ∧
    ∃ s0, (SimpleScrollAdapter.create 80 24).SetDisplaySize 10 3 = some s0 ∧
      ∃ s, (s0.SetMaxEntries 3).AddLines
          [(ascii "a", -1), (ascii "bb cc dd ee ff", 4), (ascii "gg hh ii jj kk", 5)] = some s ∧
        s.GetEntryCount = 3 ∧
        ∃ wraps : List (List Str),
          List.Forall₂ (fun t ls => wrapText t.1 (10 - 1) = some ls ∧ 1 ≤ ls.length)
            [(ascii "a", (-1 : Int)), (ascii "bb cc dd ee ff", 4), (ascii "gg hh ii jj kk", 5)]
            wraps ∧
          s.GetLineCount = (wraps.map List.length).sum := by
  refine ⟨by decide, by decide, by decide, ?_⟩
  obtain ⟨s0, h0, hret, hall⟩ := AddLines_line_count 80 24 10 3 3
    [(ascii "a", -1), (ascii "bb cc dd ee ff", 4), (ascii "gg hh ii jj kk", 5)]
    (by decide) (by decide) (by decide)
  obtain ⟨s, hs⟩ := hret (by decide)
  exact ⟨s0, h0, s, hs, hall s hs⟩

/-- C10: `SetDisplaySize` is idempotent.  When `SetDisplaySize(w, h)` returns, the store holds
that size, so a second `SetDisplaySize(w, h)` finds no dimension changed, does not reindex and
returns the store as it is. -/
theorem SetDisplaySize_idempotent (s s1 : SimpleScrollAdapter) (w h : Nat)
    (hs : s.SetDisplaySize w h = some s1) :
    ¬ (h ≠ s1.height ∨ w ≠ s1.width) ∧ s1.SetDisplaySize w h = some s1 := by
  have hsize : ¬ (h ≠ s1.height ∨ w ≠ s1.width) := by
    rcases SetDisplaySize_spec hs with ⟨hno, rfl⟩ | ⟨_, es, total, _, rfl⟩
    · exact hno
    · simp
  refine ⟨hsize, ?_⟩
  unfold SetDisplaySize
  rw [if_neg hsize]

/-- Witness of `SetDisplaySize_idempotent`: the resize of `evictedStore2` to six columns. -/
theorem SetDisplaySize_idempotent_witness :
    evictedStore2.SetDisplaySize 6 3 = some resizedStore ∧
    ¬ (3 ≠ resizedStore.height ∨ 6 ≠ resizedStore.width) ∧
    resizedStore.SetDisplaySize 6 3 = some resizedStore :=
  ⟨by decide, SetDisplaySize_idempotent evictedStore2 resizedStore 6 3 (by decide)⟩

end SimpleScrollAdapter

/-! ### Cutting a long word into full chunks -/

theorem Chars.ne_nil_of_succ {s : Str} {n : Nat} (h : Chars s (n + 1)) : s ≠ [] := by
  cases h with
  | cons hc _ =>
    intro hnil
    exact hc.ne (List.append_eq_nil.mp hnil).1

theorem fullChunks_ne_nil {k : Nat} {cs : List Str} (h : FullChunks k cs) : cs ≠ [] := by
  cases cs with
  | nil => exact absurd h (by simp [FullChunks])
  | cons c cs => simp

theorem fullChunks_cons {k : Nat} {c : Str} {cs : List Str} (hc : Chars c k)
    (h : FullChunks k cs) : FullChunks k (c :: cs) := by
  cases cs with
  | nil => exact absurd h (by simp [FullChunks])
  | cons d rest => exact ⟨hc, h⟩

theorem splitWordLoop_step (width fuel : Nat) {c : Str} (hc : IsChar c) (r chunk : Str)
    (count : Nat) :
    splitWordLoop width (fuel + 1) chunk (c ++ r) count =
      if count + 1 = wsub width 1 ∨ r = [] then
        (splitWordLoop width fuel [] r 0).map (fun chunks => (chunk ++ c) :: chunks)
      else splitWordLoop width fuel (chunk ++ c) r (count + 1) := by
  obtain ⟨b, t, hbt⟩ := List.exists_cons_of_ne_nil hc.ne
  have hu := hc.unchecked r
  subst hbt
  simp only [List.cons_append] at hu ⊢
  simp only [splitWordLoop, hu]
  cases splitWordLoop width fuel [] r 0 <;> rfl

theorem splitWordLoop_nil (width fuel : Nat) (chunk : Str) (count : Nat) :
    splitWordLoop width fuel chunk [] count = some [] := by
  cases fuel <;> simp [splitWordLoop]

theorem splitWordLoop_fullChunks (width : Nat) {rest : Str} {n : Nat}
    (h : Chars rest n) :
    ∀ (fuel : Nat), rest.length ≤ fuel → 1 ≤ n → ∀ (chunk : Str) (count : Nat),
      Chars chunk count → count < wsub width 1 →
      ∃ chunks, splitWordLoop width fuel chunk rest count = some chunks ∧
        chunks.flatten = chunk ++ rest ∧ FullChunks (wsub width 1) chunks := by
  induction h with
  | nil => intro fuel _ hn; omega
  | @cons c r m hc hr ih =>
    intro fuel hf _ chunk count hchunk hcount
    have hpos := hc.length_pos
    simp only [List.length_append] at hf
    cases fuel with
    | zero => omega
    | succ fuel =>
      have hnew : Chars (chunk ++ c) (count + 1) := by
        have := hchunk.cat (Chars.single hc)
        simpa using this
      rw [splitWordLoop_step width fuel hc]
      cases m with
      | zero =>
        have hrnil : r = [] := hr.eq_nil_of_zero
        rw [if_pos (Or.inr hrnil), hrnil, splitWordLoop_nil]
        exact ⟨[chunk ++ c], rfl, by simp, ⟨count + 1, hnew, by omega, by omega⟩⟩
      | succ m =>
        have hrne : r ≠ [] := hr.ne_nil_of_succ
        by_cases hcut : count + 1 = wsub width 1
        · rw [if_pos (Or.inl hcut)]
          obtain ⟨chunks, hch, hflat, hfull⟩ := ih fuel (by omega) (by omega) [] 0 Chars.nil
            (by omega)
          rw [hch]
          refine ⟨(chunk ++ c) :: chunks, rfl, ?_, ?_⟩
          · simp [hflat]
          · exact fullChunks_cons (by rw [← hcut]; exact hnew) hfull
        · have hno : ¬ (count + 1 = wsub width 1 ∨ r = []) := by
            rintro (h1 | h1)
            · exact hcut h1
            · exact hrne h1
          rw [if_neg hno]
          obtain ⟨chunks, hch, hflat, hfull⟩ := ih fuel (by omega) (by omega) (chunk ++ c)
            (count + 1) hnew (by omega)
          exact ⟨chunks, hch, by simp [hflat], hfull⟩

theorem fullChunks_chars {k : Nat} : ∀ {cs : List Str}, FullChunks k cs →
    ∃ m, 1 ≤ m ∧ m ≤ k ∧ Chars cs.flatten ((cs.length - 1) * k + m) := by
  intro cs
  induction cs with
  | nil => intro h; exact absurd h (by simp [FullChunks])
  | cons c cs ih =>
    intro h
    cases cs with
    | nil =>
      obtain ⟨m, hm, h1, h2⟩ := h
      exact ⟨m, h1, h2, by simpa using hm⟩
    | cons d rest =>
      obtain ⟨hc, hrest⟩ := h
      obtain ⟨m, h1, h2, hm⟩ := ih hrest
      refine ⟨m, h1, h2, ?_⟩
      have := hc.cat hm
      simp only [List.flatten_cons, List.length_cons, Nat.add_sub_cancel] at this ⊢
      rw [show (rest.length + 1) * k + m = k + (rest.length * k + m) by
        rw [Nat.succ_mul]; omega]
      exact this

theorem fullChunks_dropLast {k : Nat} : ∀ {cs : List Str}, FullChunks k cs →
    (∀ l ∈ cs.dropLast, Chars l k) ∧
    ∃ last m, cs.getLast? = some last ∧ Chars last m ∧ 1 ≤ m ∧ m ≤ k := by
  intro cs
  induction cs with
  | nil => intro h; exact absurd h (by simp [FullChunks])
  | cons c cs ih =>
    intro h
    cases cs with
    | nil =>
      obtain ⟨m, hm, h1, h2⟩ := h
      exact ⟨by simp, c, m, by simp, hm, h1, h2⟩
    | cons d rest =>
      obtain ⟨hc, hrest⟩ := h
      obtain ⟨hall, last, m, hlast, hm, h1, h2⟩ := ih hrest
      refine ⟨?_, last, m, ?_, hm, h1, h2⟩
      · intro l hl
        rw [List.dropLast_cons₂] at hl
        rcases List.mem_cons.mp hl with rfl | hl
        · exact hc
        · exact hall l hl
      · rw [List.getLast?_cons_cons]
        exact hlast

theorem ceil_div_chunks {k len m : Nat} (hlen : 1 ≤ len) (h1 : 1 ≤ m) (h2 : m ≤ k) :
    ((len - 1) * k + m + k - 1) / k = len := by
  obtain ⟨l, rfl⟩ : ∃ l, len = l + 1 := ⟨len - 1, by omega⟩
  have hk : 0 < k := by omega
  simp only [Nat.add_sub_cancel]
  rw [show l * k + m + k - 1 = (m - 1) + k * (l + 1) by
    rw [Nat.mul_succ, Nat.mul_comm k l]; omega]
  rw [Nat.add_mul_div_left _ _ hk, Nat.div_eq_of_lt (by omega)]
  omega

/-! ### Packing the chunks of one long word -/

theorem packLoop_chunks (width size : Nat) (hsize : 2 ≤ size) (hw : 1 ≤ width) :
    ∀ (words : List Str) (i : Nat) (accum : Str) (accumLength : Nat), i ≠ 0 → accum ≠ [] →
      (words ≠ [] → accumLength = width - 1) → FullChunks (width - 1) words ∨ words = [] →
      packLoop width size i words accum accumLength = accum :: words := by
  intro words
  induction words with
  | nil =>
    intro i accum accumLength _ hacc _ _
    have : accum.length ≠ 0 := fun h0 => hacc (List.length_eq_zero.mp h0)
    simp [packLoop, this]
  | cons word rest ih =>
    intro i accum accumLength hi hacc hal hfull
    have hfull1 : FullChunks (width - 1) (word :: rest) := by
      rcases hfull with h | h
      · exact h
      · simp at h
    have hex : (if i ≠ 0 ∧ size - 1 ≠ 0 then 1 else 0) = 1 := by
      have h1 : size - 1 ≠ 0 := by omega
      simp [hi, h1]
    have hal1 := hal (by simp)
    rw [packLoop_cons, hex]
    have hwl : utf8Length word ≤ width - 1 ∧ word ≠ [] ∧
        (rest ≠ [] → utf8Length word = width - 1) ∧
        (FullChunks (width - 1) rest ∨ rest = []) := by
      cases rest with
      | nil =>
        obtain ⟨m, hm, h1, h2⟩ := hfull1
        refine ⟨by rw [hm.utf8Length]; exact h2, ?_, by simp, Or.inr rfl⟩
        obtain ⟨m1, rfl⟩ : ∃ m1, m = m1 + 1 := ⟨m - 1, by omega⟩
        exact hm.ne_nil_of_succ
      | cons d rest1 =>
        obtain ⟨hc, hrest⟩ := hfull1
        have hkpos : 1 ≤ width - 1 := by
          obtain ⟨m, h1, h2, _⟩ := fullChunks_chars hrest
          omega
        refine ⟨by rw [hc.utf8Length], ?_, fun _ => hc.utf8Length, Or.inl hrest⟩
        obtain ⟨m1, hm1⟩ : ∃ m1, width - 1 = m1 + 1 := ⟨width - 1 - 1, by omega⟩
        rw [hm1] at hc
        exact hc.ne_nil_of_succ
    obtain ⟨hle, hne, hfullw, hrest⟩ := hwl
    have hlt : ¬ (accumLength + 1 + utf8Length word < width) := by omega
    have hneq : ¬ (utf8Length word = width) := by omega
    rw [if_neg hlt, if_neg hneq, ih (i + 1) word (utf8Length word) (by omega) hne hfullw hrest]

theorem packLoop_fullChunks (width : Nat) (hw : 2 ≤ width) {chunks : List Str}
    (h : FullChunks (width - 1) chunks) :
    packLoop width chunks.length 0 chunks [] 0 = chunks := by
  cases chunks with
  | nil => exact absurd h (by simp [FullChunks])
  | cons c rest =>
    rw [packLoop_cons]
    have hex : (if (0 : Nat) ≠ 0 ∧ (c :: rest).length - 1 ≠ 0 then 1 else 0) = 0 := by simp
    rw [hex]
    have hc : utf8Length c ≤ width - 1 ∧ c ≠ [] ∧ (rest ≠ [] → utf8Length c = width - 1) ∧
        (FullChunks (width - 1) rest ∨ rest = []) := by
      cases rest with
      | nil =>
        obtain ⟨m, hm, h1, h2⟩ := h
        refine ⟨by rw [hm.utf8Length]; exact h2, ?_, by simp, Or.inr rfl⟩
        obtain ⟨m1, rfl⟩ : ∃ m1, m = m1 + 1 := ⟨m - 1, by omega⟩
        exact hm.ne_nil_of_succ
      | cons d rest1 =>
        obtain ⟨hc, hrest⟩ := h
        refine ⟨by rw [hc.utf8Length], ?_, fun _ => hc.utf8Length, Or.inl hrest⟩
        obtain ⟨m1, hm1⟩ : ∃ m1, width - 1 = m1 + 1 := ⟨width - 1 - 1, by omega⟩
        rw [hm1] at hc
        exact hc.ne_nil_of_succ
    obtain ⟨hle, hne, hfullw, hrest⟩ := hc
    have hlt : 0 + 0 + utf8Length c < width := by omega
    rw [if_pos hlt]
    simp only [ne_eq, not_true_eq_false, if_false, List.append_nil, List.nil_append,
      Nat.zero_add, Nat.add_zero]
    cases rest with
    | nil =>
      have : c.length ≠ 0 := fun h0 => hne (List.length_eq_zero.mp h0)
      simp [packLoop, this]
    | cons d rest1 =>
      exact packLoop_chunks width _ (by simp) (by omega) (d :: rest1) 1 c (utf8Length c)
        (by omega) hne hfullw hrest

theorem split_no_delim {p : Nat → Bool} : ∀ {s : Str}, (∀ b ∈ s, p b = false) →
    split p s = [s] := by
  intro s
  induction s with
  | nil => intro _; rfl
  | cons b r ih =>
    intro h
    exact split_cons_neg (h b (List.mem_cons_self _ _))
      (ih (fun x hx => h x (List.mem_cons_of_mem _ hx)))

/-- What the wrapper returns on a well-formed token without whitespace that is longer than the
width: its chunks of `width - 1` code points. -/
theorem breakIntoSubLines_token {token : Str} {width : Nat} (hw : 2 ≤ width)
    (h24 : width < 2 ^ 24) (hwf : WellFormed token)
    (hws : ∀ b ∈ token, is_any_of whitespace b = false) (hn : width < utf8Length token) :
    ∃ out, breakIntoSubLines token width = some out ∧ out.flatten = token ∧
      FullChunks (width - 1) out := by
  have hlong : ¬ ceilFloatDiv (toFloat (utf8Length token)) (toFloat width) ≤ 1 := by
    rw [count_le_one_iff (by omega) h24]
    omega
  have hbytes : ¬ width ≥ token.length := by
    have := utf8Length_le_length token
    omega
  have hk : wsub width 1 = width - 1 := wsub_one (by omega)
  obtain ⟨chunks, hch, hflat, hfull⟩ := splitWordLoop_fullChunks width
    hwf.chars token.length le_rfl (by omega) [] 0 Chars.nil (by rw [hk]; omega)
  rw [hk] at hfull
  refine ⟨chunks, ?_, by simpa using hflat, hfull⟩
  rw [breakIntoSubLines_eq_slow (by omega) hlong, split_no_delim hws]
  simp only [sanitizeWords, hbytes, if_false, hch, List.append_nil, Option.map]
  rw [packLoop_fullChunks width hw hfull]

namespace SimpleScrollAdapter

theorem AddLine_count_le {s s1 : SimpleScrollAdapter} {str : Str} {attrs : Int}
    (h : s.AddLine str attrs = some s1) : s1.entries.length ≤ s.maxEntries := by
  obtain ⟨entry, _, hs1⟩ := AddLine_spec h
  subst hs1
  simp only [(evictLoop_spec _ _ _ _).1, List.length_drop, List.length_append,
    List.length_singleton]
  omega

/-- C13: `SetMaxEntries(n)` changes the bound and nothing else: the entries (however many),
`lineCount`, `removedOffset` and the display size stay as they are; the next `AddLine` that
returns leaves at most `n` entries. -/
theorem SetMaxEntries_frame (s : SimpleScrollAdapter) (n : Nat) :
    (s.SetMaxEntries n).entries = s.entries ∧
    (s.SetMaxEntries n).lineCount = s.lineCount ∧
    (s.SetMaxEntries n).removedOffset = s.removedOffset ∧
    (s.SetMaxEntries n).width = s.width ∧
    (s.SetMaxEntries n).height = s.height ∧
    (s.SetMaxEntries n).maxEntries = n ∧
    ∀ (str : Str) (attrs : Int) (s1 : SimpleScrollAdapter),
      (s.SetMaxEntries n).AddLine str attrs = some s1 → s1.GetEntryCount ≤ n :=
  ⟨rfl, rfl, rfl, rfl, rfl, rfl, fun _ _ _ h => AddLine_count_le h⟩

/-- Witness of `SetMaxEntries_frame`: the bound of a store of two entries is set to 1; the two
entries stay, and the next `AddLine` leaves one entry. -/
theorem SetMaxEntries_frame_witness :
    (evictedStore2.SetMaxEntries 1).GetEntryCount = 2 ∧
    ∃ s1, (evictedStore2.SetMaxEntries 1).AddLine (ascii "x") 7 = some s1 ∧
      s1.GetEntryCount ≤ 1 := by
  refine ⟨by decide, ?_⟩
  obtain ⟨s1, hs1⟩ := @AddLine_returns (evictedStore2.SetMaxEntries 1) (ascii "x") 7
    (by decide) (by decide)
  exact ⟨s1, hs1, (SetMaxEntries_frame evictedStore2 1).2.2.2.2.2.2 (ascii "x") 7 s1 hs1⟩

/-- C17: whenever the wrapper returns it returns at least one line, and it does return for
every well-formed UTF-8 line at every width of at least 1.  So the entry that `AddLine` builds
at a viewport width of at least 2 (the last entry of the store when the bound is not zero)
holds a non-empty list of lines, its `GetLineCount()` is the length of that list, and
`GetLine(i)` is defined for every `i < GetLineCount()`. -/
theorem AddLine_entry_has_lines :
    (∀ (line : Str) (width : Nat) (out : List Str),
      breakIntoSubLines line width = some out → out ≠ []) ∧
    (∀ (line : Str) (width : Nat), WellFormed line → 1 ≤ width →
      ∃ out, breakIntoSubLines line width = some out ∧ out ≠ []) ∧
    ∀ (s s1 : SimpleScrollAdapter) (str : Str) (attrs : Int), 2 ≤ s.width →
      s.width < SIZE_MOD → s.AddLine str attrs = some s1 →
      ∃ entry, newEntry s str attrs = some entry ∧
        (1 ≤ s.maxEntries → s1.entries.getLast? = some entry) ∧
        entry.lines ≠ [] ∧ entry.GetLineCount = entry.lines.length ∧
        ∀ i, i < entry.GetLineCount → ∃ l, entry.GetLine i = some l := by
  refine ⟨fun _ _ _ h => breakIntoSubLines_ne_nil h, fun line width hl hw => ?_, ?_⟩
  · obtain ⟨out, hout, _⟩ := breakIntoSubLines_returns hl hw
    exact ⟨out, hout, breakIntoSubLines_ne_nil hout⟩
  · intro s s1 str attrs hw hw2 h
    obtain ⟨entry, hne, hs1⟩ := AddLine_spec h
    obtain ⟨_, hlines⟩ := newEntry_lines hw hw2 hne
    have hcount := Entry.GetLineCount_eq_length hlines
    refine ⟨entry, hne, fun hm => ?_, hlines, hcount, fun i hi => ?_⟩
    · subst hs1
      simp only [(evictLoop_spec _ _ _ _).1, List.getLast?_drop, List.length_append,
        List.length_singleton, List.getLast?_concat]
      rw [if_neg (by omega)]
    · rw [hcount] at hi
      exact ⟨entry.lines.get ⟨i, hi⟩, by simp [Entry.GetLine, List.getElem?_eq_getElem hi]⟩

/-- Witness of `AddLine_entry_has_lines`: `AddLine("b", -1)` on the store that holds the entry
`"a"` at width 10. -/
theorem AddLine_entry_has_lines_witness :
    (breakIntoSubLines (ascii "hello world") 5 =
        some [ascii "", ascii "hello", ascii "", ascii "world"] ∧
      [ascii "", ascii "hello", ascii "", ascii "world"] ≠ []) ∧
    (WellFormed (ascii "hello world") ∧ 1 ≤ 5 ∧
      ∃ out, breakIntoSubLines (ascii "hello world") 5 = some out ∧ out ≠ []) ∧
    (2 ≤ oneLineStore.width ∧ oneLineStore.width < SIZE_MOD ∧
      oneLineStore.AddLine (ascii "b") (-1) = some evictedStore ∧
      ∃ entry, newEntry oneLineStore (ascii "b") (-1) = some entry ∧
        (1 ≤ oneLineStore.maxEntries → evictedStore.entries.getLast? = some entry) ∧
        entry.lines ≠ [] ∧ entry.GetLineCount = entry.lines.length ∧
        ∀ i, i < entry.GetLineCount → ∃ l, entry.GetLine i = some l) :=
  ⟨⟨by decide, AddLine_entry_has_lines.1 (ascii "hello world") 5 _ (by decide)⟩,
    ⟨by decide, by decide,
      AddLine_entry_has_lines.2.1 (ascii "hello world") 5 (by decide) (by decide)⟩,
    ⟨by decide, by decide, by decide,
      AddLine_entry_has_lines.2.2 oneLineStore evictedStore (ascii "b") (-1) (by decide)
        (by decide) (by decide)⟩⟩

end SimpleScrollAdapter

namespace SimpleScrollAdapter

/-! ### The iterations of the binary search -/

theorem probesResult_cons (g : Nat) (k : Probe) (ps : List (Nat × Probe))
    (h : k ≠ Probe.found) : probesResult ((g, k) :: ps) = probesResult ps := by
  cases ps with
  | nil => cases k <;> simp_all [probesResult]
  | cons q qs => simp [probesResult]

/-- The search loop returns what its list of iterations says. -/
theorem findLoop_eq_probesResult (es : List Entry) (ro L : Nat) :
    ∀ (fuel min max : Nat),
      findLoop es ro L fuel min max = probesResult (findProbes es ro L fuel min max) := by
  intro fuel
  induction fuel with
  | zero => intro min max; simp [findLoop, findProbes, probesResult]
  | succ fuel ih =>
    intro min max
    cases hget : es[(min + max) % SIZE_MOD / 2]? with
    | none => simp [findLoop, findProbes, hget, probesResult]
    | some entry =>
      simp only [findLoop, findProbes, hget]
      by_cases hin : L ≥ wsub entry.GetIndex ro ∧
          L ≤ wsub entry.GetIndex ro + entry.GetLineCount
      · rw [if_pos hin, if_pos hin]
        simp [probesResult]
      · rw [if_neg hin, if_neg hin]
        by_cases hgt : L > wsub entry.GetIndex ro
        · rw [if_pos hgt, if_pos hgt, probesResult_cons _ _ _ (by decide)]
          exact ih _ _
        · rw [if_neg hgt, if_neg hgt]
          by_cases hlt : L < wsub entry.GetIndex ro + entry.GetLineCount
          · rw [if_pos hlt, if_pos hlt, probesResult_cons _ _ _ (by decide)]
            exact ih _ _
          · rw [if_neg hlt, if_neg hlt, probesResult_cons _ _ _ (by decide)]
            exact ih _ _

theorem length_le_totalCount (es : List Entry) : es.length ≤ totalCount es := by
  induction es with
  | nil => simp [totalCount_nil]
  | cons e es ih =>
    have := Entry_GetLineCount_pos e
    rw [totalCount_cons]
    simp only [List.length_cons]
    omega

/-- Under the store invariants every iteration of the search probes an entry of the window,
and an iteration that moves `max` down does so from a probe above `min`. -/
theorem findProbes_in_range {es : List Entry} {ro L : Nat} (hidx : IndexedFrom ro 0 es)
    (hn : 2 * es.length ≤ SIZE_MOD) :
    ∀ (fuel min max : Nat), min ≤ max → max < es.length →
      totalCount (es.take min) ≤ L → L < totalCount (es.take (max + 1)) →
      ∀ p ∈ findProbes es ro L fuel min max, min ≤ p.1 ∧ p.1 ≤ max ∧
        (p.2 = Probe.found ∨ p.2 = Probe.right ∨ (p.2 = Probe.left ∧ min < p.1)) := by
  intro fuel
  induction fuel with
  | zero => intro min max _ _ _ _ p hp; simp [findProbes] at hp
  | succ fuel ih =>
    intro min max hmm hmax hlo hhi p hp
    have hmod : (min + max) % SIZE_MOD = min + max := by
      apply Nat.mod_eq_of_lt
      omega
    have hg1 : min ≤ (min + max) / 2 := by omega
    have hg2 : (min + max) / 2 ≤ max := by omega
    have hglt : (min + max) / 2 < es.length := by omega
    have hget : es[(min + max) / 2]? = some (es.get ⟨(min + max) / 2, hglt⟩) := by
      simp [List.getElem?_eq_getElem hglt]
    have hfirst : wsub (es.get ⟨(min + max) / 2, hglt⟩).GetIndex ro =
        totalCount (es.take ((min + max) / 2)) := by
      have := indexedFrom_get hidx _ hglt
      unfold Entry.GetIndex
      rw [this, Nat.zero_add, wsub_add_left]
    have hlast := totalCount_take_succ es _ hglt
    simp only [findProbes, hmod, hget, hfirst] at hp
    rw [← hlast] at hp
    by_cases hin : L ≥ totalCount (es.take ((min + max) / 2)) ∧
        L ≤ totalCount (es.take ((min + max) / 2 + 1))
    · rw [if_pos hin] at hp
      simp only [List.mem_singleton] at hp
      subst hp
      exact ⟨hg1, hg2, Or.inl rfl⟩
    · rw [if_neg hin] at hp
      by_cases hgt : L > totalCount (es.take ((min + max) / 2))
      · rw [if_pos hgt] at hp
        rcases List.mem_cons.mp hp with rfl | hp
        · exact ⟨hg1, hg2, Or.inr (Or.inl rfl)⟩
        · have hbig : totalCount (es.take ((min + max) / 2 + 1)) < L := by
            by_contra hcon
            exact hin ⟨by omega, by omega⟩
          have hlt : (min + max) / 2 < max := by
            by_contra hcon
            have : (min + max) / 2 = max := by omega
            rw [this] at hbig
            omega
          obtain ⟨h1, h2, h3⟩ := ih ((min + max) / 2 + 1) max (by omega) hmax (by omega) hhi
            p hp
          refine ⟨by omega, h2, ?_⟩
          rcases h3 with h3 | h3 | ⟨h3, h4⟩
          · exact Or.inl h3
          · exact Or.inr (Or.inl h3)
          · exact Or.inr (Or.inr ⟨h3, by omega⟩)
      · rw [if_neg hgt] at hp
        have hmono := totalCount_take_mono es
          (show (min + max) / 2 ≤ (min + max) / 2 + 1 by omega)
        have hsmall : L < totalCount (es.take ((min + max) / 2)) := by
          by_contra hcon
          exact hin ⟨by omega, by omega⟩
        have hlt2 : L < totalCount (es.take ((min + max) / 2 + 1)) := by omega
        rw [if_pos hlt2] at hp
        have hpos : min < (min + max) / 2 := by
          by_contra hcon
          have : (min + max) / 2 = min := by omega
          rw [this] at hsmall
          omega
        rcases List.mem_cons.mp hp with rfl | hp
        · exact ⟨hg1, hg2, Or.inr (Or.inr ⟨rfl, hpos⟩)⟩
        · have hsub : wsub ((min + max) / 2) 1 = (min + max) / 2 - 1 := wsub_one (by omega)
          rw [hsub] at hp
          obtain ⟨h1, h2, h3⟩ := ih min ((min + max) / 2 - 1) (by omega) (by omega) hlo
            (by rw [show (min + max) / 2 - 1 + 1 = (min + max) / 2 by omega]; exact hsmall)
            p hp
          exact ⟨h1, by omega, h3⟩

end SimpleScrollAdapter

namespace SimpleScrollAdapter

/-- C14: for every store that satisfies the store invariants (and holds fewer than `2 ^ 63`
lines, as every store in a 64-bit address space does) and every line number below
`lineCount`, the binary search of `FindEntryIndex` terminates and returns an index below the
number of entries; every iteration probes an index below the number of entries, so that
`entries.at(guess)` never throws, and an iteration that executes `max = guess - 1` does so
with `guess` above zero. -/
theorem FindEntryIndex_search_safe (s : SimpleScrollAdapter) (L : Nat) (hinv : Invariant s)
    (hsize : 2 * s.lineCount < SIZE_MOD) (hL : L < s.lineCount) :
    ∃ g, s.FindEntryIndex L = some (s, g) ∧ g < s.entries.length ∧
      probesResult (findProbes s.entries s.removedOffset L (s.entries.length + 1) 0
        (wsub s.entries.length 1)) = some g ∧
      ∀ p ∈ findProbes s.entries s.removedOffset L (s.entries.length + 1) 0
          (wsub s.entries.length 1),
        p.1 < s.entries.length ∧ p.2 ≠ Probe.outOfRange ∧ p.2 ≠ Probe.stay ∧
          (p.2 = Probe.left → p.1 ≠ 0) := by
  have hlen := length_le_totalCount s.entries
  have hlc := hinv.2
  have hn : 2 * s.entries.length ≤ SIZE_MOD := by omega
  have hmax : s.lineCount ≠ SIZE_MAX := by
    unfold SIZE_MAX
    unfold SIZE_MOD at hsize
    omega
  obtain ⟨g, hg, hglt, _, _⟩ := FindEntryIndex_returns hinv hn hmax hL
  have hpos : 0 < s.entries.length := by omega
  have hsub : wsub s.entries.length 1 = s.entries.length - 1 := wsub_one (by omega)
  refine ⟨g, hg, hglt, ?_, ?_⟩
  · rw [← findLoop_eq_probesResult]
    unfold FindEntryIndex FindEntryIndexWithin at hg
    simp only [hmax, if_false] at hg
    cases hfl : findLoop s.entries s.removedOffset L (s.entries.length + 1) 0
        (wsub s.entries.length 1) with
    | none => simp [hfl] at hg
    | some g1 =>
      simp only [hfl, Option.some.injEq, Prod.mk.injEq, true_and] at hg
      rw [hg]
  · intro p hp
    rw [hsub] at hp
    obtain ⟨_, h2, h3⟩ := findProbes_in_range hinv.1 hn (s.entries.length + 1) 0
      (s.entries.length - 1) (by omega) (by omega) (by simp [totalCount_nil])
      (by
        rw [show s.entries.length - 1 + 1 = s.entries.length by omega, List.take_length, ← hlc]
        exact hL)
      p hp
    refine ⟨by omega, ?_, ?_, ?_⟩
    · rcases h3 with h3 | h3 | ⟨h3, _⟩ <;> rw [h3] <;> decide
    · rcases h3 with h3 | h3 | ⟨h3, _⟩ <;> rw [h3] <;> decide
    · intro hleft
      rcases h3 with h3 | h3 | ⟨_, h4⟩
      · rw [h3] at hleft; exact absurd hleft (by decide)
      · rw [h3] at hleft; exact absurd hleft (by decide)
      · omega

/-- Witness of `FindEntryIndex_search_safe`: line 0 in the store of three one-line entries;
the search probes entry 1, moves `max` down to 0 and returns entry 0. -/
theorem FindEntryIndex_search_safe_witness :
    Invariant threeLineStore ∧ 2 * threeLineStore.lineCount < SIZE_MOD ∧
    0 < threeLineStore.lineCount ∧
    findProbes threeLineStore.entries threeLineStore.removedOffset 0
        (threeLineStore.entries.length + 1) 0 (wsub threeLineStore.entries.length 1) =
      [(1, Probe.left), (0, Probe.found)] ∧
    ∃ g, threeLineStore.FindEntryIndex 0 = some (threeLineStore, g) ∧
      g < threeLineStore.entries.length ∧
      probesResult (findProbes threeLineStore.entries threeLineStore.removedOffset 0
        (threeLineStore.entries.length + 1) 0 (wsub threeLineStore.entries.length 1)) =
          some g ∧
      ∀ p ∈ findProbes threeLineStore.entries threeLineStore.removedOffset 0
          (threeLineStore.entries.length + 1) 0 (wsub threeLineStore.entries.length 1),
        p.1 < threeLineStore.entries.length ∧ p.2 ≠ Probe.outOfRange ∧ p.2 ≠ Probe.stay ∧
          (p.2 = Probe.left → p.1 ≠ 0) :=
  ⟨threeLineStore_reachable.invariant, by decide, by decide, by decide,
    FindEntryIndex_search_safe threeLineStore 0 threeLineStore_reachable.invariant
      (by decide) (by decide)⟩

end SimpleScrollAdapter

/-! ### The bytes of the tokens, the sanitized words and the lines -/

theorem split_no_pred {p : Nat → Bool} : ∀ (s : Str), ∀ w ∈ split p s, ∀ b ∈ w, p b = false := by
  intro s
  induction s with
  | nil =>
    intro w hw b hb
    simp only [split, List.mem_singleton] at hw
    subst hw
    simp at hb
  | cons a r ih =>
    intro w hw b hb
    obtain ⟨w0, ws, hws⟩ := List.exists_cons_of_ne_nil (split_ne_nil p r)
    by_cases ha : p a = true
    · rw [split_cons_pos r ha] at hw
      rcases List.mem_cons.mp hw with rfl | hw
      · simp at hb
      · exact ih w hw b hb
    · have ha1 : p a = false := by simpa using ha
      rw [split_cons_neg ha1 hws] at hw
      rw [hws] at ih
      rcases List.mem_cons.mp hw with rfl | hw
      · rcases List.mem_cons.mp hb with rfl | hb
        · exact ha1
        · exact ih w0 (List.mem_cons_self _ _) b hb
      · exact ih w (List.mem_cons_of_mem _ hw) b hb

theorem split_flatten (p : Nat → Bool) : ∀ (s : Str),
    (split p s).flatten = s.filter (fun b => !p b) := by
  intro s
  induction s with
  | nil => simp [split]
  | cons a r ih =>
    obtain ⟨w0, ws, hws⟩ := List.exists_cons_of_ne_nil (split_ne_nil p r)
    by_cases ha : p a = true
    · rw [split_cons_pos r ha]
      simp [ih, ha]
    · have ha1 : p a = false := by simpa using ha
      rw [split_cons_neg ha1 hws]
      rw [hws] at ih
      simp only [List.flatten_cons] at ih
      simp [← ih, ha1]

theorem unchecked_next_append {s ch rest : Str} (h : unchecked_next s = some (ch, rest)) :
    ch ++ rest = s := by
  cases s with
  | nil => simp [unchecked_next] at h
  | cons b t =>
    simp only [unchecked_next] at h
    split_ifs at h <;>
    · simp only [Option.some.injEq, Prod.mk.injEq] at h
      rw [← h.1, ← h.2]
      exact List.take_append_drop _ _

theorem splitWordLoop_flatten (width : Nat) :
    ∀ (fuel : Nat) (chunk rest : Str) (count : Nat) (chunks : List Str), rest ≠ [] →
      splitWordLoop width fuel chunk rest count = some chunks →
      chunks.flatten = chunk ++ rest ∧ ∀ c ∈ chunks, c ≠ [] := by
  intro fuel
  induction fuel with
  | zero =>
    intro chunk rest count chunks hne h
    cases rest with
    | nil => exact absurd rfl hne
    | cons b t => simp [splitWordLoop] at h
  | succ fuel ih =>
    intro chunk rest count chunks hne h
    cases rest with
    | nil => exact absurd rfl hne
    | cons b t =>
      simp only [splitWordLoop] at h
      cases hu : unchecked_next (b :: t) with
      | none => simp [hu] at h
      | some r =>
        obtain ⟨ch, rest1⟩ := r
        have happ := unchecked_next_append hu
        have hch := unchecked_next_ne_nil hu
        simp only [hu] at h
        by_cases hcut : count + 1 = wsub width 1 ∨ rest1 = []
        · rw [if_pos hcut] at h
          cases hrec : splitWordLoop width fuel [] rest1 0 with
          | none => simp [hrec] at h
          | some chunks1 =>
            simp only [hrec, Option.some.injEq] at h
            subst h
            by_cases hr1 : rest1 = []
            · subst hr1
              rw [splitWordLoop_nil] at hrec
              simp only [Option.some.injEq] at hrec
              subst hrec
              rw [← happ]
              refine ⟨by simp, ?_⟩
              intro c hc
              simp only [List.mem_singleton] at hc
              subst hc
              simp [hch]
            · obtain ⟨hflat, hall⟩ := ih [] rest1 0 chunks1 hr1 hrec
              refine ⟨by simp [hflat, ← happ], ?_⟩
              intro c hc
              rcases List.mem_cons.mp hc with rfl | hc
              · simp [hch]
              · exact hall c hc
        · rw [if_neg hcut] at h
          have hr1 : rest1 ≠ [] := fun h0 => hcut (Or.inr h0)
          obtain ⟨hflat, hall⟩ := ih (chunk ++ ch) rest1 (count + 1) chunks hr1 h
          exact ⟨by simp [hflat, ← happ], hall⟩

/-- When the chunk size `width - 1` is zero the loop never cuts: a word comes back whole. -/
theorem splitWordLoop_whole (width : Nat) (hk : wsub width 1 = 0) :
    ∀ (fuel : Nat) (chunk rest : Str) (count : Nat) (chunks : List Str), rest ≠ [] →
      splitWordLoop width fuel chunk rest count = some chunks → chunks = [chunk ++ rest] := by
  intro fuel
  induction fuel with
  | zero =>
    intro chunk rest count chunks hne h
    cases rest with
    | nil => exact absurd rfl hne
    | cons b t => simp [splitWordLoop] at h
  | succ fuel ih =>
    intro chunk rest count chunks hne h
    cases rest with
    | nil => exact absurd rfl hne
    | cons b t =>
      simp only [splitWordLoop] at h
      cases hu : unchecked_next (b :: t) with
      | none => simp [hu] at h
      | some r =>
        obtain ⟨ch, rest1⟩ := r
        have happ := unchecked_next_append hu
        simp only [hu, hk] at h
        by_cases hr1 : rest1 = []
        · subst hr1
          rw [if_pos (Or.inr rfl), splitWordLoop_nil] at h
          simp only [Option.some.injEq] at h
          rw [← h, ← happ]
          simp
        · have hno : ¬ (count + 1 = 0 ∨ rest1 = []) := by
            rintro (h1 | h1)
            · omega
            · exact hr1 h1
          rw [if_neg hno] at h
          rw [ih (chunk ++ ch) rest1 (count + 1) chunks hr1 h, ← happ]
          simp

theorem sanitizeWords_flatten (width : Nat) :
    ∀ (words sw : List Str), sanitizeWords width words = some sw →
      sw.flatten = words.flatten ∧ ∀ w ∈ sw, ∀ b ∈ w, ∃ t ∈ words, b ∈ t := by
  intro words
  induction words with
  | nil =>
    intro sw h
    simp only [sanitizeWords, Option.some.injEq] at h
    subst h
    simp
  | cons word words ih =>
    intro sw h
    simp only [sanitizeWords] at h
    cases hrest : sanitizeWords width words with
    | none =>
      simp only [hrest] at h
      by_cases hfit : width ≥ word.length
      · rw [if_pos hfit] at h
        simp at h
      · rw [if_neg hfit] at h
        cases hch : splitWordLoop width word.length [] word 0 <;> simp [hch] at h
    | some rest =>
      obtain ⟨hflat, hmem⟩ := ih rest hrest
      simp only [hrest] at h
      by_cases hfit : width ≥ word.length
      · rw [if_pos hfit] at h
        simp only [Option.some.injEq] at h
        subst h
        refine ⟨by simp [hflat], ?_⟩
        intro w hw b hb
        rcases List.mem_cons.mp hw with rfl | hw
        · exact ⟨w, List.mem_cons_self _ _, hb⟩
        · obtain ⟨t, ht, hbt⟩ := hmem w hw b hb
          exact ⟨t, List.mem_cons_of_mem _ ht, hbt⟩
      · rw [if_neg hfit] at h
        cases hch : splitWordLoop width word.length [] word 0 with
        | none => simp [hch] at h
        | some chunks =>
          simp only [hch, Option.some.injEq] at h
          subst h
          have hne : word ≠ [] := by
            intro h0
            subst h0
            simp at hfit
          obtain ⟨hcf, _⟩ := splitWordLoop_flatten width _ _ _ _ _ hne hch
          simp only [List.nil_append] at hcf
          refine ⟨by simp [hflat, hcf], ?_⟩
          intro w hw b hb
          rcases List.mem_append.mp hw with hw | hw
          · refine ⟨word, List.mem_cons_self _ _, ?_⟩
            rw [← hcf]
            exact List.mem_flatten.mpr ⟨w, hw, hb⟩
          · obtain ⟨t, ht, hbt⟩ := hmem w hw b hb
            exact ⟨t, List.mem_cons_of_mem _ ht, hbt⟩

theorem mem_separator {extra b : Nat} (h : b ∈ (if extra ≠ 0 then [32] else [])) :
    b = 32 := by
  by_cases he : extra ≠ 0
  · rw [if_pos he] at h
    simpa using h
  · rw [if_neg he] at h
    simp at h

theorem packLoop_bytes (width size : Nat) :
    ∀ (words : List Str) (i : Nat) (accum : Str) (accumLength : Nat),
      ∀ l ∈ packLoop width size i words accum accumLength, ∀ b ∈ l,
        b = 32 ∨ b ∈ accum ∨ ∃ w ∈ words, b ∈ w := by
  intro words
  induction words with
  | nil =>
    intro i accum accumLength l hl b hb
    simp only [packLoop] at hl
    split_ifs at hl
    · simp only [List.mem_singleton] at hl
      subst hl
      exact Or.inr (Or.inl hb)
    · simp at hl
  | cons word rest ih =>
    intro i accum accumLength l hl b hb
    rw [packLoop_cons] at hl
    have lift : (b = 32 ∨ b ∈ word ∨ ∃ w ∈ rest, b ∈ w) →
        b = 32 ∨ b ∈ accum ∨ ∃ w ∈ word :: rest, b ∈ w := by
      rintro (h | h | ⟨w, hw, hbw⟩)
      · exact Or.inl h
      · exact Or.inr (Or.inr ⟨word, List.mem_cons_self _ _, h⟩)
      · exact Or.inr (Or.inr ⟨w, List.mem_cons_of_mem _ hw, hbw⟩)
    by_cases hlt : accumLength + (if i ≠ 0 ∧ size - 1 ≠ 0 then 1 else 0) + utf8Length word < width
    · rw [if_pos hlt] at hl
      rcases ih _ _ _ l hl b hb with h | h | ⟨w, hw, hbw⟩
      · exact Or.inl h
      · rcases List.mem_append.mp h with h | h
        · rcases List.mem_append.mp h with h | h
          · exact Or.inr (Or.inl h)
          · exact Or.inl (mem_separator h)
        · exact Or.inr (Or.inr ⟨word, List.mem_cons_self _ _, h⟩)
      · exact Or.inr (Or.inr ⟨w, List.mem_cons_of_mem _ hw, hbw⟩)
    · rw [if_neg hlt] at hl
      by_cases heq : utf8Length word = width
      · rw [if_pos heq] at hl
        rcases List.mem_cons.mp hl with rfl | hl
        · exact Or.inr (Or.inl hb)
        · rcases List.mem_cons.mp hl with rfl | hl
          · exact Or.inr (Or.inr ⟨l, List.mem_cons_self _ _, hb⟩)
          · rcases ih _ _ _ l hl b hb with h | h | ⟨w, hw, hbw⟩
            · exact Or.inl h
            · simp at h
            · exact Or.inr (Or.inr ⟨w, List.mem_cons_of_mem _ hw, hbw⟩)
      · rw [if_neg heq] at hl
        rcases List.mem_cons.mp hl with rfl | hl
        · exact Or.inr (Or.inl hb)
        · exact lift (ih _ _ _ l hl b hb)

/-! ### Lines without stray spaces -/

theorem chain_of_no_space : ∀ {w : Str}, 32 ∉ w →
    List.Chain' (fun x y : Nat => ¬ (x = 32 ∧ y = 32)) w := by
  intro w
  induction w with
  | nil => intro _; exact List.chain'_nil
  | cons a t ih =>
    intro h
    rw [List.chain'_cons']
    refine ⟨fun y _ hxy => h (by rw [hxy.1]; exact List.mem_cons_self _ _),
      ih (fun h1 => h (List.mem_cons_of_mem _ h1))⟩

theorem noDoubleSpace_iff_chain : ∀ (l : Str),
    noDoubleSpace l = true ↔ List.Chain' (fun x y : Nat => ¬ (x = 32 ∧ y = 32)) l := by
  intro l
  induction l with
  | nil => simp [noDoubleSpace]
  | cons a t ih =>
    cases t with
    | nil => simp [noDoubleSpace]
    | cons b rest =>
      rw [List.chain'_cons, ← ih]
      simp only [noDoubleSpace, Bool.and_eq_true, Bool.not_eq_true', Bool.and_eq_false_imp,
        beq_iff_eq, beq_eq_false_iff_ne, ne_eq, not_and]

theorem tidy_iff {l : Str} : Tidy l ↔ l.head? ≠ some 32 ∧ l.getLast? ≠ some 32 ∧
    List.Chain' (fun x y : Nat => ¬ (x = 32 ∧ y = 32)) l := by
  unfold Tidy
  rw [noDoubleSpace_iff_chain]

theorem tidy_of_no_space {w : Str} (h : 32 ∉ w) : Tidy w :=
  tidy_iff.mpr ⟨fun h1 => h (List.mem_of_mem_head? h1),
    fun h1 => h (List.mem_of_mem_getLast? h1), chain_of_no_space h⟩

theorem tidy_nil : Tidy [] := tidy_of_no_space (by simp)

theorem tidy_append {a w : Str} (ha : Tidy a) (hw : w ≠ []) (hns : 32 ∉ w) :
    Tidy (a ++ w) := by
  rw [tidy_iff] at ha ⊢
  obtain ⟨h1, h2, h3⟩ := ha
  obtain ⟨x, t, rfl⟩ := List.exists_cons_of_ne_nil hw
  have hlast : ∃ y, (x :: t).getLast? = some y := by
    cases hg : (x :: t).getLast? with
    | none => simp at hg
    | some y => exact ⟨y, rfl⟩
  obtain ⟨y, hy⟩ := hlast
  refine ⟨?_, ?_, ?_⟩
  · rw [List.head?_append]
    cases a with
    | nil =>
      simp only [List.head?_nil, Option.or, List.head?_cons, ne_eq, Option.some.injEq]
      intro hx
      exact hns (by rw [hx]; exact List.mem_cons_self _ _)
    | cons a0 at1 => simpa using h1
  · rw [List.getLast?_append, hy]
    simp only [Option.or, ne_eq, Option.some.injEq]
    intro h32
    exact hns (by rw [← h32]; exact List.mem_of_mem_getLast? hy)
  · rw [List.chain'_append]
    refine ⟨h3, chain_of_no_space hns, ?_⟩
    intro u _ v hv huv
    simp only [List.head?_cons, Option.mem_def, Option.some.injEq] at hv
    exact hns (by rw [← huv.2, ← hv]; exact List.mem_cons_self _ _)

theorem tidy_append_space {a w : Str} (ha : Tidy a) (hane : a ≠ []) (hw : w ≠ [])
    (hns : 32 ∉ w) : Tidy (a ++ [32] ++ w) := by
  rw [tidy_iff] at ha ⊢
  obtain ⟨h1, h2, h3⟩ := ha
  obtain ⟨x, t, rfl⟩ := List.exists_cons_of_ne_nil hw
  obtain ⟨a0, at1, rfl⟩ := List.exists_cons_of_ne_nil hane
  have hlast : ∃ y, (x :: t).getLast? = some y := by
    cases hg : (x :: t).getLast? with
    | none => simp at hg
    | some y => exact ⟨y, rfl⟩
  obtain ⟨y, hy⟩ := hlast
  refine ⟨?_, ?_, ?_⟩
  · simpa using h1
  · rw [List.getLast?_append, hy]
    simp only [Option.or, ne_eq, Option.some.injEq]
    intro h32
    exact hns (by rw [← h32]; exact List.mem_of_mem_getLast? hy)
  · rw [List.chain'_append, List.chain'_append]
    refine ⟨⟨h3, List.chain'_singleton _, ?_⟩, chain_of_no_space hns, ?_⟩
    · intro u hu v _ huv
      exact h2 (by rw [← huv.1]; exact hu)
    · intro u _ v hv huv
      simp only [List.head?_cons, Option.mem_def, Option.some.injEq] at hv
      exact hns (by rw [← huv.2, ← hv]; exact List.mem_cons_self _ _)

theorem packLoop_tidy (width size : Nat) :
    ∀ (words : List Str) (i : Nat) (accum : Str) (accumLength : Nat),
      (∀ w ∈ words, w ≠ [] ∧ 32 ∉ w ∧ utf8Length w ≠ width) → Tidy accum →
      (i ≠ 0 → accum ≠ []) →
      ∀ l ∈ packLoop width size i words accum accumLength, Tidy l := by
  intro words
  induction words with
  | nil =>
    intro i accum accumLength _ hacc _ l hl
    simp only [packLoop] at hl
    split_ifs at hl
    · simp only [List.mem_singleton] at hl
      subst hl
      exact hacc
    · simp at hl
  | cons word rest ih =>
    intro i accum accumLength hall hacc hi l hl
    obtain ⟨hne, hns, hlen⟩ := hall word (List.mem_cons_self _ _)
    have hrest : ∀ w ∈ rest, w ≠ [] ∧ 32 ∉ w ∧ utf8Length w ≠ width :=
      fun w hw => hall w (List.mem_cons_of_mem _ hw)
    rw [packLoop_cons] at hl
    by_cases hlt : accumLength + (if i ≠ 0 ∧ size - 1 ≠ 0 then 1 else 0) + utf8Length word < width
    · rw [if_pos hlt] at hl
      refine ih _ _ _ hrest ?_ (fun _ => by simp [hne]) l hl
      by_cases hex : i ≠ 0 ∧ size - 1 ≠ 0
      · simp only [hex, and_self, if_true, ne_eq, one_ne_zero, not_false_eq_true]
        exact tidy_append_space hacc (hi hex.1) hne hns
      · simp only [hex, if_false, ne_eq, not_true_eq_false, List.append_nil]
        exact tidy_append hacc hne hns
    · rw [if_neg hlt, if_neg hlen] at hl
      rcases List.mem_cons.mp hl with rfl | hl
      · exact hacc
      · exact ih _ _ _ hrest (tidy_of_no_space hns) (fun _ => hne) l hl

theorem sanitizeWords_tidy {width : Nat} (hw : 1 ≤ width) :
    ∀ (words sw : List Str),
      (∀ t ∈ words, WellFormed t ∧ t ≠ [] ∧ utf8Length t ≠ width) →
      sanitizeWords width words = some sw →
      ∀ w ∈ sw, w ≠ [] ∧ utf8Length w ≠ width := by
  intro words
  induction words with
  | nil =>
    intro sw _ h
    simp only [sanitizeWords, Option.some.injEq] at h
    subst h
    simp
  | cons word words ih =>
    intro sw hall h
    obtain ⟨hwf, hne, hlen⟩ := hall word (List.mem_cons_self _ _)
    simp only [sanitizeWords] at h
    cases hrest : sanitizeWords width words with
    | none =>
      simp only [hrest] at h
      by_cases hfit : width ≥ word.length
      · rw [if_pos hfit] at h
        simp at h
      · rw [if_neg hfit] at h
        cases hch : splitWordLoop width word.length [] word 0 <;> simp [hch] at h
    | some rest =>
      have hr := ih rest (fun t ht => hall t (List.mem_cons_of_mem _ ht)) hrest
      simp only [hrest] at h
      by_cases hfit : width ≥ word.length
      · rw [if_pos hfit] at h
        simp only [Option.some.injEq] at h
        subst h
        intro w hw1
        rcases List.mem_cons.mp hw1 with rfl | hw1
        · exact ⟨hne, hlen⟩
        · exact hr w hw1
      · rw [if_neg hfit] at h
        cases hch : splitWordLoop width word.length [] word 0 with
        | none => simp [hch] at h
        | some chunks =>
          simp only [hch, Option.some.injEq] at h
          subst h
          intro w hw1
          rcases List.mem_append.mp hw1 with hw1 | hw1
          · obtain ⟨_, hcne⟩ := splitWordLoop_flatten width _ _ _ _ _ hne hch
            refine ⟨hcne w hw1, ?_⟩
            by_cases hk : wsub width 1 = 0
            · have := splitWordLoop_whole width hk _ _ _ _ _ hne hch
              rw [this] at hw1
              simp only [List.nil_append, List.mem_singleton] at hw1
              rw [hw1]
              exact hlen
            · obtain ⟨chunks1, hch1, hall1⟩ := splitWordLoop_chars width hwf.chars word.length
                le_rfl [] 0 Chars.nil (fun _ => by omega)
              rw [hch] at hch1
              simp only [Option.some.injEq] at hch1
              subst hch1
              have hb := (hall1 w hw1).2 hk
              rw [wsub_one hw] at hb hk
              omega
          · exact hr w hw1

theorem not_whitespace_ne {b : Nat} (h : is_any_of whitespace b = false) :
    b ≠ 32 ∧ b ≠ 9 ∧ b ≠ 11 ∧ b ≠ 12 ∧ b ≠ 13 := by
  unfold is_any_of whitespace at h
  simp only [List.contains_eq_any_beq, List.any_cons, List.any_nil, Bool.or_false,
    Bool.or_eq_false_iff, beq_eq_false_iff_ne, ne_eq] at h
  obtain ⟨h1, h2, h3, h4, h5⟩ := h
  exact ⟨h1, h2, h3, h4, h5⟩

/-- The bytes of the lines of the slow path: every byte of a returned line is a space or a
byte of a token of the line, and so is no whitespace byte other than the space. -/
theorem breakIntoSubLines_slow_bytes {line : Str} {width : Nat} {out : List Str}
    (hw : 1 ≤ width) (h24 : width < 2 ^ 24) (hlong : width < utf8Length line)
    (h : breakIntoSubLines line width = some out) :
    ∀ l ∈ out, ∀ b ∈ l, b = 32 ∨ is_any_of whitespace b = false := by
  have hslow : ¬ ceilFloatDiv (toFloat (utf8Length line)) (toFloat width) ≤ 1 := by
    rw [count_le_one_iff hw h24]
    omega
  rw [breakIntoSubLines_eq_slow hw hslow] at h
  cases hsw : sanitizeWords width (split (is_any_of whitespace) line) with
  | none => simp [hsw] at h
  | some sw =>
    simp only [hsw, Option.map, Option.some.injEq] at h
    subst h
    intro l hl b hb
    rcases packLoop_bytes _ _ _ _ _ _ l hl b hb with h1 | h1 | ⟨w, hw1, hbw⟩
    · exact Or.inl h1
    · simp at h1
    · obtain ⟨t, ht, hbt⟩ := (sanitizeWords_flatten width _ _ hsw).2 w hw1 b hbw
      exact Or.inr (split_no_pred line t ht b hbt)

/-- C16: the test that decides whether a token is cut measures bytes, not code points.  At
width 3 the line of three two-byte characters, a space and a letter is on the slow path; its
first token has 3 code points, which is not more than the width, and 6 bytes; and it comes
back cut into a chunk of two characters and a chunk of one. -/
theorem breakIntoSubLines_cuts_short_token :
    WellFormed [0xc3, 0xa9, 0xc3, 0xa9, 0xc3, 0xa9, 0x20, 0x61] ∧
    3 < utf8Length [0xc3, 0xa9, 0xc3, 0xa9, 0xc3, 0xa9, 0x20, 0x61] ∧
    split (is_any_of whitespace) [0xc3, 0xa9, 0xc3, 0xa9, 0xc3, 0xa9, 0x20, 0x61] =
      [[0xc3, 0xa9, 0xc3, 0xa9, 0xc3, 0xa9], [0x61]] ∧
    distance [0xc3, 0xa9, 0xc3, 0xa9, 0xc3, 0xa9] = some 3 ∧
    [0xc3, 0xa9, 0xc3, 0xa9, 0xc3, 0xa9].length = 6 ∧
    breakIntoSubLines [0xc3, 0xa9, 0xc3, 0xa9, 0xc3, 0xa9, 0x20, 0x61] 3 =
      some [[0xc3, 0xa9, 0xc3, 0xa9], [0xc3, 0xa9], [0x61]] := by
  decide

/-! ### The wrapper keeps the content of the line -/

theorem stripWhitespace_append (a b : Str) :
    stripWhitespace (a ++ b) = stripWhitespace a ++ stripWhitespace b := by
  simp [stripWhitespace]

theorem stripWhitespace_separator (extra : Nat) :
    stripWhitespace (if extra ≠ 0 then [32] else []) = [] := by
  by_cases he : extra ≠ 0
  · rw [if_pos he]; decide
  · rw [if_neg he]; rfl

theorem packLoop_stripWhitespace (width size : Nat) :
    ∀ (words : List Str) (i : Nat) (accum : Str) (accumLength : Nat),
      stripWhitespace (packLoop width size i words accum accumLength).flatten =
        stripWhitespace accum ++ stripWhitespace words.flatten := by
  intro words
  induction words with
  | nil =>
    intro i accum accumLength
    simp only [packLoop]
    split_ifs with h
    · simp [stripWhitespace]
    · have : accum = [] := List.length_eq_zero.mp (by simpa using h)
      subst this
      simp [stripWhitespace]
  | cons word rest ih =>
    intro i accum accumLength
    rw [packLoop_cons]
    by_cases hlt : accumLength + (if i ≠ 0 ∧ size - 1 ≠ 0 then 1 else 0) + utf8Length word < width
    · rw [if_pos hlt, ih, List.flatten_cons, stripWhitespace_append, stripWhitespace_append,
        stripWhitespace_append, stripWhitespace_separator]
      simp
    · rw [if_neg hlt]
      by_cases heq : utf8Length word = width
      · rw [if_pos heq]
        simp only [List.flatten_cons, stripWhitespace_append, ih]
        simp [stripWhitespace]
      · rw [if_neg heq]
        simp only [List.flatten_cons, stripWhitespace_append, ih]

theorem stripWhitespace_idem (s : Str) :
    stripWhitespace (s.filter (fun b => !is_any_of whitespace b)) = stripWhitespace s := by
  simp [stripWhitespace, List.filter_filter]

/-- C20: whenever the wrapper returns, at any width of at least 1, the returned lines joined
in order and stripped of every whitespace byte (space, `\t`, `\v`, `\f`, `\r`) are the line
stripped of those bytes: no other byte is dropped, repeated or moved.  The wrapper does return
when the line is well-formed UTF-8. -/
theorem breakIntoSubLines_content (line : Str) (width : Nat) (hw : 1 ≤ width) :
    (WellFormed line → ∃ out, breakIntoSubLines line width = some out) ∧
    ∀ out, breakIntoSubLines line width = some out →
      stripWhitespace out.flatten = stripWhitespace line := by
  constructor
  · intro hwf
    obtain ⟨out, hout, _⟩ := breakIntoSubLines_returns hwf hw
    exact ⟨out, hout⟩
  · intro out h
    by_cases hshort : ceilFloatDiv (toFloat (utf8Length line)) (toFloat width) ≤ 1
    · rw [breakIntoSubLines_fast hw hshort] at h
      simp only [Option.some.injEq] at h
      subst h
      simp
    · rw [breakIntoSubLines_eq_slow hw hshort] at h
      cases hsw : sanitizeWords width (split (is_any_of whitespace) line) with
      | none => simp [hsw] at h
      | some sw =>
        simp only [hsw, Option.map, Option.some.injEq] at h
        subst h
        rw [packLoop_stripWhitespace, (sanitizeWords_flatten width _ _ hsw).1, split_flatten,
          stripWhitespace_idem]
        simp [stripWhitespace]

/-- Witness of `breakIntoSubLines_content`: the line `"a  b\tcdefgh"` at width 4. -/
theorem breakIntoSubLines_content_witness :
    1 ≤ 4 ∧ WellFormed [97, 32, 32, 98, 9, 99, 100, 101, 102, 103, 104] ∧
    (∃ out, breakIntoSubLines [97, 32, 32, 98, 9, 99, 100, 101, 102, 103, 104] 4 = some out) ∧
    breakIntoSubLines [97, 32, 32, 98, 9, 99, 100, 101, 102, 103, 104] 4 =
      some [[97, 32], [98], [99, 100, 101], [102, 103, 104]] ∧
    stripWhitespace [[97, 32], [98], [99, 100, 101], [102, 103, 104]].flatten =
      stripWhitespace [97, 32, 32, 98, 9, 99, 100, 101, 102, 103, 104] :=
  ⟨by decide, by decide,
    (breakIntoSubLines_content [97, 32, 32, 98, 9, 99, 100, 101, 102, 103, 104] 4
      (by decide)).1 (by decide),
    by decide,
    (breakIntoSubLines_content [97, 32, 32, 98, 9, 99, 100, 101, 102, 103, 104] 4
      (by decide)).2 _ (by decide)⟩

namespace SimpleScrollAdapter

/-! ### What `DrawPage` writes -/

theorem writtenLines_append (a b : List SurfaceOp) :
    writtenLines (a ++ b) = writtenLines a ++ writtenLines b := by
  simp [writtenLines]

theorem writtenLines_attrOn (e : Entry) :
    writtenLines (if e.GetAttrs ≠ -1 then [SurfaceOp.attrOn e.GetAttrs] else []) = [] := by
  split_ifs <;> rfl

theorem writtenLines_attrOff (e : Entry) :
    writtenLines (if e.GetAttrs ≠ -1 then [SurfaceOp.attrOff e.GetAttrs] else []) = [] := by
  split_ifs <;> rfl

theorem drawLines_spec (e : Entry) : ∀ (left i rem : Nat), i + left = e.lines.length →
    ∃ ops, drawLines e i left rem = some (ops, rem - min rem left) ∧
      writtenLines ops = ((e.lines.drop i).take rem).map c_str := by
  intro left
  induction left with
  | zero =>
    intro i rem hi
    refine ⟨[], by simp [drawLines], ?_⟩
    rw [List.drop_eq_nil_of_le (by omega)]
    simp [writtenLines]
  | succ left ih =>
    intro i rem hi
    cases rem with
    | zero => exact ⟨[], by simp [drawLines], by simp [writtenLines]⟩
    | succ rem =>
      have hlt : i < e.lines.length := by omega
      obtain ⟨ops, hops, hwr⟩ := ih (i + 1) rem (by omega)
      refine ⟨SurfaceOp.write (c_str (e.lines.get ⟨i, hlt⟩)) :: ops, ?_, ?_⟩
      · simp only [drawLines, Nat.add_one_ne_zero, if_false, Entry.GetLine,
          List.getElem?_eq_getElem hlt, Nat.add_sub_cancel, hops]
        simp only [List.get_eq_getElem, Option.some.injEq, Prod.mk.injEq, true_and]
        omega
      · rw [List.drop_eq_getElem_cons hlt, List.take_succ_cons, List.map_cons, ← hwr]
        simp [writtenLines, SurfaceOp.line?]

theorem allLines_cons (e : Entry) (es : List Entry) :
    allLines (e :: es) = e.lines ++ allLines es := by
  simp [allLines]

theorem drawEntries_cons (e : Entry) (rest : List Entry) (c rem : Nat)
    {ops : List SurfaceOp} {rem1 : Nat}
    (h : drawLines e c (e.GetLineCount - c) rem = some (ops, rem1)) :
    drawEntries (e :: rest) c rem =
      if rest ≠ [] ∧ rem1 ≠ 0 then
        (drawEntries rest 0 rem1).map (fun more =>
          (if e.GetAttrs ≠ -1 then [SurfaceOp.attrOn e.GetAttrs] else []) ++ ops ++
            (if e.GetAttrs ≠ -1 then [SurfaceOp.attrOff e.GetAttrs] else []) ++ more)
      else
        some ((if e.GetAttrs ≠ -1 then [SurfaceOp.attrOn e.GetAttrs] else []) ++ ops ++
          (if e.GetAttrs ≠ -1 then [SurfaceOp.attrOff e.GetAttrs] else [])) := by
  rw [drawEntries]
  simp only [h]
  by_cases hgo : rest ≠ [] ∧ rem1 ≠ 0
  · rw [if_pos hgo, if_pos hgo]
    cases drawEntries rest 0 rem1 <;> rfl
  · rw [if_neg hgo, if_neg hgo]

theorem drawEntries_spec : ∀ (rest : List Entry) (e : Entry) (c rem : Nat),
    (∀ x ∈ e :: rest, x.lines ≠ []) → c ≤ e.lines.length →
    ∃ ops, drawEntries (e :: rest) c rem = some ops ∧
      writtenLines ops = (((allLines (e :: rest)).drop c).take rem).map c_str := by
  intro rest
  induction rest with
  | nil =>
    intro e c rem hall hc
    have hcount := Entry.GetLineCount_eq_length (hall e (List.mem_cons_self _ _))
    obtain ⟨ops1, hops1, hwr1⟩ := drawLines_spec e (e.lines.length - c) c rem (by omega)
    have hops2 : drawLines e c (e.GetLineCount - c) rem =
        some (ops1, rem - min rem (e.lines.length - c)) := by
      rw [hcount]
      exact hops1
    refine ⟨(if e.GetAttrs ≠ -1 then [SurfaceOp.attrOn e.GetAttrs] else []) ++ ops1 ++
      (if e.GetAttrs ≠ -1 then [SurfaceOp.attrOff e.GetAttrs] else []), ?_, ?_⟩
    · rw [drawEntries_cons e [] c rem hops2, if_neg (by simp)]
    · rw [writtenLines_append, writtenLines_append, writtenLines_attrOn, writtenLines_attrOff,
        hwr1]
      simp [allLines]
  | cons f rest ih =>
    intro e c rem hall hc
    have hcount := Entry.GetLineCount_eq_length (hall e (List.mem_cons_self _ _))
    obtain ⟨ops1, hops1, hwr1⟩ := drawLines_spec e (e.lines.length - c) c rem (by omega)
    have hops2 : drawLines e c (e.GetLineCount - c) rem =
        some (ops1, rem - min rem (e.lines.length - c)) := by
      rw [hcount]
      exact hops1
    have hbody : ∀ more : List SurfaceOp,
        writtenLines ((if e.GetAttrs ≠ -1 then [SurfaceOp.attrOn e.GetAttrs] else []) ++ ops1 ++
          (if e.GetAttrs ≠ -1 then [SurfaceOp.attrOff e.GetAttrs] else []) ++ more) =
        ((e.lines.drop c).take rem).map c_str ++ writtenLines more := by
      intro more
      rw [writtenLines_append, writtenLines_append, writtenLines_append, writtenLines_attrOn,
        writtenLines_attrOff, hwr1]
      simp
    have hdrop : (allLines (e :: f :: rest)).drop c = e.lines.drop c ++ allLines (f :: rest) := by
      rw [allLines_cons, List.drop_append_of_le_length hc]
    have hlen : (e.lines.drop c).length = e.lines.length - c := by simp
    by_cases hgo : rem - min rem (e.lines.length - c) ≠ 0
    · obtain ⟨more, hmore, hwr2⟩ := ih f 0 (rem - min rem (e.lines.length - c))
        (fun x hx => hall x (List.mem_cons_of_mem _ hx)) (by omega)
      refine ⟨(if e.GetAttrs ≠ -1 then [SurfaceOp.attrOn e.GetAttrs] else []) ++ ops1 ++
        (if e.GetAttrs ≠ -1 then [SurfaceOp.attrOff e.GetAttrs] else []) ++ more, ?_, ?_⟩
      · rw [drawEntries_cons e (f :: rest) c rem hops2, if_pos ⟨by simp, hgo⟩, hmore]
        rfl
      · rw [hbody, hwr2, hdrop, List.take_append_eq_append_take, hlen, List.drop_zero,
          List.map_append]
        congr 3
        omega
    · refine ⟨(if e.GetAttrs ≠ -1 then [SurfaceOp.attrOn e.GetAttrs] else []) ++ ops1 ++
        (if e.GetAttrs ≠ -1 then [SurfaceOp.attrOff e.GetAttrs] else []), ?_, ?_⟩
      · rw [drawEntries_cons e (f :: rest) c rem hops2, if_neg (fun h => hgo h.2)]
      · have := hbody []
        rw [List.append_nil] at this
        rw [this, hdrop, List.take_append_of_le_length (by rw [hlen]; omega)]
        simp [writtenLines]

theorem length_allLines : ∀ (es : List Entry), (∀ e ∈ es, e.lines ≠ []) →
    (allLines es).length = totalCount es := by
  intro es
  induction es with
  | nil => intro _; rfl
  | cons e es ih =>
    intro hall
    rw [allLines_cons, totalCount_cons, List.length_append,
      ih (fun x hx => hall x (List.mem_cons_of_mem _ hx)),
      Entry.GetLineCount_eq_length (hall e (List.mem_cons_self _ _))]

theorem allLines_drop (es : List Entry) (hall : ∀ e ∈ es, e.lines ≠ []) (g n : Nat)
    (hn : totalCount (es.take g) ≤ n) :
    (allLines es).drop n = (allLines (es.drop g)).drop (n - totalCount (es.take g)) := by
  have hlen := length_allLines (es.take g) (fun e he => hall e (List.mem_of_mem_take he))
  have hsplit : allLines es = allLines (es.take g) ++ allLines (es.drop g) := by
    unfold allLines
    rw [← List.flatMap_append, List.take_append_drop]
  rw [hsplit, List.drop_append_eq_append_drop, List.drop_eq_nil_of_le (by omega), hlen]
  simp

theorem c_str_of_no_zero {l : Str} (h : 0 ∉ l) : c_str l = l := by
  unfold c_str
  rw [List.takeWhile_eq_self_iff]
  intro x hx
  simp only [ne_eq, decide_not, Bool.not_eq_true', decide_eq_false_iff_not]
  intro h0
  exact h (h0 ▸ hx)

/-- What `DrawPage` does on a store that satisfies the invariants, whose entries all hold
lines, from which nothing has been evicted since the last indexing and that holds at least one
line and fewer than `2 ^ 63`: it leaves the store as it is and writes the C strings of the
lines from the clamped line number on, as many as the height allows. -/
theorem DrawPage_spec {s : SimpleScrollAdapter} (hinv : Invariant s)
    (hlines : ∀ e ∈ s.entries, e.lines ≠ []) (hro : s.removedOffset = 0)
    (hpos : 0 < s.lineCount) (hsize : 2 * s.lineCount < SIZE_MOD) (L : Nat) :
    ∃ ops, s.DrawPage L = some (s, ops) ∧
      writtenLines ops =
        (((allLines s.entries).drop (min L (s.lineCount - 1))).take s.height).map c_str := by
  have hclamp : (if L ≥ s.lineCount then s.lineCount - 1 else L) = min L (s.lineCount - 1) := by
    split_ifs <;> omega
  have hlen := length_le_totalCount s.entries
  have hlc := hinv.2
  have hmax : s.lineCount ≠ SIZE_MAX := by
    unfold SIZE_MAX
    unfold SIZE_MOD at hsize
    omega
  obtain ⟨g, hg, hglt, hlo, hhi⟩ := FindEntryIndex_returns (L := min L (s.lineCount - 1)) hinv
    (by omega) hmax (by omega)
  have hdropg : s.entries.drop g = s.entries.get ⟨g, hglt⟩ :: s.entries.drop (g + 1) := by
    rw [List.drop_eq_getElem_cons hglt]
    rfl
  have hindex : (s.entries.get ⟨g, hglt⟩).GetIndex = totalCount (s.entries.take g) := by
    have := indexedFrom_get hinv.1 g hglt
    unfold Entry.GetIndex
    rw [this, hro]
    omega
  have hcount : (s.entries.get ⟨g, hglt⟩).GetLineCount =
      (s.entries.get ⟨g, hglt⟩).lines.length :=
    Entry.GetLineCount_eq_length (hlines _ (List.get_mem _ _ _))
  have hnext := totalCount_take_succ s.entries g hglt
  have hc : wsub (min L (s.lineCount - 1)) (totalCount (s.entries.take g)) =
      min L (s.lineCount - 1) - totalCount (s.entries.take g) := by
    unfold wsub
    rw [if_pos hlo]
  obtain ⟨ops, hops, hwr⟩ := drawEntries_spec (s.entries.drop (g + 1)) (s.entries.get ⟨g, hglt⟩)
    (min L (s.lineCount - 1) - totalCount (s.entries.take g)) s.height
    (by
      intro x hx
      rw [← hdropg] at hx
      exact hlines x (List.mem_of_mem_drop hx))
    (by rw [← hcount]; omega)
  refine ⟨SurfaceOp.clear :: ops, ?_, ?_⟩
  · unfold DrawPage
    have hnot : ¬ s.lineCount ≤ 0 := by omega
    rw [if_neg hnot, hclamp]
    simp only [hg, hdropg, hindex, hc, hops]
  · rw [allLines_drop s.entries hlines g _ hlo, hdropg, ← hwr]
    simp [writtenLines, SurfaceOp.line?]

end SimpleScrollAdapter

namespace SimpleScrollAdapter

/-- C18: `DrawPage` brackets an entry of which it writes no line.  On the store of three
one-line entries, from which nothing has been evicted, `DrawPage(2)` starts at entry 1 (the
index `FindEntryIndex` returns for line 2) with an offset equal to its line count: it calls
`wattron(4)` and `wattroff(4)` around no line, then writes the line of entry 2 inside
`wattron(5)` and `wattroff(5)`.  Two attribute-on calls are made and one entry has a line on
the page. -/
theorem DrawPage_empty_bracket :
    Reachable threeLineStore ∧ threeLineStore.removedOffset = 0 ∧
    threeLineStore.FindEntryIndex 2 = some (threeLineStore, 1) ∧
    threeLineStore.DrawPage 2 = some (threeLineStore,
      [SurfaceOp.clear, SurfaceOp.attrOn 4, SurfaceOp.attrOff 4, SurfaceOp.attrOn 5,
        SurfaceOp.write (ascii "c"), SurfaceOp.attrOff 5]) :=
  ⟨threeLineStore_reachable, by decide, by decide, by decide⟩

theorem zeroByteStore_reachable : Reachable zeroByteStore :=
  reachable_addLines [([97, 0, 98], -1)]
    (Reachable.setDisplaySize 10 3 (Reachable.create 80 24)
      (by decide : (SimpleScrollAdapter.create 80 24).SetDisplaySize 10 3 =
        some (SimpleScrollAdapter.create 10 3)))
    (by decide)

/-- C19, as stated, fails.  The store `zeroByteStore` is reachable at width 10, nothing has
been evicted from it, and its one physical line is the three bytes `a`, zero, `b`; `DrawPage(0)`
writes the one byte `a`: the line goes through `c_str()` on its way to `wprintw`. -/
theorem DrawPage_cuts_at_zero_byte :
    Reachable zeroByteStore ∧ Invariant zeroByteStore ∧ zeroByteStore.removedOffset = 0 ∧
    2 ≤ zeroByteStore.width ∧ 0 < zeroByteStore.GetLineCount ∧
    allLines zeroByteStore.entries = [[97, 0, 98]] ∧
    zeroByteStore.DrawPage 0 =
      some (zeroByteStore, [SurfaceOp.clear, SurfaceOp.write [97]]) :=
  ⟨zeroByteStore_reachable, zeroByteStore_reachable.invariant, by decide, by decide, by decide,
    by decide, by decide⟩

/-- C19, amended: on a store that satisfies the store invariants, whose entries all hold at
least one line (as in every reachable store of width at least 2), from which nothing has been
evicted since the last indexing (`removedOffset = 0`) and that holds at least one line (and
fewer than `2 ^ 63`), for every line number `L` and every height, `DrawPage` returns, leaves
the store as it is, and writes, in order, the flattened physical lines numbered
`L1 .. min(L1 + height, lineCount) - 1` with `L1 = min(L, lineCount - 1)`, each as the C
string it holds, that is up to its first zero byte; when no line holds a zero byte it writes
exactly those lines. -/
theorem DrawPage_writes_lines (s : SimpleScrollAdapter) (L : Nat) (hinv : Invariant s)
    (hlines : ∀ e ∈ s.entries, e.lines ≠ []) (hro : s.removedOffset = 0)
    (hpos : 0 < s.lineCount) (hsize : 2 * s.lineCount < SIZE_MOD) :
    ∃ ops, s.DrawPage L = some (s, ops) ∧
      writtenLines ops =
        (((allLines s.entries).drop (min L (s.lineCount - 1))).take s.height).map c_str ∧
      ((∀ l ∈ allLines s.entries, 0 ∉ l) →
        writtenLines ops =
          ((allLines s.entries).drop (min L (s.lineCount - 1))).take s.height) := by
  obtain ⟨ops, hops, hwr⟩ := DrawPage_spec hinv hlines hro hpos hsize L
  refine ⟨ops, hops, hwr, fun hz => ?_⟩
  rw [hwr]
  conv_rhs => rw [← List.map_id (List.take s.height
    (List.drop (min L (s.lineCount - 1)) (allLines s.entries)))]
  apply List.map_congr_left
  intro l hl
  exact c_str_of_no_zero (hz l (List.mem_of_mem_drop (List.mem_of_mem_take hl)))

/-- Witness of `DrawPage_writes_lines`: `DrawPage(2)` on the store of three one-line entries,
where the search returns the entry before the one that holds line 2. -/
theorem DrawPage_writes_lines_witness :
    Invariant threeLineStore ∧ (∀ e ∈ threeLineStore.entries, e.lines ≠ []) ∧
    threeLineStore.removedOffset = 0 ∧ 0 < threeLineStore.lineCount ∧
    2 * threeLineStore.lineCount < SIZE_MOD ∧
    (∀ l ∈ allLines threeLineStore.entries, 0 ∉ l) ∧
    ∃ ops, threeLineStore.DrawPage 2 = some (threeLineStore, ops) ∧
      writtenLines ops = [ascii "c"] := by
  refine ⟨threeLineStore_reachable.invariant, by decide, by decide, by decide, by decide,
    by decide, ?_⟩
  obtain ⟨ops, hops, _, hwr⟩ := DrawPage_writes_lines threeLineStore 2
    threeLineStore_reachable.invariant (by decide) (by decide) (by decide) (by decide)
  exact ⟨ops, hops, by rw [hwr (by decide)]; decide⟩

end SimpleScrollAdapter

end Musikbox
